import Mathlib

/-!
# Morse codec (`submit/prj1-sol/morse.c`)

A shallow embedding of the bit-level Morse encoder and decoder together with
the properties stated for it.

Conventions of the embedding.

* A `Byte` buffer is a `List Nat`; element `i` of the list is `array[i]`.
  Reads use `List.getD _ _ 0`, writes use `List.set` and truncate the stored
  value to eight bits.
* The C counters are 32-bit `unsigned`.  The bit bound of the decoder and of
  `run_length`, the product `nBytes * BITS_PER_BYTE`, is taken modulo `2^32`;
  bit offsets stay at or below such a bound and are natural numbers.  In the
  encoder the buffer is large enough for the output (as its documentation
  assumes) and the offsets are natural numbers.
* A `while` loop whose guard compares a counter with a bound recurses on the
  distance to that bound; the two main loops take explicit fuel and return
  `none` when it runs out, and the theorems show that they return `some _`.
* `toupper` of a byte and a character of the table are bytes, so the
  conversions `Byte c = toupper(..)` and `(Byte)ch` change nothing and are
  left out.
* The pending code `code[0..codeIndex)` of the decoder is a `List Char`;
  `codeIndex` is its length.  The output `text[0..textIndex)` is a `List Nat`;
  `textIndex` is its length.
-/

namespace Morse

/-! ## Environment: header constants and C library -/

/-- Modelled from the spec: `BITS_PER_BYTE` is declared in `morse.h`, which is
not part of the sources; the byte width is 8. -/
def BITS_PER_BYTE : Nat := 8

/-- C library `isalnum` in the "C" locale: ASCII digits and letters. -/
def isalnum (c : Nat) : Bool :=
  (48 ≤ c && c ≤ 57) || (65 ≤ c && c ≤ 90) || (97 ≤ c && c ≤ 122)

/-- C library `toupper` in the "C" locale. -/
def toupper (c : Nat) : Nat :=
  if 97 ≤ c && c ≤ 122 then c - 32 else c

/-! ## Code table -/

/-- The `TextMorse` table entry. -/
structure TextMorse where
  c : Char
  code : List Char
deriving DecidableEq

/-- The table `char_codes[]`. -/
def char_codes : List TextMorse := [
  ⟨'A', ['.', '-']⟩,
  ⟨'B', ['-', '.', '.', '.']⟩,
  ⟨'C', ['-', '.', '-', '.']⟩,
  ⟨'D', ['-', '.', '.']⟩,
  ⟨'E', ['.']⟩,
  ⟨'F', ['.', '.', '-', '.']⟩,
  ⟨'G', ['-', '-', '.']⟩,
  ⟨'H', ['.', '.', '.', '.']⟩,
  ⟨'I', ['.', '.']⟩,
  ⟨'J', ['.', '-', '-', '-']⟩,
  ⟨'K', ['-', '.', '-']⟩,
  ⟨'L', ['.', '-', '.', '.']⟩,
  ⟨'M', ['-', '-']⟩,
  ⟨'N', ['-', '.']⟩,
  ⟨'O', ['-', '-', '-']⟩,
  ⟨'P', ['.', '-', '-', '.']⟩,
  ⟨'Q', ['-', '-', '.', '-']⟩,
  ⟨'R', ['.', '-', '.']⟩,
  ⟨'S', ['.', '.', '.']⟩,
  ⟨'T', ['-']⟩,
  ⟨'U', ['.', '.', '-']⟩,
  ⟨'V', ['.', '.', '.', '-']⟩,
  ⟨'W', ['.', '-', '-']⟩,
  ⟨'X', ['-', '.', '.', '-']⟩,
  ⟨'Y', ['-', '.', '-', '-']⟩,
  ⟨'Z', ['-', '-', '.', '.']⟩,
  ⟨'1', ['.', '-', '-', '-', '-']⟩,
  ⟨'2', ['.', '.', '-', '-', '-']⟩,
  ⟨'3', ['.', '.', '.', '-', '-']⟩,
  ⟨'4', ['.', '.', '.', '.', '-']⟩,
  ⟨'5', ['.', '.', '.', '.', '.']⟩,
  ⟨'6', ['-', '.', '.', '.', '.']⟩,
  ⟨'7', ['-', '-', '.', '.', '.']⟩,
  ⟨'8', ['-', '-', '-', '.', '.']⟩,
  ⟨'9', ['-', '-', '-', '-', '.']⟩,
  ⟨'0', ['-', '-', '-', '-', '-']⟩,
  ⟨'\x00', ['.', '-', '.', '-', '.']⟩ ]

/-- The linear scan of `char_to_morse`; `none` is the `NULL` result. -/
def char_to_morse_scan (c : Nat) : List TextMorse → Option (List Char)
  | [] => none
  | e :: rest => if e.c.toNat = c then some e.code else char_to_morse_scan c rest

/-- `char_to_morse(c)`: the code of byte `c`, `none` for `NULL`. -/
def char_to_morse (c : Nat) : Option (List Char) :=
  char_to_morse_scan c char_codes

/-- The linear scan of `morse_to_char`; `strcmp(..) == 0` is list equality. -/
def morse_to_char_scan (code : List Char) : List TextMorse → Int
  | [] => -1
  | e :: rest => if e.code = code then (e.c.toNat : Int) else morse_to_char_scan code rest

/-- `morse_to_char(code)`: the character of `code`, `-1` when there is none. -/
def morse_to_char (code : List Char) : Int :=
  morse_to_char_scan code char_codes

/-! ## Bit addressing -/

/-- `byte_bit_mask(bitIndex)`. -/
def byte_bit_mask (bitIndex : Nat) : Nat :=
  1 <<< (BITS_PER_BYTE - 1 - bitIndex)

/-- The loop of `get_log2_power_of_2` on 32-bit `unsigned` values; `none` when
the fuel runs out. -/
def get_log2_power_of_2_loop (powerOf2 : Nat) : Nat → Nat → Nat → Option Nat
  | 0, _, _ => none
  | fuel + 1, value, count =>
    if value ≠ powerOf2 then
      get_log2_power_of_2_loop powerOf2 fuel ((value <<< 1) % 4294967296) (count + 1)
    else some count

/-- `get_log2_power_of_2(powerOf2)`.  After 32 shifts `value` is 0 and stays 0,
so 34 passes decide whether the loop ever stops. -/
def get_log2_power_of_2 (powerOf2 : Nat) : Option Nat :=
  get_log2_power_of_2_loop powerOf2 34 1 0

/-- `get_bit_index(bitOffset)`. -/
def get_bit_index (bitOffset : Nat) : Nat :=
  bitOffset &&& (BITS_PER_BYTE - 1)

/-- `get_byte_offset(bitOffset)`.  The call `get_log2_power_of_2(BITS_PER_BYTE)`
returns (see `get_log2_BITS_PER_BYTE`), so the `none` arm is never taken. -/
def get_byte_offset (bitOffset : Nat) : Nat :=
  match get_log2_power_of_2 BITS_PER_BYTE with
  | some log2 => bitOffset >>> log2
  | none => 0

/-- `get_bit_at_offset(array, bitOffset)`. -/
def get_bit_at_offset (array : List Nat) (bitOffset : Nat) : Nat :=
  let byteOffset := get_byte_offset bitOffset
  let bitIndex := get_bit_index bitOffset
  let mask := byte_bit_mask bitIndex
  if (array.getD byteOffset 0 &&& mask) ≠ 0 then 1 else 0

/-- `set_bit_at_offset(array, bitOffset, bit)`; `~mask` is the 32-bit
complement and the store truncates to a `Byte`. -/
def set_bit_at_offset (array : List Nat) (bitOffset bit : Nat) : List Nat :=
  let byteOffset := get_byte_offset bitOffset
  let bitIndex := get_bit_index bitOffset
  let mask := byte_bit_mask bitIndex
  if bit ≠ 0 then
    array.set byteOffset ((array.getD byteOffset 0 ||| mask) % 256)
  else
    array.set byteOffset ((array.getD byteOffset 0 &&& (4294967295 - mask)) % 256)

/-- `set_bits_at_offset(array, bitOffset, bit, count)`: the buffer after the
`for` loop and the returned offset. -/
def set_bits_at_offset (array : List Nat) (bitOffset bit count : Nat) : List Nat × Nat :=
  ((List.range count).foldl (fun a i => set_bit_at_offset a (bitOffset + i) bit) array,
   bitOffset + count)

/-- The `while` loop of `run_length`, by recursion on
`maxBitOffset - currentOffset`. -/
def run_length_loop (bytes : List Nat) (maxBitOffset initialBit : Nat) : Nat → Nat → Nat → Nat
  | 0, count, _ => count
  | dist + 1, count, currentOffset =>
    if currentOffset < maxBitOffset then
      if get_bit_at_offset bytes currentOffset ≠ initialBit then count
      else run_length_loop bytes maxBitOffset initialBit dist (count + 1) (currentOffset + 1)
    else count

/-- `run_length(bytes, nBytes, bitOffset)`; `maxBitOffset` is the product
`nBytes * BITS_PER_BYTE` in 32-bit `unsigned` arithmetic. -/
def run_length (bytes : List Nat) (nBytes bitOffset : Nat) : Nat :=
  let maxBitOffset := (nBytes * BITS_PER_BYTE) % 4294967296
  if bitOffset ≥ maxBitOffset then 0
  else
    let initialBit := get_bit_at_offset bytes bitOffset
    run_length_loop bytes maxBitOffset initialBit (maxBitOffset - (bitOffset + 1)) 1 (bitOffset + 1)

/-! ## Encoder -/

/-- The loop `while (textIndex < nText && !isalnum(text[textIndex])) textIndex++`,
by recursion on `nText - textIndex`. -/
def skip_non_alnum (text : List Nat) (nText : Nat) : Nat → Nat → Nat
  | 0, textIndex => textIndex
  | dist + 1, textIndex =>
    if textIndex < nText && !isalnum (text.getD textIndex 0) then
      skip_non_alnum text nText dist (textIndex + 1)
    else textIndex

/-- The loop over the symbols of `code` in `text_to_morse`. -/
def emit_code : List Char → List Nat × Nat → List Nat × Nat
  | [], st => st
  | symbol :: rest, (morse, morseBitOffset) =>
    if symbol = '.' then
      let r1 := set_bits_at_offset morse morseBitOffset 1 1
      emit_code rest (set_bits_at_offset r1.1 r1.2 0 1)
    else if symbol = '-' then
      let r1 := set_bits_at_offset morse morseBitOffset 1 3
      emit_code rest (set_bits_at_offset r1.1 r1.2 0 1)
    else emit_code rest (morse, morseBitOffset)

/-- The loop `while (!done)` of `text_to_morse`; the result is the final
`morseBitOffset` and buffer, `none` when the fuel runs out. -/
def text_to_morse_loop (text : List Nat) (nText : Nat) :
    Nat → Nat → Nat → List Nat → Option (Nat × List Nat)
  | 0, _, _, _ => none
  | fuel + 1, textIndex, morseBitOffset, morse =>
    let c0 := if textIndex < nText then toupper (text.getD textIndex 0) else 0
    let done : Bool := textIndex ≥ nText || c0 = 0
    let c := if done then 0 else c0
    match char_to_morse c with
    | some code =>
      let r1 := emit_code code (morse, morseBitOffset)
      let r2 := set_bits_at_offset r1.1 r1.2 0 2
      if done then some (r2.2, r2.1)
      else text_to_morse_loop text nText fuel (textIndex + 1) r2.2 r2.1
    | none =>
      let r2 := set_bits_at_offset morse morseBitOffset 0 4
      let textIndex1 := textIndex + 1
      let textIndex2 := skip_non_alnum text nText (nText - textIndex1) textIndex1
      if done then some (r2.2, r2.1)
      else text_to_morse_loop text nText fuel textIndex2 r2.2 r2.1

/-- `text_to_morse(text, nText, morse)`: the returned byte count and the buffer
`morse[]` after the call.  Every pass of the main loop advances `textIndex` and
the pass with `textIndex >= nText` is the last, so `nText + 1` passes suffice. -/
def text_to_morse (text : List Nat) (nText : Nat) (morse : List Nat) : Option (Int × List Nat) :=
  let textIndex := skip_non_alnum text nText nText 0
  match text_to_morse_loop text nText (nText + 1) textIndex 0 morse with
  | none => none
  | some (morseBitOffset, morse1) =>
    let nBytesUsed := get_byte_offset morseBitOffset
    let nBytesUsed := if get_bit_index morseBitOffset ≠ 0 then nBytesUsed + 1 else nBytesUsed
    some ((nBytesUsed : Int), morse1)

/-! ## Decoder -/

/-- The constant `MAX_MORSE_LEN`. -/
def MAX_MORSE_LEN : Nat := 6

/-- The loop variables of `morse_to_text`. -/
structure DecState where
  code : List Char
  text : List Nat
  morseBitOffset : Nat
  endOfMessage : Bool
deriving DecidableEq

/-- What `morse_to_text` hands back: the return value and the bytes it wrote
to `text[]` from index 0. -/
structure DecResult where
  ret : Int
  text : List Nat
deriving DecidableEq

/-- How one pass of the main loop of `morse_to_text` ends. -/
inductive DecStep where
  | ret (r : DecResult)
  | brk (s : DecState)
  | cont (s : DecState)
deriving DecidableEq

/-- The loop that skips the leading zero bits, by recursion on
`maxBitOffset - morseBitOffset`. -/
def skip_leading_zeros (morse : List Nat) (maxBitOffset : Nat) : Nat → Nat → Nat
  | 0, morseBitOffset => morseBitOffset
  | dist + 1, morseBitOffset =>
    if morseBitOffset < maxBitOffset && get_bit_at_offset morse morseBitOffset = 0 then
      skip_leading_zeros morse maxBitOffset dist (morseBitOffset + 1)
    else morseBitOffset

/-- The scan `for (i = morseBitOffset; i < maxBitOffset; i++)` that sets
`hasMoreData`. -/
def has_more_data (morse : List Nat) (morseBitOffset maxBitOffset : Nat) : Bool :=
  (List.range' morseBitOffset (maxBitOffset - morseBitOffset)).any
    (fun i => get_bit_at_offset morse i ≠ 0)

/-- One pass of the main loop of `morse_to_text`, entered with the guard true;
`maxBitOffset` is the product `nMorse * BITS_PER_BYTE` in 32-bit `unsigned`
arithmetic. -/
def morse_to_text_body (morse : List Nat) (nMorse : Nat) (s : DecState) : DecStep :=
  let maxBitOffset := (nMorse * BITS_PER_BYTE) % 4294967296
  let onesCount := run_length morse nMorse s.morseBitOffset
  if onesCount = 0 then DecStep.brk s
  else if onesCount ≠ 1 ∧ onesCount ≠ 3 then DecStep.ret ⟨-1, s.text⟩
  else
    let code := s.code ++ [if onesCount = 1 then '.' else '-']
    let morseBitOffset := s.morseBitOffset + onesCount
    if code.length > MAX_MORSE_LEN then DecStep.ret ⟨-1, s.text⟩
    else
      let zerosCount := run_length morse nMorse morseBitOffset
      let morseBitOffset := morseBitOffset + zerosCount
      if zerosCount = 1 then
        DecStep.cont ⟨code, s.text, morseBitOffset, s.endOfMessage⟩
      else if zerosCount = 3 then
        let ch := morse_to_char code
        if ch = 0 then DecStep.cont ⟨[], s.text, morseBitOffset, true⟩
        else if ch < 0 then DecStep.ret ⟨-1, s.text⟩
        else DecStep.cont ⟨[], s.text ++ [ch.toNat], morseBitOffset, s.endOfMessage⟩
      else if zerosCount ≥ 7 then
        let afterCode : Option (List Char × List Nat) :=
          if code.length > 0 then
            let ch := morse_to_char code
            if ch < 0 then none else some ([], s.text ++ [ch.toNat])
          else some (code, s.text)
        match afterCode with
        | none => DecStep.ret ⟨-1, s.text⟩
        | some (code1, text1) =>
          let hasMoreData := has_more_data morse morseBitOffset maxBitOffset
          let text2 := if hasMoreData then text1 ++ [32] else text1
          DecStep.cont ⟨code1, text2, morseBitOffset, s.endOfMessage⟩
      else if zerosCount = 0 then
        if code.length > 0 then
          let ch := morse_to_char code
          if ch = 0 then DecStep.brk ⟨[], s.text, morseBitOffset, true⟩
          else if ch < 0 then DecStep.ret ⟨-1, s.text⟩
          else DecStep.brk ⟨[], s.text ++ [ch.toNat], morseBitOffset, s.endOfMessage⟩
        else DecStep.brk ⟨code, s.text, morseBitOffset, s.endOfMessage⟩
      else DecStep.cont ⟨code, s.text, morseBitOffset, s.endOfMessage⟩

/-- The guard of the main loop of `morse_to_text`. -/
def morse_to_text_guard (nMorse : Nat) (s : DecState) : Bool :=
  s.morseBitOffset < (nMorse * BITS_PER_BYTE) % 4294967296 && !s.endOfMessage

/-- The code after the main loop: `text[textIndex] = 0; return textIndex`. -/
def morse_to_text_finish (s : DecState) : DecResult :=
  ⟨(s.text.length : Int), s.text ++ [0]⟩

/-- The main loop of `morse_to_text`; `none` when the fuel runs out. -/
def morse_to_text_loop (morse : List Nat) (nMorse : Nat) : Nat → DecState → Option DecResult
  | 0, s => if morse_to_text_guard nMorse s then none else some (morse_to_text_finish s)
  | fuel + 1, s =>
    if morse_to_text_guard nMorse s then
      match morse_to_text_body morse nMorse s with
      | DecStep.ret r => some r
      | DecStep.brk s1 => some (morse_to_text_finish s1)
      | DecStep.cont s1 => morse_to_text_loop morse nMorse fuel s1
    else some (morse_to_text_finish s)

/-- The loop variables on entry to the main loop of `morse_to_text`. -/
def morse_to_text_init (morse : List Nat) (nMorse : Nat) : DecState :=
  ⟨[], [], skip_leading_zeros morse ((nMorse * BITS_PER_BYTE) % 4294967296)
    ((nMorse * BITS_PER_BYTE) % 4294967296) 0, false⟩

/-- `morse_to_text(morse, nMorse, text)`.  Every pass of the main loop advances
`morseBitOffset` by at least one bit, so `maxBitOffset` passes suffice. -/
def morse_to_text (morse : List Nat) (nMorse : Nat) : Option DecResult :=
  morse_to_text_loop morse nMorse ((nMorse * BITS_PER_BYTE) % 4294967296)
    (morse_to_text_init morse nMorse)

/-! ## The decoder over an unwrapped bit bound

The functions below are `run_length` and `morse_to_text` with the product
`nBytes * BITS_PER_BYTE` taken in the natural numbers instead of modulo `2^32`.
The functions of the source agree with them at `nBytes % 2^29`
(`run_length_wrap`, `morse_to_text_wrap`); the facts about the passes of the
decoder are proved on them and carried over. -/

/-- The function `run_length` over the bound `nBytes * BITS_PER_BYTE` taken in the
natural numbers. -/
def run_length_nat (bytes : List Nat) (nBytes bitOffset : Nat) : Nat :=
  let maxBitOffset := nBytes * BITS_PER_BYTE
  if bitOffset ≥ maxBitOffset then 0
  else
    let initialBit := get_bit_at_offset bytes bitOffset
    run_length_loop bytes maxBitOffset initialBit (maxBitOffset - (bitOffset + 1)) 1 (bitOffset + 1)

/-- One pass of the main loop of `morse_to_text` over the bound
`nMorse * BITS_PER_BYTE` taken in the natural numbers. -/
def morse_to_text_body_nat (morse : List Nat) (nMorse : Nat) (s : DecState) : DecStep :=
  let maxBitOffset := nMorse * BITS_PER_BYTE
  let onesCount := run_length_nat morse nMorse s.morseBitOffset
  if onesCount = 0 then DecStep.brk s
  else if onesCount ≠ 1 ∧ onesCount ≠ 3 then DecStep.ret ⟨-1, s.text⟩
  else
    let code := s.code ++ [if onesCount = 1 then '.' else '-']
    let morseBitOffset := s.morseBitOffset + onesCount
    if code.length > MAX_MORSE_LEN then DecStep.ret ⟨-1, s.text⟩
    else
      let zerosCount := run_length_nat morse nMorse morseBitOffset
      let morseBitOffset := morseBitOffset + zerosCount
      if zerosCount = 1 then
        DecStep.cont ⟨code, s.text, morseBitOffset, s.endOfMessage⟩
      else if zerosCount = 3 then
        let ch := morse_to_char code
        if ch = 0 then DecStep.cont ⟨[], s.text, morseBitOffset, true⟩
        else if ch < 0 then DecStep.ret ⟨-1, s.text⟩
        else DecStep.cont ⟨[], s.text ++ [ch.toNat], morseBitOffset, s.endOfMessage⟩
      else if zerosCount ≥ 7 then
        let afterCode : Option (List Char × List Nat) :=
          if code.length > 0 then
            let ch := morse_to_char code
            if ch < 0 then none else some ([], s.text ++ [ch.toNat])
          else some (code, s.text)
        match afterCode with
        | none => DecStep.ret ⟨-1, s.text⟩
        | some (code1, text1) =>
          let hasMoreData := has_more_data morse morseBitOffset maxBitOffset
          let text2 := if hasMoreData then text1 ++ [32] else text1
          DecStep.cont ⟨code1, text2, morseBitOffset, s.endOfMessage⟩
      else if zerosCount = 0 then
        if code.length > 0 then
          let ch := morse_to_char code
          if ch = 0 then DecStep.brk ⟨[], s.text, morseBitOffset, true⟩
          else if ch < 0 then DecStep.ret ⟨-1, s.text⟩
          else DecStep.brk ⟨[], s.text ++ [ch.toNat], morseBitOffset, s.endOfMessage⟩
        else DecStep.brk ⟨code, s.text, morseBitOffset, s.endOfMessage⟩
      else DecStep.cont ⟨code, s.text, morseBitOffset, s.endOfMessage⟩

/-- The guard of the main loop over the bound taken in the natural numbers. -/
def morse_to_text_guard_nat (nMorse : Nat) (s : DecState) : Bool :=
  s.morseBitOffset < nMorse * BITS_PER_BYTE && !s.endOfMessage

/-- The main loop over the bound taken in the natural numbers. -/
def morse_to_text_loop_nat (morse : List Nat) (nMorse : Nat) : Nat → DecState → Option DecResult
  | 0, s => if morse_to_text_guard_nat nMorse s then none else some (morse_to_text_finish s)
  | fuel + 1, s =>
    if morse_to_text_guard_nat nMorse s then
      match morse_to_text_body_nat morse nMorse s with
      | DecStep.ret r => some r
      | DecStep.brk s1 => some (morse_to_text_finish s1)
      | DecStep.cont s1 => morse_to_text_loop_nat morse nMorse fuel s1
    else some (morse_to_text_finish s)

/-- The loop variables on entry to the main loop, over the bound taken in the
natural numbers. -/
def morse_to_text_init_nat (morse : List Nat) (nMorse : Nat) : DecState :=
  ⟨[], [], skip_leading_zeros morse (nMorse * BITS_PER_BYTE) (nMorse * BITS_PER_BYTE) 0, false⟩

/-- The function `morse_to_text` over the bound taken in the natural numbers. -/
def morse_to_text_nat (morse : List Nat) (nMorse : Nat) : Option DecResult :=
  morse_to_text_loop_nat morse nMorse (nMorse * BITS_PER_BYTE) (morse_to_text_init_nat morse nMorse)

/-! ## Views used to state and prove the properties -/

/-- The first `n` bits of a buffer, read with `get_bit_at_offset`. -/
def bits (a : List Nat) (n : Nat) : List Nat :=
  (List.range n).map (get_bit_at_offset a)

/-- Writing the bits of a list one after the other with `set_bit_at_offset`,
starting at `bitOffset`. -/
def write_bits (a : List Nat) (bitOffset : Nat) : List Nat → List Nat
  | [] => a
  | b :: bs => write_bits (set_bit_at_offset a bitOffset b) (bitOffset + 1) bs

/-- The bytes of a string literal. -/
def bytesOf (s : String) : List Nat :=
  s.toList.map Char.toNat

/-- The C string held in a buffer: the bytes before the first NUL. -/
def cstring (text : List Nat) : List Nat :=
  text.takeWhile (fun b => b ≠ 0)

/-- The bits one symbol is emitted as: a dot is `1` then `0`, a dash is `111`
then `0`. -/
def symbol_bits (symbol : Char) : List Nat :=
  if symbol = '.' then [1, 0] else if symbol = '-' then [1, 1, 1, 0] else []

/-- The bits of the symbols of a code, one after the other. -/
def code_bits : List Char → List Nat
  | [] => []
  | symbol :: rest => symbol_bits symbol ++ code_bits rest

/-- The bits of one character: its symbols and two more `0` bits. -/
def letter_bits (code : List Char) : List Nat :=
  code_bits code ++ [0, 0]

/-- The code `.-.-.` of the end-of-message prosign. -/
def eom_code : List Char := ['.', '-', '.', '-', '.']

/-- The bit stream `text_to_morse` produces for the rest of a text; `inSep`
tells whether the bytes at the front are part of a run of non-alphanumeric
bytes that is being skipped. -/
def encode_bits : Bool → List Nat → List Nat
  | _, [] => letter_bits eom_code
  | inSep, c :: rest =>
    if isalnum c then
      letter_bits ((char_to_morse (toupper c)).getD []) ++ encode_bits false rest
    else if inSep then encode_bits true rest
    else if toupper c = 0 then letter_bits eom_code
    else [0, 0, 0, 0] ++ encode_bits true rest

/-- The symbol a 1-run of length 1 or 3 stands for. -/
def run_symbol (onesCount : Nat) : Char :=
  if onesCount = 1 then '.' else '-'

/-- The second half of a pass of the main loop of `morse_to_text`: what is done
with the zero-run that follows an accumulated symbol, as a function of the
values read from the buffer. -/
def pass_gap (resolve : List Char → Int) (code : List Char) (zerosCount : Nat)
    (hasMoreData : Bool) (text : List Nat) (morseBitOffset : Nat) (endOfMessage : Bool) :
    DecStep :=
  if zerosCount = 1 then
    DecStep.cont ⟨code, text, morseBitOffset, endOfMessage⟩
  else if zerosCount = 3 then
    if resolve code = 0 then DecStep.cont ⟨[], text, morseBitOffset, true⟩
    else if resolve code < 0 then DecStep.ret ⟨-1, text⟩
    else DecStep.cont ⟨[], text ++ [(resolve code).toNat], morseBitOffset, endOfMessage⟩
  else if zerosCount ≥ 7 then
    if code.length > 0 then
      if resolve code < 0 then DecStep.ret ⟨-1, text⟩
      else DecStep.cont ⟨[], if hasMoreData then text ++ [(resolve code).toNat] ++ [32]
        else text ++ [(resolve code).toNat], morseBitOffset, endOfMessage⟩
    else DecStep.cont ⟨code, if hasMoreData then text ++ [32] else text, morseBitOffset,
      endOfMessage⟩
  else if zerosCount = 0 then
    if code.length > 0 then
      if resolve code = 0 then DecStep.brk ⟨[], text, morseBitOffset, true⟩
      else if resolve code < 0 then DecStep.ret ⟨-1, text⟩
      else DecStep.brk ⟨[], text ++ [(resolve code).toNat], morseBitOffset, endOfMessage⟩
    else DecStep.brk ⟨code, text, morseBitOffset, endOfMessage⟩
  else DecStep.cont ⟨code, text, morseBitOffset, endOfMessage⟩

/-- A pass of the main loop as a function of the values read from the buffer. -/
def pass_core (resolve : List Char → Int) (onesCount zerosCount : Nat) (hasMoreData : Bool)
    (s : DecState) : DecStep :=
  if onesCount = 0 then DecStep.brk s
  else if onesCount ≠ 1 ∧ onesCount ≠ 3 then DecStep.ret ⟨-1, s.text⟩
  else if (s.code ++ [run_symbol onesCount]).length > MAX_MORSE_LEN then DecStep.ret ⟨-1, s.text⟩
  else pass_gap resolve (s.code ++ [run_symbol onesCount]) zerosCount hasMoreData s.text
    (s.morseBitOffset + onesCount + zerosCount) s.endOfMessage

/-- The decoder started in the middle: the main loop run from state `s` with
the fuel that is left at its offset. -/
def decode_from (morse : List Nat) (n : Nat) (s : DecState) : Option DecResult :=
  morse_to_text_loop_nat morse n (n * BITS_PER_BYTE - s.morseBitOffset) s

/-- The loop variables of `morse_to_text` at the head of pass `i` of the main
loop; `none` when the loop has ended before that pass. -/
def dec_trace (morse : List Nat) (nMorse : Nat) : Nat → Option DecState
  | 0 => some (morse_to_text_init morse nMorse)
  | i + 1 =>
    match dec_trace morse nMorse i with
    | some s =>
      if morse_to_text_guard nMorse s then
        match morse_to_text_body morse nMorse s with
        | DecStep.cont s1 => some s1
        | _ => none
      else none
    | none => none

/-- The loop variables at the head of pass `i`, over the bound taken in the
natural numbers. -/
def dec_trace_nat (morse : List Nat) (nMorse : Nat) : Nat → Option DecState
  | 0 => some (morse_to_text_init_nat morse nMorse)
  | i + 1 =>
    match dec_trace_nat morse nMorse i with
    | some s =>
      if morse_to_text_guard_nat nMorse s then
        match morse_to_text_body_nat morse nMorse s with
        | DecStep.cont s1 => some s1
        | _ => none
      else none
    | none => none

/-- The length of the run of equal values at the head of a list. -/
def head_run : List Nat → Nat
  | [] => 0
  | b :: t => 1 + (t.takeWhile (fun x => x = b)).length

/-- The buffer `morse[nMorse]` holds a maximal run of `len` 1 bits that starts
at bit offset `o`. -/
def ones_run_at (morse : List Nat) (nMorse o len : Nat) : Prop :=
  0 < len ∧ o + len ≤ nMorse * 8 ∧
  (∀ j, j < len → get_bit_at_offset morse (o + j) = 1) ∧
  (o = 0 ∨ get_bit_at_offset morse (o - 1) = 0) ∧
  (o + len = nMorse * 8 ∨ get_bit_at_offset morse (o + len) = 0)

/-- The length of the 1-run a symbol is sent as. -/
def symbol_ones (symbol : Char) : Nat :=
  if symbol = '.' then 1 else 3

/-- The signal of a code as the decoder reads it: the 1-runs of its symbols
with a single `0` bit between two of them. -/
def code_signal : List Char → List Nat
  | [] => []
  | [symbol] => List.replicate (symbol_ones symbol) 1
  | symbol :: rest => List.replicate (symbol_ones symbol) 1 ++ [0] ++ code_signal rest

/-- The normalised text, from the wording of the property: letters are
uppercased and every maximal run of non-alphanumeric bytes becomes one space;
`prevSep` tells whether the byte before was non-alphanumeric. -/
def normalize_body : Bool → List Nat → List Nat
  | _, [] => []
  | prevSep, c :: rest =>
    if isalnum c then toupper c :: normalize_body false rest
    else (if prevSep then [] else [32]) ++ normalize_body true rest

/-- The normalised text: the leading run of non-alphanumeric bytes is removed,
letters are uppercased and every other maximal run of non-alphanumeric bytes
becomes one space. -/
def normalize (text : List Nat) : List Nat :=
  normalize_body false (text.dropWhile (fun c => !isalnum c))

/-- What `morse_to_text` hands back for the text `t` when the encoded stream
is followed by `p` zero bits of padding: with four or more of them the
end-of-message code is stored and counted as one more byte. -/
def padded_result (p : Nat) (t : List Nat) : DecResult :=
  if 4 ≤ p then ⟨(t.length : Int) + 1, t ++ [0, 0]⟩ else ⟨(t.length : Int), t ++ [0]⟩

/-- The characters that have a code: `A`-`Z`, `0`-`9` and NUL. -/
def has_code (c : Nat) : Prop :=
  (65 ≤ c ∧ c ≤ 90) ∨ (48 ≤ c ∧ c ≤ 57) ∨ c = 0

/-! ## Bit addressing: basic facts -/

theorem get_log2_BITS_PER_BYTE : get_log2_power_of_2 BITS_PER_BYTE = some 3 := by decide

theorem get_byte_offset_eq (o : Nat) : get_byte_offset o = o / 8 := by
  unfold get_byte_offset
  rw [get_log2_BITS_PER_BYTE]
  simp [Nat.shiftRight_eq_div_pow]

theorem get_bit_index_eq (o : Nat) : get_bit_index o = o % 8 := by
  unfold get_bit_index BITS_PER_BYTE
  exact Nat.and_pow_two_sub_one_eq_mod o 3

theorem byte_bit_mask_eq (i : Nat) : byte_bit_mask i = 2 ^ (7 - i) := by
  unfold byte_bit_mask BITS_PER_BYTE
  simp [Nat.one_shiftLeft]

theorem and_two_pow_ne_zero (b k : Nat) : (b &&& 2 ^ k ≠ 0) ↔ b.testBit k = true := by
  rw [Nat.and_two_pow]
  cases h : b.testBit k <;> simp

theorem get_bit_at_offset_eq (a : List Nat) (o : Nat) :
    get_bit_at_offset a o = if (a.getD (o / 8) 0).testBit (7 - o % 8) then 1 else 0 := by
  unfold get_bit_at_offset
  simp only [get_byte_offset_eq, get_bit_index_eq, byte_bit_mask_eq, and_two_pow_ne_zero]

theorem testBit_clear_mask (k i : Nat) (hk : k < 32) :
    (4294967295 - 2 ^ k).testBit i = (decide (i < 32) && !decide (k = i)) := by
  have h2 : (2:Nat) ^ k < 2 ^ 32 := Nat.pow_lt_pow_right (by norm_num) hk
  have : 4294967295 - 2 ^ k = 2 ^ 32 - (2 ^ k + 1) := by norm_num; omega
  rw [this, Nat.testBit_two_pow_sub_succ h2, Nat.testBit_two_pow]

theorem getD_set_list (a : List Nat) (i j v : Nat) (h : i < a.length) :
    (a.set i v).getD j 0 = if i = j then v else a.getD j 0 := by
  simp only [List.getD_eq_getElem?_getD, List.getElem?_set]
  by_cases hij : i = j
  · subst hij; simp [h]
  · simp [hij]

theorem set_bit_at_offset_eq (a : List Nat) (o b : Nat) :
    set_bit_at_offset a o b = a.set (o / 8)
      (if b ≠ 0 then (a.getD (o / 8) 0 ||| 2 ^ (7 - o % 8)) % 2 ^ 8
       else (a.getD (o / 8) 0 &&& (4294967295 - 2 ^ (7 - o % 8))) % 2 ^ 8) := by
  unfold set_bit_at_offset
  simp only [get_byte_offset_eq, get_bit_index_eq, byte_bit_mask_eq]
  split <;> rfl

theorem testBit_set_value (x k b j : Nat) (hk : k < 8) (hj : j < 8) :
    (if b ≠ 0 then (x ||| 2 ^ k) % 2 ^ 8 else (x &&& (4294967295 - 2 ^ k)) % 2 ^ 8).testBit j
      = if j = k then decide (b ≠ 0) else x.testBit j := by
  have hk32 : k < 32 := by omega
  have hj32 : j < 32 := by omega
  by_cases hb : b ≠ 0
  · rw [if_pos hb, Nat.testBit_mod_two_pow, Nat.testBit_or, Nat.testBit_two_pow]
    by_cases hjk : j = k
    · subst hjk; simp [hj, hb]
    · have : ¬ k = j := fun h => hjk h.symm
      simp [hj, hjk, this]
  · rw [if_neg hb, Nat.testBit_mod_two_pow, Nat.testBit_and, testBit_clear_mask _ _ hk32]
    by_cases hjk : j = k
    · subst hjk; simp [hb]
    · have : ¬ k = j := fun h => hjk h.symm
      simp [hj, hj32, hjk, this]

theorem get_set_bit (a : List Nat) (o b o' : Nat) (h : o / 8 < a.length) :
    get_bit_at_offset (set_bit_at_offset a o b) o'
      = if o' = o then (if b ≠ 0 then 1 else 0) else get_bit_at_offset a o' := by
  have hk8 : 7 - o % 8 < 8 := by omega
  have hj8 : 7 - o' % 8 < 8 := by omega
  rw [get_bit_at_offset_eq, get_bit_at_offset_eq, set_bit_at_offset_eq, getD_set_list _ _ _ _ h]
  by_cases hbyte : o / 8 = o' / 8
  · rw [if_pos hbyte, testBit_set_value _ _ _ _ hk8 hj8]
    by_cases hoo : o' = o
    · subst hoo; simp
    · have hne : ¬ (7 - o' % 8 = 7 - o % 8) := by omega
      rw [if_neg hne, if_neg hoo, hbyte]
  · have hoo : o' ≠ o := by rintro rfl; exact hbyte rfl
    rw [if_neg hbyte, if_neg hoo]

/-! ## Encoder: the loops as list functions -/

theorem write_bits_append (a : List Nat) (off : Nat) (x y : List Nat) :
    write_bits a off (x ++ y) = write_bits (write_bits a off x) (off + x.length) y := by
  induction x generalizing a off with
  | nil => simp [write_bits]
  | cons b bs ih =>
    rw [List.cons_append, write_bits, write_bits, ih, List.length_cons]
    congr 1
    omega

theorem foldl_set_bit_eq (bit : Nat) (n : Nat) (a : List Nat) (off : Nat) :
    (List.range n).foldl (fun a i => set_bit_at_offset a (off + i) bit) a
      = write_bits a off (List.replicate n bit) := by
  induction n generalizing a off with
  | zero => simp [write_bits]
  | succ n ih =>
    rw [List.range_succ_eq_map, List.foldl_cons, List.foldl_map, List.replicate_succ, write_bits]
    have := ih (set_bit_at_offset a off bit) (off + 1)
    simp only [Nat.add_zero]
    rw [← this]
    congr 1
    funext a i
    congr 1
    omega

theorem set_bits_at_offset_eq (a : List Nat) (off bit n : Nat) :
    set_bits_at_offset a off bit n = (write_bits a off (List.replicate n bit), off + n) := by
  unfold set_bits_at_offset
  rw [foldl_set_bit_eq]

theorem emit_code_eq (code : List Char) (a : List Nat) (off : Nat) :
    emit_code code (a, off) = (write_bits a off (code_bits code), off + (code_bits code).length) := by
  induction code generalizing a off with
  | nil => simp [emit_code, code_bits, write_bits]
  | cons s rest ih =>
    unfold emit_code
    simp only [set_bits_at_offset_eq]
    by_cases h1 : s = '.'
    · simp only [h1, if_true, ih, code_bits, symbol_bits, write_bits_append]
      simp [write_bits, List.replicate]
      omega
    · by_cases h2 : s = '-'
      · subst h2
        simp only [h1, if_false, if_true, ih, code_bits, symbol_bits, write_bits_append]
        simp [write_bits, List.replicate]
        omega
      · simp only [h1, h2, if_false, ih, code_bits, symbol_bits]
        simp
theorem isalnum_lt (c : Nat) (h : isalnum c = true) : c < 123 := by
  unfold isalnum at h
  simp only [Bool.or_eq_true, Bool.and_eq_true, decide_eq_true_eq] at h
  omega

theorem toupper_of_not_alnum (c : Nat) (h : isalnum c = false) : toupper c = c := by
  unfold isalnum at h
  unfold toupper
  simp only [Bool.or_eq_false_iff, Bool.and_eq_false_iff, decide_eq_false_iff_not] at h
  have : ¬ (97 ≤ c ∧ c ≤ 122) := by omega
  simp [this]

set_option maxRecDepth 100000 in
theorem table_alnum_bounded : ∀ c < 123, isalnum c = true →
    (char_to_morse (toupper c) = some ((char_to_morse (toupper c)).getD []) ∧
     (char_to_morse (toupper c)).getD [] ≠ [] ∧
     ((char_to_morse (toupper c)).getD []).length ≤ 5 ∧
     (∀ s ∈ (char_to_morse (toupper c)).getD [], s = '.' ∨ s = '-') ∧
     morse_to_char ((char_to_morse (toupper c)).getD []) = (toupper c : Int) ∧
     toupper c ≠ 0 ∧ isalnum (toupper c) = true ∧ toupper (toupper c) = toupper c) := by
  decide

set_option maxRecDepth 100000 in
theorem table_not_alnum_bounded : ∀ c < 123, isalnum c = false → c ≠ 0 →
    char_to_morse c = none := by
  decide

theorem char_to_morse_scan_none (c : Nat) (l : List TextMorse)
    (h : ∀ e ∈ l, e.c.toNat ≠ c) : char_to_morse_scan c l = none := by
  induction l with
  | nil => rfl
  | cons e rest ih =>
    rw [char_to_morse_scan, if_neg (h e (List.mem_cons_self _ _))]
    exact ih (fun e he => h e (List.mem_cons_of_mem _ he))

theorem char_codes_lt : ∀ e ∈ char_codes, e.c.toNat < 123 := by decide

theorem char_to_morse_none_of_ge (c : Nat) (h : 123 ≤ c) : char_to_morse c = none := by
  apply char_to_morse_scan_none
  intro e he
  have := char_codes_lt e he
  omega

theorem char_to_morse_not_alnum (c : Nat) (h : isalnum c = false) (h0 : c ≠ 0) :
    char_to_morse c = none := by
  by_cases hc : c < 123
  · exact table_not_alnum_bounded c hc h h0
  · exact char_to_morse_none_of_ge c (by omega)

theorem char_to_morse_zero : char_to_morse 0 = some eom_code := by decide

theorem skip_non_alnum_eq (text : List Nat) (d i : Nat) (hd : d = text.length - i) :
    skip_non_alnum text text.length d i
      = i + ((text.drop i).takeWhile (fun c => !isalnum c)).length := by
  induction d generalizing i with
  | zero =>
    have : text.drop i = [] := List.drop_eq_nil_of_le (by omega)
    simp [skip_non_alnum, this]
  | succ d ih =>
    have hi : i < text.length := by omega
    have hdrop : text.drop i = text.getD i 0 :: text.drop (i + 1) := by
      rw [List.getD_eq_getElem _ _ hi]
      exact List.drop_eq_getElem_cons hi
    rw [skip_non_alnum, hdrop, List.takeWhile_cons]
    generalize text.getD i 0 = c
    by_cases ha : isalnum c = true
    · simp [hi, ha]
    · have ha' : isalnum c = false := by simpa using ha
      simp only [hi, ha', decide_True, Bool.not_false, Bool.and_self, if_true, List.length_cons]
      rw [ih (i + 1) (by omega)]
      omega

theorem drop_skip (text : List Nat) (i : Nat) :
    text.drop (i + ((text.drop i).takeWhile (fun c => !isalnum c)).length)
      = (text.drop i).dropWhile (fun c => !isalnum c) := by
  rw [← List.drop_drop]
  generalize text.drop i = l
  induction l with
  | nil => simp
  | cons c rest ih =>
    rw [List.takeWhile_cons, List.dropWhile_cons]
    split
    · simpa using ih
    · simp

theorem encode_bits_true (l : List Nat) :
    encode_bits true l = encode_bits false (l.dropWhile (fun c => !isalnum c)) := by
  induction l with
  | nil => simp [encode_bits]
  | cons c rest ih =>
    rw [List.dropWhile_cons]
    by_cases ha : isalnum c = true
    · simp [ha, encode_bits]
    · have ha' : isalnum c = false := by simpa using ha
      simp [ha', encode_bits, ih]

theorem letter_step (code : List Char) (a : List Nat) (off : Nat) :
    set_bits_at_offset (emit_code code (a, off)).1 (emit_code code (a, off)).2 0 2
      = (write_bits a off (letter_bits code), off + (letter_bits code).length) := by
  rw [emit_code_eq, set_bits_at_offset_eq, letter_bits, write_bits_append]
  simp [List.replicate]
  omega

theorem text_to_morse_loop_unfold (text : List Nat) (nText f i off : Nat) (morse : List Nat) :
    text_to_morse_loop text nText (f + 1) i off morse =
      (match char_to_morse (if (decide (i ≥ nText) || decide ((if i < nText then toupper (text.getD i 0) else 0) = 0)) = true then 0
          else (if i < nText then toupper (text.getD i 0) else 0)) with
      | some code =>
        if (decide (i ≥ nText) || decide ((if i < nText then toupper (text.getD i 0) else 0) = 0)) = true then
          some ((set_bits_at_offset (emit_code code (morse, off)).1 (emit_code code (morse, off)).2 0 2).2,
                (set_bits_at_offset (emit_code code (morse, off)).1 (emit_code code (morse, off)).2 0 2).1)
        else text_to_morse_loop text nText f (i + 1)
          (set_bits_at_offset (emit_code code (morse, off)).1 (emit_code code (morse, off)).2 0 2).2
          (set_bits_at_offset (emit_code code (morse, off)).1 (emit_code code (morse, off)).2 0 2).1
      | none =>
        if (decide (i ≥ nText) || decide ((if i < nText then toupper (text.getD i 0) else 0) = 0)) = true then
          some ((set_bits_at_offset morse off 0 4).2, (set_bits_at_offset morse off 0 4).1)
        else text_to_morse_loop text nText f (skip_non_alnum text nText (nText - (i + 1)) (i + 1))
          (set_bits_at_offset morse off 0 4).2 (set_bits_at_offset morse off 0 4).1) := rfl

theorem text_to_morse_loop_done (text : List Nat) (nText f i off : Nat) (morse : List Nat)
    (h : (decide (i ≥ nText) || decide ((if i < nText then toupper (text.getD i 0) else 0) = 0)) = true) :
    text_to_morse_loop text nText (f + 1) i off morse
      = some (off + (letter_bits eom_code).length, write_bits morse off (letter_bits eom_code)) := by
  rw [text_to_morse_loop_unfold, if_pos h, char_to_morse_zero]
  simp only [if_pos h, letter_step]

theorem text_to_morse_loop_letter (text : List Nat) (nText f i off : Nat) (morse : List Nat) (code : List Char)
    (hi : i < nText) (h0 : toupper (text.getD i 0) ≠ 0)
    (hc : char_to_morse (toupper (text.getD i 0)) = some code) :
    text_to_morse_loop text nText (f + 1) i off morse
      = text_to_morse_loop text nText f (i + 1) (off + (letter_bits code).length)
          (write_bits morse off (letter_bits code)) := by
  have hge : decide (i ≥ nText) = false := decide_eq_false (by omega)
  have hz : decide (toupper (text.getD i 0) = 0) = false := decide_eq_false h0
  rw [text_to_morse_loop_unfold]
  simp only [if_pos hi, hge, hz, Bool.or_false, Bool.false_eq_true, if_false, hc, letter_step]

theorem text_to_morse_loop_sep (text : List Nat) (nText f i off : Nat) (morse : List Nat)
    (hi : i < nText) (h0 : toupper (text.getD i 0) ≠ 0)
    (hc : char_to_morse (toupper (text.getD i 0)) = none) :
    text_to_morse_loop text nText (f + 1) i off morse
      = text_to_morse_loop text nText f (skip_non_alnum text nText (nText - (i + 1)) (i + 1))
          (off + 4) (write_bits morse off [0, 0, 0, 0]) := by
  have hge : decide (i ≥ nText) = false := decide_eq_false (by omega)
  have hz : decide (toupper (text.getD i 0) = 0) = false := decide_eq_false h0
  rw [text_to_morse_loop_unfold]
  simp only [if_pos hi, hge, hz, Bool.or_false, Bool.false_eq_true, if_false, hc,
    set_bits_at_offset_eq]
  rfl

theorem text_to_morse_loop_eq (text : List Nat) (k : Nat) :
    ∀ (i fuel off : Nat) (morse : List Nat), text.length - i ≤ k → text.length - i + 1 ≤ fuel →
      text_to_morse_loop text text.length fuel i off morse
        = some (off + (encode_bits false (text.drop i)).length,
                write_bits morse off (encode_bits false (text.drop i))) := by
  induction k with
  | zero =>
    intro i fuel off morse hk hf
    obtain ⟨f, rfl⟩ : ∃ f, fuel = f + 1 := ⟨fuel - 1, by omega⟩
    have hdrop : text.drop i = [] := List.drop_eq_nil_of_le (by omega)
    rw [text_to_morse_loop_done _ _ _ _ _ _ (by simp; omega), hdrop, encode_bits]
  | succ k ih =>
    intro i fuel off morse hk hf
    obtain ⟨f, rfl⟩ : ∃ f, fuel = f + 1 := ⟨fuel - 1, by omega⟩
    by_cases hi : i < text.length
    · have hdrop : text.drop i = text.getD i 0 :: text.drop (i + 1) := by
        rw [List.getD_eq_getElem _ _ hi]
        exact List.drop_eq_getElem_cons hi
      rw [hdrop]
      by_cases ha : isalnum (text.getD i 0) = true
      · obtain ⟨h1, -, -, -, -, h6, -, -⟩ :=
          table_alnum_bounded _ (isalnum_lt _ ha) ha
        rw [text_to_morse_loop_letter _ _ _ _ _ _ _ hi h6 h1, ih (i + 1) f _ _ (by omega) (by omega)]
        simp only [encode_bits, ha, if_true, write_bits_append, List.length_append]
        congr 2
        omega
      · have ha' : isalnum (text.getD i 0) = false := by simpa using ha
        have hup := toupper_of_not_alnum _ ha'
        by_cases h0 : text.getD i 0 = 0
        · rw [text_to_morse_loop_done _ _ _ _ _ _ (by rw [if_pos hi, hup, h0]; simp)]
          rw [h0] at ha' hup
          simp only [h0, encode_bits, ha', Bool.false_eq_true, if_false, hup, if_true]
        · have hc : char_to_morse (toupper (text.getD i 0)) = none := by
            rw [hup]; exact char_to_morse_not_alnum _ ha' h0
          rw [text_to_morse_loop_sep _ _ _ _ _ _ hi (by rw [hup]; exact h0) hc,
            skip_non_alnum_eq text _ (i + 1) rfl,
            ih _ f _ _ (by omega) (by omega), drop_skip]
          simp only [encode_bits, ha', Bool.false_eq_true, if_false, hup, h0, encode_bits_true,
            write_bits_append, List.length_append]
          congr 2
          simp only [List.length_cons, List.length_nil]
          omega
    · have hdrop : text.drop i = [] := List.drop_eq_nil_of_le (by omega)
      rw [text_to_morse_loop_done _ _ _ _ _ _ (by simp; omega), hdrop, encode_bits]

theorem text_to_morse_eq (text morse : List Nat) :
    text_to_morse text text.length morse
      = some (((((encode_bits true text).length + 7) / 8 : Nat) : Int),
              write_bits morse 0 (encode_bits true text)) := by
  unfold text_to_morse
  rw [skip_non_alnum_eq text _ 0 (by simp)]
  simp only []
  rw [text_to_morse_loop_eq text text.length _ _ _ _ (by omega) (by omega), drop_skip]
  simp only [List.drop_zero, Nat.zero_add, ← encode_bits_true, get_byte_offset_eq,
    get_bit_index_eq]
  congr 3
  split <;> omega

/-! ## Run lengths and scans as list functions -/

theorem bits_length (a : List Nat) (n : Nat) : (bits a n).length = n := by
  simp [bits]

theorem bits_getD (a : List Nat) (n i : Nat) (h : i < n) :
    (bits a n).getD i 0 = get_bit_at_offset a i := by
  simp [bits, List.getD_eq_getElem?_getD, h]

theorem bits_drop_cons (a : List Nat) (n i : Nat) (h : i < n) :
    (bits a n).drop i = get_bit_at_offset a i :: (bits a n).drop (i + 1) := by
  have hl : i < (bits a n).length := by rw [bits_length]; exact h
  rw [List.drop_eq_getElem_cons hl]
  congr 1
  simp [bits]

theorem bits_drop_nil (a : List Nat) (n i : Nat) (h : n ≤ i) : (bits a n).drop i = [] :=
  List.drop_eq_nil_of_le (by rw [bits_length]; exact h)

/-- The loop of `run_length` counts the bits equal to `initialBit` from
`currentOffset` on. -/
theorem run_length_loop_eq (bytes : List Nat) (mx b : Nat) :
    ∀ (d count cur : Nat), d = mx - cur →
      run_length_loop bytes mx b d count cur
        = count + (((bits bytes mx).drop cur).takeWhile (fun x => x = b)).length := by
  intro d
  induction d with
  | zero =>
    intro count cur hd
    rw [run_length_loop, bits_drop_nil _ _ _ (by omega)]
    simp
  | succ d ih =>
    intro count cur hd
    have hc : cur < mx := by omega
    rw [run_length_loop, if_pos hc, bits_drop_cons _ _ _ hc, List.takeWhile_cons]
    by_cases hb : get_bit_at_offset bytes cur = b
    · simp only [hb, ne_eq, not_true_eq_false, if_false, decide_True, if_true, List.length_cons]
      rw [ih (count + 1) (cur + 1) (by omega)]
      omega
    · simp [hb]

theorem run_length_eq (bytes : List Nat) (n off : Nat) :
    run_length_nat bytes n off = head_run ((bits bytes (n * 8)).drop off) := by
  unfold run_length_nat BITS_PER_BYTE
  by_cases h : off ≥ n * 8
  · simp only [h, if_true, bits_drop_nil _ _ _ h, head_run]
  · have hlt : off < n * 8 := by omega
    simp only [h, if_false, bits_drop_cons _ _ _ hlt, head_run]
    rw [run_length_loop_eq _ _ _ _ _ _ rfl]

theorem skip_leading_zeros_eq (morse : List Nat) (mx : Nat) :
    ∀ (d i : Nat), d = mx - i →
      skip_leading_zeros morse mx d i
        = i + (((bits morse mx).drop i).takeWhile (fun x => x = 0)).length := by
  intro d
  induction d with
  | zero =>
    intro i hd
    rw [skip_leading_zeros, bits_drop_nil _ _ _ (by omega)]
    simp
  | succ d ih =>
    intro i hd
    have hc : i < mx := by omega
    rw [skip_leading_zeros, bits_drop_cons _ _ _ hc, List.takeWhile_cons]
    by_cases hb : get_bit_at_offset morse i = 0
    · simp only [hc, hb, decide_True, Bool.and_self, if_true, List.length_cons]
      rw [ih (i + 1) (by omega)]
      omega
    · simp [hb]

theorem drop_range_eq (off mx : Nat) :
    (List.range mx).drop off = List.range' off (mx - off) := by
  apply List.ext_getElem
  · simp
  · intro i h1 h2
    simp

theorem has_more_data_eq (morse : List Nat) (off mx : Nat) :
    has_more_data morse off mx = ((bits morse mx).drop off).any (fun x => x ≠ 0) := by
  unfold has_more_data bits
  rw [← List.map_drop, List.any_map, drop_range_eq]
  rfl

/-! ## Decoder: the main loop -/

theorem body_eq (morse : List Nat) (n : Nat) (s : DecState) :
    morse_to_text_body_nat morse n s
      = pass_core morse_to_char (run_length_nat morse n s.morseBitOffset)
          (run_length_nat morse n (s.morseBitOffset + run_length_nat morse n s.morseBitOffset))
          (has_more_data morse (s.morseBitOffset + run_length_nat morse n s.morseBitOffset
            + run_length_nat morse n (s.morseBitOffset + run_length_nat morse n s.morseBitOffset))
            (n * BITS_PER_BYTE)) s := by
  unfold morse_to_text_body_nat pass_core pass_gap
  simp only []
  generalize run_length_nat morse n s.morseBitOffset = o
  generalize run_length_nat morse n (s.morseBitOffset + o) = z
  generalize has_more_data morse (s.morseBitOffset + o + z) (n * BITS_PER_BYTE) = m
  have hsym : (if o = 1 then '.' else '-') = run_symbol o := rfl
  rw [hsym]
  generalize s.code ++ [run_symbol o] = c
  generalize morse_to_char c = ch
  by_cases h0 : o = 0
  · rw [if_pos h0, if_pos h0]
  · rw [if_neg h0, if_neg h0]
    by_cases h13 : o ≠ 1 ∧ o ≠ 3
    · rw [if_pos h13, if_pos h13]
    · rw [if_neg h13, if_neg h13]
      by_cases hl : c.length > MAX_MORSE_LEN
      · rw [if_pos hl, if_pos hl]
      · rw [if_neg hl, if_neg hl]
        by_cases hz1 : z = 1
        · rw [if_pos hz1, if_pos hz1]
        · rw [if_neg hz1, if_neg hz1]
          by_cases hz3 : z = 3
          · rw [if_pos hz3, if_pos hz3]
          · rw [if_neg hz3, if_neg hz3]
            by_cases hz7 : z ≥ 7
            · rw [if_pos hz7, if_pos hz7]
              by_cases hc : c.length > 0
              · rw [if_pos hc, if_pos hc]
                by_cases hch : ch < 0
                · rw [if_pos hch, if_pos hch]
                · rw [if_neg hch, if_neg hch]
              · rw [if_neg hc, if_neg hc]
            · rw [if_neg hz7, if_neg hz7]

theorem pass_gap_cont_offset (f : List Char → Int) (code : List Char) (z : Nat) (m : Bool)
    (text : List Nat) (off : Nat) (eom : Bool) (s1 : DecState)
    (h : pass_gap f code z m text off eom = DecStep.cont s1) :
    s1.morseBitOffset = off := by
  unfold pass_gap at h
  split_ifs at h <;> (injection h with h; subst h; rfl)

theorem body_cont_offset (morse : List Nat) (n : Nat) (s s1 : DecState)
    (h : morse_to_text_body_nat morse n s = DecStep.cont s1) :
    s.morseBitOffset < s1.morseBitOffset := by
  rw [body_eq, pass_core] at h
  split_ifs at h with h0 h13 hl
  · rw [pass_gap_cont_offset _ _ _ _ _ _ _ _ h]
    omega

theorem loop_fuel_irrel (morse : List Nat) (n : Nat) :
    ∀ (d : Nat) (s : DecState) (f1 f2 : Nat), n * BITS_PER_BYTE - s.morseBitOffset ≤ d →
      d ≤ f1 → d ≤ f2 → morse_to_text_loop_nat morse n f1 s = morse_to_text_loop_nat morse n f2 s := by
  intro d
  induction d with
  | zero =>
    intro s f1 f2 hd _ _
    have hg : morse_to_text_guard_nat n s = false := by
      unfold morse_to_text_guard_nat
      have : ¬ s.morseBitOffset < n * BITS_PER_BYTE := by omega
      simp [this]
    cases f1 <;> cases f2 <;> simp [morse_to_text_loop_nat, hg]
  | succ d ih =>
    intro s f1 f2 hd h1 h2
    obtain ⟨g1, rfl⟩ : ∃ g, f1 = g + 1 := ⟨f1 - 1, by omega⟩
    obtain ⟨g2, rfl⟩ : ∃ g, f2 = g + 1 := ⟨f2 - 1, by omega⟩
    rw [morse_to_text_loop_nat, morse_to_text_loop_nat]
    by_cases hg : morse_to_text_guard_nat n s = true
    · rw [if_pos hg, if_pos hg]
      cases hb : morse_to_text_body_nat morse n s with
      | ret r => rfl
      | brk s1 => rfl
      | cont s1 =>
        have := body_cont_offset morse n s s1 hb
        exact ih s1 g1 g2 (by omega) (by omega) (by omega)
    · rw [if_neg hg, if_neg hg]

theorem decode_from_unfold (morse : List Nat) (n : Nat) (s : DecState) :
    decode_from morse n s
      = if morse_to_text_guard_nat n s then
          match morse_to_text_body_nat morse n s with
          | DecStep.ret r => some r
          | DecStep.brk s1 => some (morse_to_text_finish s1)
          | DecStep.cont s1 => decode_from morse n s1
        else some (morse_to_text_finish s) := by
  unfold decode_from
  by_cases hg : morse_to_text_guard_nat n s = true
  · have hlt : s.morseBitOffset < n * BITS_PER_BYTE := by
      unfold morse_to_text_guard_nat at hg
      simp at hg
      exact hg.1
    obtain ⟨g, hgf⟩ : ∃ g, n * BITS_PER_BYTE - s.morseBitOffset = g + 1 :=
      ⟨n * BITS_PER_BYTE - s.morseBitOffset - 1, by omega⟩
    rw [hgf, morse_to_text_loop_nat, if_pos hg, if_pos hg]
    cases hb : morse_to_text_body_nat morse n s with
    | ret r => rfl
    | brk s1 => rfl
    | cont s1 =>
      have := body_cont_offset morse n s s1 hb
      exact loop_fuel_irrel morse n (n * BITS_PER_BYTE - s1.morseBitOffset) s1 _ _
        (le_refl _) (by omega) (le_refl _)
  · rw [if_neg hg]
    cases hf : n * BITS_PER_BYTE - s.morseBitOffset with
    | zero => rw [morse_to_text_loop_nat, if_neg hg]
    | succ g => rw [morse_to_text_loop_nat, if_neg hg]

theorem morse_to_text_eq (morse : List Nat) (n : Nat) :
    morse_to_text_nat morse n = decode_from morse n (morse_to_text_init_nat morse n) := by
  unfold morse_to_text_nat decode_from
  exact loop_fuel_irrel morse n _ _ _ _ (le_refl _) (Nat.sub_le _ _) (le_refl _)

theorem decode_from_isSome (morse : List Nat) (n : Nat) :
    ∀ (d : Nat) (s : DecState), n * BITS_PER_BYTE - s.morseBitOffset ≤ d →
      ∃ r, decode_from morse n s = some r := by
  intro d
  induction d with
  | zero =>
    intro s hd
    have hg : ¬ morse_to_text_guard_nat n s = true := by
      unfold morse_to_text_guard_nat
      have : ¬ s.morseBitOffset < n * BITS_PER_BYTE := by omega
      simp [this]
    rw [decode_from_unfold, if_neg hg]
    exact ⟨_, rfl⟩
  | succ d ih =>
    intro s hd
    rw [decode_from_unfold]
    by_cases hg : morse_to_text_guard_nat n s = true
    · rw [if_pos hg]
      cases hb : morse_to_text_body_nat morse n s with
      | ret r => exact ⟨_, rfl⟩
      | brk s1 => exact ⟨_, rfl⟩
      | cont s1 =>
        have := body_cont_offset morse n s s1 hb
        exact ih s1 (by omega)
    · rw [if_neg hg]
      exact ⟨_, rfl⟩

/-! ## Decoder: traces and the oversized-code guard -/

theorem dec_trace_succ (morse : List Nat) (n i : Nat) (s s1 : DecState)
    (ht : dec_trace_nat morse n i = some s) (hg : morse_to_text_guard_nat n s = true)
    (hb : morse_to_text_body_nat morse n s = DecStep.cont s1) :
    dec_trace_nat morse n (i + 1) = some s1 := by
  rw [dec_trace_nat, ht]
  simp only [hg, if_true, hb]

theorem trace_decode (morse : List Nat) (n : Nat) :
    ∀ (i : Nat) (s : DecState), dec_trace_nat morse n i = some s →
      morse_to_text_nat morse n = decode_from morse n s := by
  intro i
  induction i with
  | zero =>
    intro s h
    rw [dec_trace_nat] at h
    injection h with h
    rw [morse_to_text_eq, h]
  | succ i ih =>
    intro s h
    rw [dec_trace_nat] at h
    cases ht : dec_trace_nat morse n i with
    | none => rw [ht] at h; cases h
    | some s0 =>
      rw [ht] at h
      simp only [] at h
      by_cases hg : morse_to_text_guard_nat n s0 = true
      · rw [if_pos hg] at h
        cases hb : morse_to_text_body_nat morse n s0 with
        | ret r => rw [hb] at h; cases h
        | brk s1 => rw [hb] at h; cases h
        | cont s1 =>
          rw [hb] at h
          injection h with h
          subst h
          rw [ih s0 ht, decode_from_unfold, if_pos hg, hb]
      · rw [if_neg hg] at h; cases h

theorem run_length_pos (bytes : List Nat) (n off : Nat) (h : off < n * 8) :
    1 ≤ run_length_nat bytes n off := by
  rw [run_length_eq, bits_drop_cons _ _ _ h, head_run]
  omega

theorem head_run_le (l : List Nat) : head_run l ≤ l.length := by
  cases l with
  | nil => simp [head_run]
  | cons b t =>
    have := (List.takeWhile_prefix (fun x => decide (x = b)) (l := t)).length_le
    simp only [head_run, List.length_cons]
    omega

theorem run_length_le (bytes : List Nat) (n off : Nat) (h : off ≤ n * 8) :
    off + run_length_nat bytes n off ≤ n * 8 := by
  have := head_run_le ((bits bytes (n * 8)).drop off)
  rw [List.length_drop, bits_length] at this
  rw [run_length_eq]
  omega

theorem morse_to_char_scan_none (code : List Char) (l : List TextMorse)
    (h : ∀ e ∈ l, e.code ≠ code) : morse_to_char_scan code l = -1 := by
  induction l with
  | nil => rfl
  | cons e rest ih =>
    rw [morse_to_char_scan, if_neg (h e (List.mem_cons_self _ _))]
    exact ih (fun e he => h e (List.mem_cons_of_mem _ he))

theorem char_codes_length : ∀ e ∈ char_codes, e.code.length ≤ 5 := by decide

theorem morse_to_char_long (code : List Char) (h : 5 < code.length) : morse_to_char code = -1 := by
  apply morse_to_char_scan_none
  intro e he hc
  have := char_codes_length e he
  rw [hc] at this
  omega

theorem guard_iff (n : Nat) (s : DecState) :
    morse_to_text_guard_nat n s = true ↔ s.morseBitOffset < n * 8 ∧ s.endOfMessage = false := by
  unfold morse_to_text_guard_nat BITS_PER_BYTE
  simp

/-- A pass entered with six pending symbols ends the call with `-1`. -/
theorem body_six_pending (morse : List Nat) (n : Nat) (s : DecState)
    (hg : morse_to_text_guard_nat n s = true) (h6 : 6 ≤ s.code.length) :
    morse_to_text_body_nat morse n s = DecStep.ret ⟨-1, s.text⟩ := by
  have hlt := ((guard_iff n s).mp hg).1
  have hpos := run_length_pos morse n s.morseBitOffset hlt
  rw [body_eq, pass_core]
  have h0 : ¬ run_length_nat morse n s.morseBitOffset = 0 := by omega
  rw [if_neg h0]
  by_cases h13 : run_length_nat morse n s.morseBitOffset ≠ 1 ∧ run_length_nat morse n s.morseBitOffset ≠ 3
  · rw [if_pos h13]
  · rw [if_neg h13]
    have hl : (s.code ++ [run_symbol (run_length_nat morse n s.morseBitOffset)]).length > MAX_MORSE_LEN := by
      rw [List.length_append]
      unfold MAX_MORSE_LEN
      simp only [List.length_cons, List.length_nil]
      omega
    rw [if_pos hl]

theorem neg_one_lt (text : List Nat) : (DecResult.mk (-1) text).ret < 0 := by
  show (-1 : Int) < 0
  decide

theorem decode_from_ret (morse : List Nat) (n : Nat) (s : DecState) (r : DecResult)
    (hg : morse_to_text_guard_nat n s = true) (hb : morse_to_text_body_nat morse n s = DecStep.ret r) :
    decode_from morse n s = some r := by
  rw [decode_from_unfold, if_pos hg, hb]

theorem decode_from_cont (morse : List Nat) (n : Nat) (s s1 : DecState)
    (hg : morse_to_text_guard_nat n s = true) (hb : morse_to_text_body_nat morse n s = DecStep.cont s1) :
    decode_from morse n s = decode_from morse n s1 := by
  rw [decode_from_unfold, if_pos hg, hb]

theorem decode_from_brk (morse : List Nat) (n : Nat) (s s1 : DecState)
    (hg : morse_to_text_guard_nat n s = true) (hb : morse_to_text_body_nat morse n s = DecStep.brk s1) :
    decode_from morse n s = some (morse_to_text_finish s1) := by
  rw [decode_from_unfold, if_pos hg, hb]

theorem decode_from_stop (morse : List Nat) (n : Nat) (s : DecState)
    (hg : morse_to_text_guard_nat n s = false) :
    decode_from morse n s = some (morse_to_text_finish s) := by
  rw [decode_from_unfold, hg]
  rfl

/-- With an unresolvable code the second half of a pass either fails or keeps
the code pending. -/
theorem pass_gap_unresolved (f : List Char → Int) (code : List Char) (z : Nat) (m : Bool)
    (text : List Nat) (off : Nat) (eom : Bool) (hf : f code = -1) (hc : 0 < code.length) :
    pass_gap f code z m text off eom
      = if z = 3 ∨ 7 ≤ z ∨ z = 0 then DecStep.ret ⟨-1, text⟩
        else DecStep.cont ⟨code, text, off, eom⟩ := by
  unfold pass_gap
  rw [hf]
  have hn0 : ¬ ((-1 : Int) = 0) := by decide
  have hneg : ((-1 : Int) < 0) := by decide
  by_cases h1 : z = 1
  · have : ¬ (z = 3 ∨ 7 ≤ z ∨ z = 0) := by omega
    rw [if_pos h1, if_neg this]
  · rw [if_neg h1]
    by_cases h3 : z = 3
    · rw [if_pos h3, if_neg hn0, if_pos hneg, if_pos (Or.inl h3)]
    · rw [if_neg h3]
      by_cases h7 : z ≥ 7
      · rw [if_pos h7, if_pos hc, if_pos hneg, if_pos (Or.inr (Or.inl h7))]
      · rw [if_neg h7]
        by_cases h0 : z = 0
        · rw [if_pos h0, if_pos hc, if_neg hn0, if_pos hneg, if_pos (Or.inr (Or.inr h0))]
        · have : ¬ (z = 3 ∨ 7 ≤ z ∨ z = 0) := by omega
          rw [if_neg h0, if_neg this]

theorem oversized_six (morse : List Nat) (n : Nat) (s : DecState)
    (hg : morse_to_text_guard_nat n s = true) (h6 : 6 ≤ s.code.length) :
    ∃ r, decode_from morse n s = some r ∧ r.ret < 0 :=
  ⟨_, decode_from_ret morse n s _ hg (body_six_pending morse n s hg h6), neg_one_lt _⟩

theorem oversized_five (morse : List Nat) (n : Nat) (s : DecState)
    (hg : morse_to_text_guard_nat n s = true) (h5 : s.code.length = 5)
    (hz : ¬ (run_length_nat morse n (s.morseBitOffset + run_length_nat morse n s.morseBitOffset)
              ∈ [1, 2, 4, 5, 6] ∧
            s.morseBitOffset + run_length_nat morse n s.morseBitOffset
              + run_length_nat morse n (s.morseBitOffset + run_length_nat morse n s.morseBitOffset)
              = n * 8)) :
    ∃ r, decode_from morse n s = some r ∧ r.ret < 0 := by
  have hlt := ((guard_iff n s).mp hg).1
  have heom := ((guard_iff n s).mp hg).2
  have hpos := run_length_pos morse n s.morseBitOffset hlt
  have hle1 := run_length_le morse n s.morseBitOffset (by omega)
  have hle2 := run_length_le morse n (s.morseBitOffset + run_length_nat morse n s.morseBitOffset) hle1
  have hb := body_eq morse n s
  rw [pass_core] at hb
  have h0 : ¬ run_length_nat morse n s.morseBitOffset = 0 := by omega
  rw [if_neg h0] at hb
  by_cases h13 : run_length_nat morse n s.morseBitOffset ≠ 1 ∧ run_length_nat morse n s.morseBitOffset ≠ 3
  · rw [if_pos h13] at hb
    exact ⟨_, decode_from_ret morse n s _ hg hb, neg_one_lt _⟩
  · rw [if_neg h13] at hb
    have hlen : (s.code ++ [run_symbol (run_length_nat morse n s.morseBitOffset)]).length = 6 := by
      rw [List.length_append, h5]; rfl
    have hl : ¬ (s.code ++ [run_symbol (run_length_nat morse n s.morseBitOffset)]).length
        > MAX_MORSE_LEN := by
      rw [hlen]; decide
    rw [if_neg hl, pass_gap_unresolved _ _ _ _ _ _ _
      (morse_to_char_long _ (by rw [hlen]; decide)) (by rw [hlen]; decide)] at hb
    generalize hzz : run_length_nat morse n (s.morseBitOffset + run_length_nat morse n s.morseBitOffset)
      = z at hb hz hle2
    by_cases hc : z = 3 ∨ 7 ≤ z ∨ z = 0
    · rw [if_pos hc] at hb
      exact ⟨_, decode_from_ret morse n s _ hg hb, neg_one_lt _⟩
    · rw [if_neg hc] at hb
      rw [decode_from_cont morse n s _ hg hb]
      apply oversized_six
      · rw [guard_iff]
        refine ⟨?_, heom⟩
        show s.morseBitOffset + run_length_nat morse n s.morseBitOffset + z < n * 8
        have hmem : z ∈ [1, 2, 4, 5, 6] := by
          simp only [List.mem_cons, List.mem_singleton, List.mem_nil_iff, or_false]
          omega
        have : ¬ (s.morseBitOffset + run_length_nat morse n s.morseBitOffset + z = n * 8) :=
          fun h => hz ⟨hmem, h⟩
        omega
      · show 6 ≤ (s.code ++ [run_symbol (run_length_nat morse n s.morseBitOffset)]).length
        rw [hlen]

/-! ## Reading back the bits the encoder writes -/

theorem get_bit_at_offset_cases (a : List Nat) (o : Nat) :
    get_bit_at_offset a o = 0 ∨ get_bit_at_offset a o = 1 := by
  rw [get_bit_at_offset_eq]
  split
  · exact Or.inr rfl
  · exact Or.inl rfl

theorem set_bit_at_offset_length (a : List Nat) (o b : Nat) :
    (set_bit_at_offset a o b).length = a.length := by
  rw [set_bit_at_offset_eq, List.length_set]

theorem write_bits_length (a : List Nat) (off : Nat) (bs : List Nat) :
    (write_bits a off bs).length = a.length := by
  induction bs generalizing a off with
  | nil => rfl
  | cons b bs ih => rw [write_bits, ih, set_bit_at_offset_length]

theorem get_bit_write_bits (bs : List Nat) :
    ∀ (a : List Nat) (off i : Nat), off + bs.length ≤ 8 * a.length →
      get_bit_at_offset (write_bits a off bs) i
        = if off ≤ i ∧ i < off + bs.length then (if bs.getD (i - off) 0 ≠ 0 then 1 else 0)
          else get_bit_at_offset a i := by
  induction bs with
  | nil =>
    intro a off i _
    have : ¬ (off ≤ i ∧ i < off + ([] : List Nat).length) := by simp
    rw [write_bits, if_neg this]
  | cons b bs ih =>
    intro a off i h
    rw [List.length_cons] at h
    rw [write_bits, ih _ _ _ (by rw [set_bit_at_offset_length]; omega),
      get_set_bit _ _ _ _ (by omega)]
    by_cases hi : i = off
    · subst hi
      have h1 : ¬ (i + 1 ≤ i ∧ i < i + 1 + bs.length) := by omega
      have h2 : i ≤ i ∧ i < i + (b :: bs).length := by simp
      rw [if_neg h1, if_pos rfl, if_pos h2, Nat.sub_self]
      rfl
    · rw [if_neg hi]
      by_cases hr : off + 1 ≤ i ∧ i < off + 1 + bs.length
      · have h2 : off ≤ i ∧ i < off + (b :: bs).length := by
          rw [List.length_cons]; omega
        rw [if_pos hr, if_pos h2]
        have : i - off = (i - (off + 1)) + 1 := by omega
        rw [this, List.getD_cons_succ]
      · have h2 : ¬ (off ≤ i ∧ i < off + (b :: bs).length) := by
          rw [List.length_cons]; omega
        rw [if_neg hr, if_neg h2]

theorem symbol_bits_bits (s : Char) : ∀ x ∈ symbol_bits s, x = 0 ∨ x = 1 := by
  unfold symbol_bits
  split
  · decide
  · split
    · decide
    · simp

theorem code_bits_bits (code : List Char) : ∀ x ∈ code_bits code, x = 0 ∨ x = 1 := by
  induction code with
  | nil => simp [code_bits]
  | cons s rest ih =>
    intro x hx
    rw [code_bits, List.mem_append] at hx
    rcases hx with hx | hx
    · exact symbol_bits_bits s x hx
    · exact ih x hx

theorem letter_bits_bits (code : List Char) : ∀ x ∈ letter_bits code, x = 0 ∨ x = 1 := by
  intro x hx
  rw [letter_bits, List.mem_append] at hx
  rcases hx with hx | hx
  · exact code_bits_bits code x hx
  · simp at hx; exact Or.inl hx

theorem encode_bits_bits (l : List Nat) (b : Bool) :
    ∀ x ∈ encode_bits b l, x = 0 ∨ x = 1 := by
  induction l generalizing b with
  | nil => exact letter_bits_bits _
  | cons c rest ih =>
    intro x hx
    rw [encode_bits] at hx
    split_ifs at hx
    · rw [List.mem_append] at hx
      rcases hx with hx | hx
      · exact letter_bits_bits _ x hx
      · exact ih _ x hx
    · exact ih _ x hx
    · exact letter_bits_bits _ x hx
    · rw [List.mem_append] at hx
      rcases hx with hx | hx
      · simp at hx; exact Or.inl hx
      · exact ih _ x hx

theorem isalnum_toupper (c : Nat) : isalnum (toupper c) = isalnum c := by
  unfold toupper
  by_cases h : 97 ≤ c ∧ c ≤ 122
  · have h1 : isalnum c = true := by
      unfold isalnum; simp; omega
    have h2 : isalnum (c - 32) = true := by
      unfold isalnum; simp; omega
    simp [h, h1, h2]
  · have : ¬ ((decide (97 ≤ c) && decide (c ≤ 122)) = true) := by simpa using h
    rw [if_neg this]

theorem toupper_toupper (c : Nat) : toupper (toupper c) = toupper c := by
  unfold toupper
  by_cases h : 97 ≤ c ∧ c ≤ 122
  · have h' : (decide (97 ≤ c) && decide (c ≤ 122)) = true := by simpa using h
    have h2 : ¬ ((decide (97 ≤ c - 32) && decide (c - 32 ≤ 122)) = true) := by simp; omega
    rw [if_pos h', if_neg h2]
  · have h' : ¬ ((decide (97 ≤ c) && decide (c ≤ 122)) = true) := by simpa using h
    rw [if_neg h', if_neg h']

theorem encode_bits_map_toupper (l : List Nat) (b : Bool) :
    encode_bits b (l.map toupper) = encode_bits b l := by
  induction l generalizing b with
  | nil => rfl
  | cons c rest ih =>
    simp only [List.map_cons, encode_bits, isalnum_toupper, toupper_toupper, ih]

theorem encode_bits_no_alnum (l : List Nat) (h : ∀ c ∈ l, isalnum c = false) :
    encode_bits true l = letter_bits eom_code := by
  induction l with
  | nil => rfl
  | cons c rest ih =>
    have hc := h c (List.mem_cons_self _ _)
    simp only [encode_bits, hc, Bool.false_eq_true, if_false, if_true]
    exact ih (fun x hx => h x (List.mem_cons_of_mem _ hx))

theorem set_bit_append (x rest : List Nat) (o b : Nat) (h : o / 8 < x.length) :
    set_bit_at_offset (x ++ rest) o b = set_bit_at_offset x o b ++ rest := by
  rw [set_bit_at_offset_eq, set_bit_at_offset_eq, List.getD_append _ _ _ _ h,
    List.set_append_left _ _ h]

theorem write_bits_frame (bs : List Nat) :
    ∀ (x rest : List Nat) (off : Nat), off + bs.length ≤ 8 * x.length →
      write_bits (x ++ rest) off bs = write_bits x off bs ++ rest := by
  induction bs with
  | nil => intro x rest off _; rfl
  | cons b bs ih =>
    intro x rest off h
    rw [List.length_cons] at h
    rw [write_bits, write_bits, set_bit_append _ _ _ _ (by omega),
      ih _ _ _ (by rw [set_bit_at_offset_length]; omega)]

/-! ## Runs of equal bits by offset; malformed runs -/

theorem run_length_loop_spec (bytes : List Nat) (mx b : Nat) :
    ∀ (d count cur : Nat), d = mx - cur →
      ∃ m, run_length_loop bytes mx b d count cur = count + m ∧ cur + m ≤ max mx cur ∧
        (∀ j, j < m → get_bit_at_offset bytes (cur + j) = b) ∧
        (cur + m < mx → get_bit_at_offset bytes (cur + m) ≠ b) := by
  intro d
  induction d with
  | zero =>
    intro count cur hd
    refine ⟨0, rfl, by simp, fun j hj => absurd hj (Nat.not_lt_zero _), fun h => by omega⟩
  | succ d ih =>
    intro count cur hd
    have hc : cur < mx := by omega
    rw [run_length_loop, if_pos hc]
    by_cases hb : get_bit_at_offset bytes cur ≠ b
    · rw [if_pos hb]
      exact ⟨0, rfl, by simp, fun j hj => absurd hj (Nat.not_lt_zero _), fun _ => hb⟩
    · rw [if_neg hb]
      obtain ⟨m, h1, h2, h3, h4⟩ := ih (count + 1) (cur + 1) (by omega)
      have hb' : get_bit_at_offset bytes cur = b := by simpa using hb
      refine ⟨m + 1, by rw [h1]; omega, ?_, ?_, ?_⟩
      · have : max mx (cur + 1) = mx := max_eq_left (by omega)
        rw [this] at h2
        have : max mx cur = mx := max_eq_left (by omega)
        rw [this]; omega
      · intro j hj
        cases j with
        | zero => exact hb'
        | succ j =>
          have := h3 j (by omega)
          rw [show cur + (j + 1) = cur + 1 + j by omega]
          exact this
      · intro h
        rw [show cur + (m + 1) = cur + 1 + m by omega]
        exact h4 (by omega)

/-- What `run_length` returns inside the buffer: the length of the maximal run
of equal bits that starts at `off`. -/
theorem run_length_spec (bytes : List Nat) (n off : Nat) (h : off < n * 8) :
    1 ≤ run_length_nat bytes n off ∧ off + run_length_nat bytes n off ≤ n * 8 ∧
      (∀ j, j < run_length_nat bytes n off →
        get_bit_at_offset bytes (off + j) = get_bit_at_offset bytes off) ∧
      (off + run_length_nat bytes n off < n * 8 →
        get_bit_at_offset bytes (off + run_length_nat bytes n off) ≠ get_bit_at_offset bytes off) := by
  unfold run_length_nat BITS_PER_BYTE
  have hn : ¬ off ≥ n * 8 := by omega
  simp only [hn, if_false]
  obtain ⟨m, h1, h2, h3, h4⟩ := run_length_loop_spec bytes (n * 8)
    (get_bit_at_offset bytes off) (n * 8 - (off + 1)) 1 (off + 1) rfl
  rw [h1]
  have hmax : max (n * 8) (off + 1) = n * 8 := max_eq_left (by omega)
  rw [hmax] at h2
  refine ⟨by omega, by omega, ?_, ?_⟩
  · intro j hj
    cases j with
    | zero => rfl
    | succ j =>
      rw [show off + (j + 1) = off + 1 + j by omega]
      exact h3 j (by omega)
  · intro h
    rw [show off + (1 + m) = off + 1 + m by omega]
    exact h4 (by omega)

/-- A maximal run determines what `run_length` returns at its start. -/
theorem run_length_unique (bytes : List Nat) (n off len : Nat) (hlen : 0 < len)
    (hle : off + len ≤ n * 8)
    (hin : ∀ j, j < len → get_bit_at_offset bytes (off + j) = get_bit_at_offset bytes off)
    (hend : off + len = n * 8 ∨
      get_bit_at_offset bytes (off + len) ≠ get_bit_at_offset bytes off) :
    run_length_nat bytes n off = len := by
  obtain ⟨h1, h2, h3, h4⟩ := run_length_spec bytes n off (by omega)
  rcases Nat.lt_trichotomy (run_length_nat bytes n off) len with hlt | heq | hgt
  · exfalso
    exact h4 (by omega) (hin _ hlt)
  · exact heq
  · exfalso
    rcases hend with he | he
    · omega
    · exact he (h3 len hgt)

theorem skip_leading_zeros_spec (morse : List Nat) (mx : Nat) :
    ∀ (d i : Nat), d = mx - i → i ≤ mx →
      i ≤ skip_leading_zeros morse mx d i ∧ skip_leading_zeros morse mx d i ≤ mx ∧
      (∀ j, i ≤ j → j < skip_leading_zeros morse mx d i → get_bit_at_offset morse j = 0) ∧
      (skip_leading_zeros morse mx d i < mx →
        get_bit_at_offset morse (skip_leading_zeros morse mx d i) ≠ 0) := by
  intro d
  induction d with
  | zero =>
    intro i hd hi
    rw [skip_leading_zeros]
    exact ⟨le_refl _, hi, fun j h1 h2 => by omega, fun h => by omega⟩
  | succ d ih =>
    intro i hd hi
    have hc : i < mx := by omega
    rw [skip_leading_zeros]
    by_cases hb : get_bit_at_offset morse i = 0
    · have hcond : (decide (i < mx) && decide (get_bit_at_offset morse i = 0)) = true := by
        simp [hc, hb]
      rw [if_pos hcond]
      obtain ⟨h1, h2, h3, h4⟩ := ih (i + 1) (by omega) (by omega)
      refine ⟨by omega, h2, ?_, h4⟩
      intro j hj1 hj2
      by_cases hji : j = i
      · rw [hji]; exact hb
      · exact h3 j (by omega) hj2
    · have hcond : ¬ (decide (i < mx) && decide (get_bit_at_offset morse i = 0)) = true := by
        simp [hb]
      rw [if_neg hcond]
      exact ⟨le_refl _, hi, fun j h1 h2 => by omega, fun _ => hb⟩

theorem pass_gap_ret (f : List Char → Int) (code : List Char) (z : Nat) (m : Bool)
    (text : List Nat) (off : Nat) (eom : Bool) (r : DecResult)
    (h : pass_gap f code z m text off eom = DecStep.ret r) : r.ret < 0 := by
  unfold pass_gap at h
  split_ifs at h <;> (injection h with h; subst h; exact neg_one_lt _)

theorem pass_gap_brk (f : List Char → Int) (code : List Char) (z : Nat) (m : Bool)
    (text : List Nat) (off : Nat) (eom : Bool) (s1 : DecState)
    (h : pass_gap f code z m text off eom = DecStep.brk s1) : z = 0 := by
  unfold pass_gap at h
  split_ifs at h <;> assumption

theorem pass_gap_cont_eom (f : List Char → Int) (code : List Char) (z : Nat) (m : Bool)
    (text : List Nat) (off : Nat) (eom : Bool) (s1 : DecState)
    (h : pass_gap f code z m text off eom = DecStep.cont s1) :
    s1.endOfMessage = eom ∨ s1.endOfMessage = true := by
  unfold pass_gap at h
  split_ifs at h <;> first
    | (injection h with h; subst h; exact Or.inl rfl)
    | (injection h with h; subst h; exact Or.inr rfl)

theorem body_ret_neg (morse : List Nat) (n : Nat) (s : DecState) (r : DecResult)
    (h : morse_to_text_body_nat morse n s = DecStep.ret r) : r.ret < 0 := by
  rw [body_eq, pass_core] at h
  split_ifs at h with h0 h13 hl
  · injection h with h; subst h; exact neg_one_lt _
  · injection h with h; subst h; exact neg_one_lt _
  · exact pass_gap_ret _ _ _ _ _ _ _ _ h

theorem bit_ne_one (a : List Nat) (o : Nat) (h : get_bit_at_offset a o ≠ 1) :
    get_bit_at_offset a o = 0 := by
  rcases get_bit_at_offset_cases a o with h0 | h1
  · exact h0
  · exact absurd h1 h

theorem bit_ne_zero (a : List Nat) (o : Nat) (h : get_bit_at_offset a o ≠ 0) :
    get_bit_at_offset a o = 1 := by
  rcases get_bit_at_offset_cases a o with h0 | h1
  · exact absurd h0 h
  · exact h1

/-- Where a pass that starts on a 1 bit before the run at `o` ends. -/
theorem pass_before_run (morse : List Nat) (n o len : Nat) (hrun : ones_run_at morse n o len)
    (p : Nat) (hp : p < o) (hbit : get_bit_at_offset morse p = 1) :
    1 ≤ run_length_nat morse n (p + run_length_nat morse n p) ∧
    p + run_length_nat morse n p + run_length_nat morse n (p + run_length_nat morse n p) ≤ o ∧
    get_bit_at_offset morse
      (p + run_length_nat morse n p + run_length_nat morse n (p + run_length_nat morse n p)) = 1 := by
  obtain ⟨hlen, hle, hin, hbefore, hafter⟩ := hrun
  have hbo : get_bit_at_offset morse o = 1 := by
    have := hin 0 hlen
    rwa [Nat.add_zero] at this
  obtain ⟨a1, a2, a3, a4⟩ := run_length_spec morse n p (by omega)
  generalize run_length_nat morse n p = ones at a1 a2 a3 a4 ⊢
  have h1 : p + ones ≤ o := by
    by_contra hc
    have hb := a3 (o - 1 - p) (by omega)
    rw [show p + (o - 1 - p) = o - 1 by omega, hbit] at hb
    rcases hbefore with h0 | h0
    · omega
    · rw [h0] at hb; cases hb
  have hz : get_bit_at_offset morse (p + ones) = 0 := by
    apply bit_ne_one
    have := a4 (by omega)
    rwa [hbit] at this
  obtain ⟨b1, b2, b3, b4⟩ := run_length_spec morse n (p + ones) (by omega)
  generalize run_length_nat morse n (p + ones) = zeros at b1 b2 b3 b4 ⊢
  have h2 : p + ones + zeros ≤ o := by
    by_contra hc
    have hb := b3 (o - (p + ones)) (by omega)
    rw [show p + ones + (o - (p + ones)) = o by omega, hz, hbo] at hb
    cases hb
  refine ⟨b1, h2, ?_⟩
  apply bit_ne_zero
  have := b4 (by omega)
  rwa [hz] at this

theorem malformed_run_aux (morse : List Nat) (n o len : Nat) (hrun : ones_run_at morse n o len)
    (hbad : len = 2 ∨ 4 ≤ len) :
    ∀ (d i : Nat) (s : DecState), dec_trace_nat morse n i = some s → s.endOfMessage = false →
      s.morseBitOffset ≤ o → o - s.morseBitOffset ≤ d →
      get_bit_at_offset morse s.morseBitOffset = 1 →
      ∃ r, morse_to_text_nat morse n = some r ∧
        (r.ret < 0 ∨ ∃ i s, dec_trace_nat morse n i = some s ∧ s.endOfMessage = true ∧
          s.morseBitOffset ≤ o) := by
  have hrun' := hrun
  obtain ⟨hlen, hle, hin, hbefore, hafter⟩ := hrun
  intro d
  induction d with
  | zero =>
    intro i s ht heom hso hd hbit
    have hoff : s.morseBitOffset = o := by omega
    have hg : morse_to_text_guard_nat n s = true := by
      rw [guard_iff]; exact ⟨by omega, heom⟩
    have hones : run_length_nat morse n s.morseBitOffset = len := by
      rw [hoff]
      apply run_length_unique _ _ _ _ hlen hle
      · intro j hj
        rw [hin j hj, ← hoff, hbit]
      · rcases hafter with h | h
        · exact Or.inl h
        · right
          rw [h, ← hoff, hbit]
          decide
    have hb := body_eq morse n s
    rw [pass_core, hones, if_neg (by omega), if_pos (by omega)] at hb
    rw [trace_decode morse n i s ht, decode_from_ret morse n s _ hg hb]
    exact ⟨_, rfl, Or.inl (neg_one_lt _)⟩
  | succ d ih =>
    intro i s ht heom hso hd hbit
    by_cases hoff : s.morseBitOffset = o
    · have hg : morse_to_text_guard_nat n s = true := by
        rw [guard_iff]; exact ⟨by omega, heom⟩
      have hones : run_length_nat morse n s.morseBitOffset = len := by
        rw [hoff]
        apply run_length_unique _ _ _ _ hlen hle
        · intro j hj
          rw [hin j hj, ← hoff, hbit]
        · rcases hafter with h | h
          · exact Or.inl h
          · right
            rw [h, ← hoff, hbit]
            decide
      have hb := body_eq morse n s
      rw [pass_core, hones, if_neg (by omega), if_pos (by omega)] at hb
      rw [trace_decode morse n i s ht, decode_from_ret morse n s _ hg hb]
      exact ⟨_, rfl, Or.inl (neg_one_lt _)⟩
    · have hlt : s.morseBitOffset < o := by omega
      have hg : morse_to_text_guard_nat n s = true := by
        rw [guard_iff]; exact ⟨by omega, heom⟩
      obtain ⟨hz1, hz2, hz3⟩ := pass_before_run morse n o len hrun' s.morseBitOffset hlt hbit
      have hpos := run_length_pos morse n s.morseBitOffset (by omega)
      cases hb : morse_to_text_body_nat morse n s with
      | ret r =>
        rw [trace_decode morse n i s ht, decode_from_ret morse n s _ hg hb]
        exact ⟨_, rfl, Or.inl (body_ret_neg morse n s r hb)⟩
      | brk s1 =>
        exfalso
        rw [body_eq, pass_core] at hb
        split_ifs at hb with h0 h13 hl
        · omega
        · have := pass_gap_brk _ _ _ _ _ _ _ _ hb
          omega
      | cont s1 =>
        have ht1 := dec_trace_succ morse n i s s1 ht hg hb
        have hb' := hb
        rw [body_eq, pass_core] at hb'
        split_ifs at hb' with h0 h13 hl
        have hoff1 := pass_gap_cont_offset _ _ _ _ _ _ _ _ hb'
        have heom1 := pass_gap_cont_eom _ _ _ _ _ _ _ _ hb'
        by_cases he : s1.endOfMessage = true
        · obtain ⟨r, hr⟩ := decode_from_isSome morse n _ s1 (le_refl _)
          refine ⟨r, ?_, Or.inr ⟨i + 1, s1, ht1, he, by rw [hoff1]; exact hz2⟩⟩
          rw [trace_decode morse n (i + 1) s1 ht1, hr]
        · have he' : s1.endOfMessage = false := by
            rcases heom1 with h | h
            · rw [h, heom]
            · exact absurd h he
          exact ih (i + 1) s1 ht1 he' (by rw [hoff1]; exact hz2) (by rw [hoff1]; omega)
            (by rw [hoff1]; exact hz3)

/-! ## Decoder: a pass on a symbol and its gap -/

theorem takeWhile_replicate_append (b : Nat) (k : Nat) (rest : List Nat)
    (h : rest = [] ∨ ∃ x R, rest = x :: R ∧ x ≠ b) :
    ((List.replicate k b ++ rest).takeWhile (fun x => x = b)).length = k := by
  induction k with
  | zero =>
    rcases h with h | ⟨x, R, h, hx⟩
    · subst h; rfl
    · subst h
      simp [List.takeWhile_cons, hx]
  | succ k ih =>
    rw [List.replicate_succ, List.cons_append, List.takeWhile_cons]
    have hd : decide (b = b) = true := decide_eq_true rfl
    rw [if_pos hd, List.length_cons, ih]

theorem head_run_replicate (b : Nat) (k : Nat) (rest : List Nat)
    (h : rest = [] ∨ ∃ x R, rest = x :: R ∧ x ≠ b) :
    head_run (List.replicate k b ++ rest) = if k = 0 then head_run rest else k := by
  cases k with
  | zero => simp
  | succ k =>
    rw [List.replicate_succ, List.cons_append, head_run, takeWhile_replicate_append b k rest h]
    simp
    omega

theorem drop_of_shape (l X Y : List Nat) (off : Nat) (h : l.drop off = X ++ Y) :
    l.drop (off + X.length) = Y := by
  rw [← List.drop_drop, h, List.drop_left]

theorem lt_of_drop_ne_nil (a : List Nat) (m off : Nat) (h : (bits a m).drop off ≠ []) :
    off < m := by
  by_contra hc
  exact h (bits_drop_nil a m off (by omega))

theorem le_of_drop_nil (a : List Nat) (m off : Nat) (h : (bits a m).drop off = []) :
    m ≤ off := by
  have := congrArg List.length h
  rw [List.length_drop, bits_length] at this
  simp at this
  omega

theorem run_symbol_ones (sym : Char) (h : sym = '.' ∨ sym = '-') :
    run_symbol (symbol_ones sym) = sym := by
  rcases h with h | h <;> subst h <;> decide

theorem symbol_ones_cases (sym : Char) : symbol_ones sym = 1 ∨ symbol_ones sym = 3 := by
  unfold symbol_ones
  split
  · exact Or.inl rfl
  · exact Or.inr rfl

/-- A pass on a stream that starts with the 1-run of `sym` followed by `k` zero
bits and then ends or goes on with a 1 bit. -/
theorem pass_shape (morse : List Nat) (n : Nat) (s : DecState) (sym : Char)
    (hsym : sym = '.' ∨ sym = '-') (k : Nat) (rest : List Nat)
    (hrest : rest = [] ∨ ∃ R, rest = 1 :: R) (hk : k = 0 → rest = [])
    (hshape : (bits morse (n * 8)).drop s.morseBitOffset
      = List.replicate (symbol_ones sym) 1 ++ (List.replicate k 0 ++ rest))
    (hlen : s.code.length < 6) :
    morse_to_text_body_nat morse n s
      = pass_gap morse_to_char (s.code ++ [sym]) k (!rest.isEmpty) s.text
          (s.morseBitOffset + symbol_ones sym + k) s.endOfMessage ∧
    (bits morse (n * 8)).drop (s.morseBitOffset + symbol_ones sym + k) = rest := by
  have hones : run_length_nat morse n s.morseBitOffset = symbol_ones sym := by
    rw [run_length_eq, hshape, head_run_replicate]
    · have := symbol_ones_cases sym
      rw [if_neg (by omega)]
    · cases k with
      | zero =>
        left
        rw [hk rfl]; rfl
      | succ k =>
        right
        exact ⟨0, List.replicate k 0 ++ rest, by rw [List.replicate_succ]; rfl, by decide⟩
  have hd1 : (bits morse (n * 8)).drop (s.morseBitOffset + symbol_ones sym)
      = List.replicate k 0 ++ rest := by
    have := drop_of_shape _ _ _ _ hshape
    rwa [List.length_replicate] at this
  have hrest' : rest = [] ∨ ∃ x R, rest = x :: R ∧ x ≠ 0 := by
    rcases hrest with h | ⟨R, h⟩
    · exact Or.inl h
    · exact Or.inr ⟨1, R, h, by decide⟩
  have hzeros : run_length_nat morse n (s.morseBitOffset + symbol_ones sym) = k := by
    rw [run_length_eq, hd1, head_run_replicate _ _ _ hrest']
    by_cases hk0 : k = 0
    · rw [if_pos hk0, hk hk0, hk0]; rfl
    · rw [if_neg hk0]
  have hd2 : (bits morse (n * 8)).drop (s.morseBitOffset + symbol_ones sym + k) = rest := by
    have := drop_of_shape _ _ _ _ hd1
    rwa [List.length_replicate] at this
  have hmore : has_more_data morse (s.morseBitOffset + symbol_ones sym + k) (n * BITS_PER_BYTE)
      = !rest.isEmpty := by
    rw [has_more_data_eq]
    unfold BITS_PER_BYTE
    rw [hd2]
    rcases hrest with h | ⟨R, h⟩
    · subst h; rfl
    · subst h; simp
  refine ⟨?_, hd2⟩
  rw [body_eq, hones, hzeros, hmore, pass_core, run_symbol_ones sym hsym]
  have h0 : ¬ symbol_ones sym = 0 := by
    have := symbol_ones_cases sym; omega
  have h13 : ¬ (symbol_ones sym ≠ 1 ∧ symbol_ones sym ≠ 3) := by
    have := symbol_ones_cases sym; omega
  have hl : ¬ (s.code ++ [sym]).length > MAX_MORSE_LEN := by
    rw [List.length_append]
    unfold MAX_MORSE_LEN
    simp only [List.length_cons, List.length_nil]
    omega
  rw [if_neg h0, if_neg h13, if_neg hl]

theorem pass_gap_one (f : List Char → Int) (code : List Char) (m : Bool)
    (text : List Nat) (off : Nat) (eom : Bool) :
    pass_gap f code 1 m text off eom = DecStep.cont ⟨code, text, off, eom⟩ := rfl

theorem pass_gap_three (f : List Char → Int) (code : List Char) (m : Bool)
    (text : List Nat) (off : Nat) (eom : Bool) (ch : Nat) (hf : f code = (ch : Int))
    (hch : ch ≠ 0) :
    pass_gap f code 3 m text off eom = DecStep.cont ⟨[], text ++ [ch], off, eom⟩ := by
  unfold pass_gap
  have h1 : ¬ ((3 : Nat) = 1) := by decide
  have h0 : ¬ ((ch : Int) = 0) := by exact_mod_cast hch
  have hneg : ¬ ((ch : Int) < 0) := by omega
  rw [if_neg h1, if_pos rfl, hf, if_neg h0, if_neg hneg, Int.toNat_ofNat]

theorem pass_gap_three_eom (f : List Char → Int) (code : List Char) (m : Bool)
    (text : List Nat) (off : Nat) (eom : Bool) (hf : f code = 0) :
    pass_gap f code 3 m text off eom = DecStep.cont ⟨[], text, off, true⟩ := by
  unfold pass_gap
  have h1 : ¬ ((3 : Nat) = 1) := by decide
  rw [if_neg h1, if_pos rfl, if_pos hf]

theorem pass_gap_seven (f : List Char → Int) (code : List Char) (k : Nat) (m : Bool)
    (text : List Nat) (off : Nat) (eom : Bool) (ch : Nat) (hk : 7 ≤ k)
    (hf : f code = (ch : Int)) (hc : 0 < code.length) :
    pass_gap f code k m text off eom
      = DecStep.cont ⟨[], if m then text ++ [ch] ++ [32] else text ++ [ch], off, eom⟩ := by
  unfold pass_gap
  have h1 : ¬ (k = 1) := by omega
  have h3 : ¬ (k = 3) := by omega
  have hneg : ¬ ((ch : Int) < 0) := by omega
  rw [if_neg h1, if_neg h3, if_pos hk, if_pos hc, hf, if_neg hneg, Int.toNat_ofNat]

theorem pass_gap_other (f : List Char → Int) (code : List Char) (k : Nat) (m : Bool)
    (text : List Nat) (off : Nat) (eom : Bool) (h4 : 4 ≤ k) (h6 : k ≤ 6) :
    pass_gap f code k m text off eom = DecStep.cont ⟨code, text, off, eom⟩ := by
  unfold pass_gap
  have h1 : ¬ (k = 1) := by omega
  have h3 : ¬ (k = 3) := by omega
  have h7 : ¬ (k ≥ 7) := by omega
  have h0 : ¬ (k = 0) := by omega
  rw [if_neg h1, if_neg h3, if_neg h7, if_neg h0]

/-- The decoder on a stream that starts with the 1-run of `sym` followed by
`k` zero bits and then ends or goes on with a 1 bit. -/
theorem decode_shape (morse : List Nat) (n : Nat) (code : List Char) (text : List Nat)
    (off : Nat) (sym : Char) (hsym : sym = '.' ∨ sym = '-') (k : Nat) (rest : List Nat)
    (hrest : rest = [] ∨ ∃ R, rest = 1 :: R) (hk : k = 0 → rest = [])
    (hshape : (bits morse (n * 8)).drop off
      = List.replicate (symbol_ones sym) 1 ++ (List.replicate k 0 ++ rest))
    (hlen : code.length < 6) :
    decode_from morse n ⟨code, text, off, false⟩
      = (match pass_gap morse_to_char (code ++ [sym]) k (!rest.isEmpty) text
            (off + symbol_ones sym + k) false with
        | DecStep.ret r => some r
        | DecStep.brk s1 => some (morse_to_text_finish s1)
        | DecStep.cont s1 => decode_from morse n s1) ∧
    (bits morse (n * 8)).drop (off + symbol_ones sym + k) = rest := by
  have hne : (bits morse (n * 8)).drop off ≠ [] := by
    rw [hshape]
    have := symbol_ones_cases sym
    rcases this with h | h <;> rw [h] <;> simp [List.replicate]
  have hg : morse_to_text_guard_nat n ⟨code, text, off, false⟩ = true := by
    rw [guard_iff]
    exact ⟨lt_of_drop_ne_nil _ _ _ hne, rfl⟩
  obtain ⟨hb, hd⟩ := pass_shape morse n ⟨code, text, off, false⟩ sym hsym k rest hrest hk
    hshape hlen
  refine ⟨?_, hd⟩
  rw [decode_from_unfold, if_pos hg, hb]

theorem decode_at_end (morse : List Nat) (n : Nat) (s : DecState)
    (h : (bits morse (n * 8)).drop s.morseBitOffset = []) :
    decode_from morse n s = some (morse_to_text_finish s) := by
  apply decode_from_stop
  have := le_of_drop_nil _ _ _ h
  cases hg : morse_to_text_guard_nat n s with
  | false => rfl
  | true =>
    rw [guard_iff] at hg
    omega

theorem decode_at_eom (morse : List Nat) (n : Nat) (code : List Char) (text : List Nat)
    (off : Nat) :
    decode_from morse n ⟨code, text, off, true⟩ = some (morse_to_text_finish ⟨code, text, off, true⟩) := by
  apply decode_from_stop
  cases hg : morse_to_text_guard_nat n ⟨code, text, off, true⟩ with
  | false => rfl
  | true =>
    rw [guard_iff] at hg
    cases hg.2

/-! ## Decoder: whole characters -/

theorem symbol_bits_eq (sym : Char) (h : sym = '.' ∨ sym = '-') :
    symbol_bits sym = List.replicate (symbol_ones sym) 1 ++ [0] := by
  rcases h with h | h <;> subst h <;> decide

theorem replicate_ones_head (sym : Char) (rest : List Nat) :
    ∃ R, List.replicate (symbol_ones sym) 1 ++ rest = 1 :: R := by
  rcases symbol_ones_cases sym with h | h <;> rw [h]
  · exact ⟨rest, rfl⟩
  · exact ⟨1 :: 1 :: rest, rfl⟩

theorem code_bits_head (pre : List Char) (hv : ∀ s ∈ pre, s = '.' ∨ s = '-') (R : List Nat) :
    ∃ R1, code_bits pre ++ 1 :: R = 1 :: R1 := by
  cases pre with
  | nil => exact ⟨R, rfl⟩
  | cons sym pre =>
    rw [code_bits, symbol_bits_eq sym (hv sym (List.mem_cons_self _ _)), List.append_assoc,
      List.append_assoc]
    exact replicate_ones_head sym _

theorem code_bits_append (x y : List Char) : code_bits (x ++ y) = code_bits x ++ code_bits y := by
  induction x with
  | nil => rfl
  | cons s x ih => rw [List.cons_append, code_bits, code_bits, ih, List.append_assoc]

theorem code_signal_cons (s t : Char) (q : List Char) :
    code_signal (s :: t :: q) = List.replicate (symbol_ones s) 1 ++ [0] ++ code_signal (t :: q) :=
  rfl

theorem code_signal_concat (pre : List Char) (last : Char)
    (hv : ∀ s ∈ pre, s = '.' ∨ s = '-') :
    code_signal (pre ++ [last]) = code_bits pre ++ List.replicate (symbol_ones last) 1 := by
  induction pre with
  | nil => rfl
  | cons s pre ih =>
    have hs := hv s (List.mem_cons_self _ _)
    have hne : pre ++ [last] ≠ [] := by simp
    obtain ⟨t, q, htq⟩ := List.exists_cons_of_ne_nil hne
    rw [List.cons_append, htq, code_signal_cons, ← htq,
      ih (fun x hx => hv x (List.mem_cons_of_mem _ hx)),
      code_bits, symbol_bits_eq s hs]
    simp only [List.append_assoc]

/-- The decoder reads the symbols of `pre`, each followed by a single zero bit,
into the pending code. -/
theorem decode_symbols (morse : List Nat) (n : Nat) :
    ∀ (pre code : List Char) (text : List Nat) (off : Nat) (R : List Nat),
      (∀ s ∈ pre, s = '.' ∨ s = '-') → code.length + pre.length ≤ 6 →
      (bits morse (n * 8)).drop off = code_bits pre ++ 1 :: R →
      decode_from morse n ⟨code, text, off, false⟩
        = decode_from morse n ⟨code ++ pre, text, off + (code_bits pre).length, false⟩ ∧
      (bits morse (n * 8)).drop (off + (code_bits pre).length) = 1 :: R := by
  intro pre
  induction pre with
  | nil =>
    intro code text off R _ _ hshape
    rw [code_bits, List.nil_append] at hshape
    rw [List.append_nil, code_bits, List.length_nil, Nat.add_zero]
    exact ⟨rfl, hshape⟩
  | cons sym pre ih =>
    intro code text off R hv hlen hshape
    have hs := hv sym (List.mem_cons_self _ _)
    have hv' : ∀ s ∈ pre, s = '.' ∨ s = '-' := fun x hx => hv x (List.mem_cons_of_mem _ hx)
    rw [List.length_cons] at hlen
    obtain ⟨R1, hR1⟩ := code_bits_head pre hv' R
    have hshape' : (bits morse (n * 8)).drop off
        = List.replicate (symbol_ones sym) 1 ++ (List.replicate 1 0 ++ (1 :: R1)) := by
      rw [hshape, code_bits, symbol_bits_eq sym hs, ← hR1]
      simp only [List.append_assoc, List.replicate, List.singleton_append, List.cons_append,
        List.nil_append]
    obtain ⟨h1, h2⟩ := decode_shape morse n code text off sym hs 1 (1 :: R1)
      (Or.inr ⟨R1, rfl⟩) (fun h => absurd h (by decide)) hshape' (by omega)
    rw [pass_gap_one] at h1
    rw [hR1.symm] at h2
    obtain ⟨h3, h4⟩ := ih (code ++ [sym]) text (off + symbol_ones sym + 1) R hv'
      (by rw [List.length_append]; simp only [List.length_cons, List.length_nil]; omega) h2
    have hl : off + (code_bits (sym :: pre)).length
        = off + symbol_ones sym + 1 + (code_bits pre).length := by
      rw [code_bits, symbol_bits_eq sym hs]
      simp only [List.length_append, List.length_replicate, List.length_cons, List.length_nil]
      omega
    rw [hl]
    refine ⟨?_, h4⟩
    have hc : code ++ sym :: pre = code ++ [sym] ++ pre := by
      rw [List.append_assoc]; rfl
    rw [h1, hc]
    exact h3

/-- The decoder on the signal of a whole code followed by `k` zero bits. -/
theorem decode_char (morse : List Nat) (n : Nat) (cd : List Char) (hne : cd ≠ [])
    (hv : ∀ s ∈ cd, s = '.' ∨ s = '-') (hlen : cd.length ≤ 6) (text : List Nat) (off k : Nat)
    (rest : List Nat) (hrest : rest = [] ∨ ∃ R, rest = 1 :: R) (hk : k = 0 → rest = [])
    (hshape : (bits morse (n * 8)).drop off = code_signal cd ++ (List.replicate k 0 ++ rest)) :
    decode_from morse n ⟨[], text, off, false⟩
      = (match pass_gap morse_to_char cd k (!rest.isEmpty) text
            (off + (code_signal cd).length + k) false with
        | DecStep.ret r => some r
        | DecStep.brk s1 => some (morse_to_text_finish s1)
        | DecStep.cont s1 => decode_from morse n s1) ∧
    (bits morse (n * 8)).drop (off + (code_signal cd).length + k) = rest := by
  obtain ⟨pre, last, hcd⟩ : ∃ pre last, cd = pre ++ [last] :=
    ⟨cd.dropLast, cd.getLast hne, (List.dropLast_append_getLast hne).symm⟩
  subst hcd
  have hvp : ∀ s ∈ pre, s = '.' ∨ s = '-' := fun x hx => hv x (List.mem_append_left _ hx)
  have hvl : last = '.' ∨ last = '-' := hv last (List.mem_append_right _ (List.mem_singleton_self _))
  rw [List.length_append] at hlen
  simp only [List.length_cons, List.length_nil] at hlen
  rw [code_signal_concat pre last hvp] at hshape ⊢
  rw [List.append_assoc] at hshape
  obtain ⟨R, hR⟩ := replicate_ones_head last (List.replicate k 0 ++ rest)
  rw [hR] at hshape
  obtain ⟨h1, h2⟩ := decode_symbols morse n pre [] text off R hvp
    (by simp only [List.length_nil]; omega) hshape
  rw [← hR] at h2
  obtain ⟨h3, h4⟩ := decode_shape morse n ([] ++ pre) text (off + (code_bits pre).length) last hvl
    k rest hrest hk h2 (by simp only [List.nil_append]; omega)
  have hl : off + (code_bits pre ++ List.replicate (symbol_ones last) 1).length + k
      = off + (code_bits pre).length + symbol_ones last + k := by
    rw [List.length_append, List.length_replicate]
    omega
  rw [hl]
  refine ⟨?_, h4⟩
  rw [List.nil_append] at h1 h3
  exact h1.trans h3

set_option maxRecDepth 100000 in
theorem table_entry_shape : ∀ a < 123, (char_to_morse a).isSome = true →
    ((char_to_morse a).getD [] ≠ [] ∧ ((char_to_morse a).getD []).length ≤ 5 ∧
     (∀ s ∈ (char_to_morse a).getD [], s = '.' ∨ s = '-')) := by
  decide

set_option maxRecDepth 100000 in
theorem table_entry_inverse : ∀ a < 123, (char_to_morse a).isSome = true →
    morse_to_char ((char_to_morse a).getD []) = (a : Int) := by
  decide

/-- What the table says about a character that has a code. -/
theorem table_entry (a : Nat) (ca : List Char) (h : char_to_morse a = some ca) :
    ca ≠ [] ∧ ca.length ≤ 5 ∧ (∀ s ∈ ca, s = '.' ∨ s = '-') ∧ morse_to_char ca = (a : Int) := by
  have hlt : a < 123 := by
    by_contra hc
    rw [char_to_morse_none_of_ge a (by omega)] at h
    cases h
  have h1 := table_entry_shape a hlt (by rw [h]; rfl)
  have h2 := table_entry_inverse a hlt (by rw [h]; rfl)
  rw [h] at h1 h2
  exact ⟨h1.1, h1.2.1, h1.2.2, h2⟩

theorem code_signal_head (cd : List Char) (hne : cd ≠ []) (hv : ∀ s ∈ cd, s = '.' ∨ s = '-')
    (rest : List Nat) : ∃ R, code_signal cd ++ rest = 1 :: R := by
  obtain ⟨pre, last, hcd⟩ : ∃ pre last, cd = pre ++ [last] :=
    ⟨cd.dropLast, cd.getLast hne, (List.dropLast_append_getLast hne).symm⟩
  subst hcd
  have hvp : ∀ s ∈ pre, s = '.' ∨ s = '-' := fun x hx => hv x (List.mem_append_left _ hx)
  rw [code_signal_concat pre last hvp, List.append_assoc]
  obtain ⟨R, hR⟩ := replicate_ones_head last rest
  rw [hR]
  exact code_bits_head pre hvp R

theorem init_offset (morse : List Nat) (n p : Nat) (R : List Nat)
    (h : bits morse (n * 8) = List.replicate p 0 ++ 1 :: R) :
    morse_to_text_init_nat morse n = ⟨[], [], p, false⟩ ∧ (bits morse (n * 8)).drop p = 1 :: R := by
  constructor
  · unfold morse_to_text_init_nat BITS_PER_BYTE
    rw [skip_leading_zeros_eq morse (n * 8) (n * 8) 0 (by omega), List.drop_zero, h,
      takeWhile_replicate_append 0 p (1 :: R) (Or.inr ⟨1, R, rfl, by decide⟩), Nat.zero_add]
  · have h0 : (bits morse (n * 8)).drop 0 = List.replicate p 0 ++ 1 :: R := h
    have := drop_of_shape _ _ _ 0 h0
    rwa [Nat.zero_add, List.length_replicate] at this

/-! ## Decoder: the stream of the encoder -/

theorem letter_bits_signal (cd : List Char) (hne : cd ≠ []) (hv : ∀ s ∈ cd, s = '.' ∨ s = '-') :
    letter_bits cd = code_signal cd ++ List.replicate 3 0 := by
  obtain ⟨pre, last, hcd⟩ : ∃ pre last, cd = pre ++ [last] :=
    ⟨cd.dropLast, cd.getLast hne, (List.dropLast_append_getLast hne).symm⟩
  subst hcd
  have hvp : ∀ s ∈ pre, s = '.' ∨ s = '-' := fun x hx => hv x (List.mem_append_left _ hx)
  have hvl : last = '.' ∨ last = '-' := hv last (List.mem_append_right _ (List.mem_singleton_self _))
  rw [letter_bits, code_bits_append, code_signal_concat pre last hvp, code_bits, code_bits,
    symbol_bits_eq last hvl]
  simp only [List.append_assoc, List.append_nil, List.replicate, List.singleton_append,
    List.cons_append, List.nil_append]

theorem alnum_entry (c : Nat) (h : isalnum c = true) :
    ∃ cd, char_to_morse (toupper c) = some cd ∧ cd ≠ [] ∧ cd.length ≤ 5 ∧
      (∀ s ∈ cd, s = '.' ∨ s = '-') ∧ morse_to_char cd = (toupper c : Int) ∧ toupper c ≠ 0 := by
  obtain ⟨h1, h2, h3, h4, h5, h6, -, -⟩ := table_alnum_bounded c (isalnum_lt c h) h
  exact ⟨_, h1, h2, h3, h4, h5, h6⟩

theorem eom_entry : eom_code ≠ [] ∧ eom_code.length ≤ 5 ∧ (∀ s ∈ eom_code, s = '.' ∨ s = '-') ∧
    morse_to_char eom_code = ((0 : Nat) : Int) := by decide

theorem encode_bits_true_head (l : List Nat) : ∃ R, encode_bits true l = 1 :: R := by
  induction l with
  | nil => exact ⟨_, rfl⟩
  | cons c rest ih =>
    by_cases ha : isalnum c = true
    · obtain ⟨cd, h1, h2, -, h4, -, -⟩ := alnum_entry c ha
      rw [encode_bits, if_pos ha, h1, Option.getD_some, letter_bits_signal cd h2 h4,
        List.append_assoc]
      exact code_signal_head cd h2 h4 _
    · rw [encode_bits, if_neg ha, if_pos rfl]
      exact ih

theorem encode_bits_false_alnum (c : Nat) (rest : List Nat) (h : isalnum c = true) :
    encode_bits false (c :: rest) = encode_bits true (c :: rest) := by
  rw [encode_bits, encode_bits, if_pos h, if_pos h]

theorem finish_eq (code : List Char) (text : List Nat) (off : Nat) (eom : Bool) :
    morse_to_text_finish ⟨code, text, off, eom⟩ = ⟨(text.length : Int), text ++ [0]⟩ := rfl

/-- The decoder on the end-of-message code followed by `p` zero bits that end
the buffer. -/
theorem decode_eom (morse : List Nat) (n p off : Nat) (text0 : List Nat)
    (h : (bits morse (n * 8)).drop off = letter_bits eom_code ++ List.replicate p 0) :
    decode_from morse n ⟨[], text0, off, false⟩ = some (padded_result p text0) := by
  obtain ⟨e1, e2, e3, e4⟩ := eom_entry
  have hshape : (bits morse (n * 8)).drop off
      = code_signal eom_code ++ (List.replicate (3 + p) 0 ++ []) := by
    rw [h, letter_bits_signal eom_code e1 e3, List.append_assoc, List.append_nil,
      ← List.replicate_add]
  obtain ⟨c1, c2⟩ := decode_char morse n eom_code e1 e3 (by omega) text0 off (3 + p) []
    (Or.inl rfl) (fun _ => rfl) hshape
  unfold padded_result
  by_cases hp0 : p = 0
  · subst hp0
    rw [pass_gap_three_eom _ _ _ _ _ _ e4] at c1
    rw [if_neg (by decide)]
    exact c1.trans (decode_at_eom morse n _ _ _)
  · by_cases hp4 : 4 ≤ p
    · rw [pass_gap_seven _ _ _ _ _ _ _ 0 (by omega) e4 (by decide)] at c1
      rw [if_pos hp4]
      have e := decode_at_end morse n
        ⟨[], text0 ++ [0], off + (code_signal eom_code).length + (3 + p), false⟩ c2
      rw [finish_eq] at e
      rw [c1.trans e]
      simp only [List.length_append, List.length_cons, List.length_nil, List.append_assoc,
        List.cons_append, List.nil_append, Nat.cast_add, Nat.cast_one, Nat.cast_zero, zero_add]
    · rw [pass_gap_other _ _ _ _ _ _ _ (by omega) (by omega)] at c1
      rw [if_neg hp4]
      exact c1.trans (decode_at_end morse n
        ⟨eom_code, text0, off + (code_signal eom_code).length + (3 + p), false⟩ c2)

/-- The decoder on the encoded stream of a text followed by `p` zero bits of
padding, started at a character boundary (first part) or at the signal of a
character whose 3-bit gap is followed by the rest of the stream (second
part). -/
theorem decode_encoded_aux (morse : List Nat) (n p : Nat) :
    ∀ l : List Nat, (∀ c ∈ l, c ≠ 0) →
      (∀ (off : Nat) (text0 : List Nat),
        (bits morse (n * 8)).drop off = encode_bits true l ++ List.replicate p 0 →
        decode_from morse n ⟨[], text0, off, false⟩
          = some (padded_result p (text0 ++ normalize_body true l))) ∧
      (∀ (off : Nat) (text0 : List Nat) (cd : List Char) (ch : Nat),
        cd ≠ [] → cd.length ≤ 5 → (∀ s ∈ cd, s = '.' ∨ s = '-') →
        morse_to_char cd = (ch : Int) → ch ≠ 0 →
        (bits morse (n * 8)).drop off
          = code_signal cd ++ (List.replicate 3 0 ++ (encode_bits false l ++ List.replicate p 0)) →
        decode_from morse n ⟨[], text0, off, false⟩
          = some (padded_result p (text0 ++ [ch] ++ normalize_body false l))) := by
  intro l
  induction l with
  | nil =>
    intro _
    have hQ : ∀ (off : Nat) (text0 : List Nat),
        (bits morse (n * 8)).drop off = encode_bits true [] ++ List.replicate p 0 →
        decode_from morse n ⟨[], text0, off, false⟩
          = some (padded_result p (text0 ++ normalize_body true [])) := by
      intro off text0 h
      rw [normalize_body, List.append_nil]
      exact decode_eom morse n p off text0 h
    refine ⟨hQ, ?_⟩
    intro off text0 cd ch h1 h2 h3 h4 h5 hshape
    obtain ⟨R, hR⟩ := encode_bits_true_head []
    have hff : encode_bits false [] = encode_bits true [] := rfl
    rw [hff, hR] at hshape
    obtain ⟨c1, c2⟩ := decode_char morse n cd h1 h3 (by omega) text0 off 3
      (1 :: R ++ List.replicate p 0) (Or.inr ⟨_, rfl⟩) (fun h0 => by omega) hshape
    rw [pass_gap_three _ _ _ _ _ _ ch h4 h5] at c1
    rw [← hR] at c2
    have := hQ _ (text0 ++ [ch]) c2
    rw [normalize_body, List.append_nil] at this ⊢
    exact c1.trans this
  | cons c rest ih =>
    intro hnul
    have hc0 : c ≠ 0 := hnul c (List.mem_cons_self _ _)
    obtain ⟨ihQ, ihR⟩ := ih (fun x hx => hnul x (List.mem_cons_of_mem _ hx))
    have hQ : ∀ (off : Nat) (text0 : List Nat),
        (bits morse (n * 8)).drop off = encode_bits true (c :: rest) ++ List.replicate p 0 →
        decode_from morse n ⟨[], text0, off, false⟩
          = some (padded_result p (text0 ++ normalize_body true (c :: rest))) := by
      intro off text0 h
      by_cases ha : isalnum c = true
      · obtain ⟨cd, h1, h2, h3, h4, h5, h6⟩ := alnum_entry c ha
        rw [encode_bits, if_pos ha, h1, Option.getD_some, letter_bits_signal cd h2 h4,
          List.append_assoc, List.append_assoc] at h
        have := ihR off text0 cd (toupper c) h2 h3 h4 h5 h6 h
        rw [normalize_body, if_pos ha]
        rw [this]
        simp only [List.append_assoc, List.singleton_append]
      · rw [encode_bits, if_neg ha, if_pos rfl] at h
        rw [normalize_body, if_neg ha, if_pos rfl, List.nil_append]
        exact ihQ off text0 h
    refine ⟨hQ, ?_⟩
    intro off text0 cd ch h1 h2 h3 h4 h5 hshape
    by_cases ha : isalnum c = true
    · rw [encode_bits_false_alnum c rest ha] at hshape
      obtain ⟨R, hR⟩ := encode_bits_true_head (c :: rest)
      rw [hR] at hshape
      obtain ⟨c1, c2⟩ := decode_char morse n cd h1 h3 (by omega) text0 off 3
        (1 :: R ++ List.replicate p 0) (Or.inr ⟨_, rfl⟩) (fun h0 => by omega) hshape
      rw [pass_gap_three _ _ _ _ _ _ ch h4 h5] at c1
      rw [← hR] at c2
      have := hQ _ (text0 ++ [ch]) c2
      have hn : normalize_body false (c :: rest) = normalize_body true (c :: rest) := by
        rw [normalize_body, normalize_body, if_pos ha, if_pos ha]
      rw [hn]
      exact c1.trans this
    · have ha' : isalnum c = false := by simpa using ha
      have hup := toupper_of_not_alnum c ha'
      rw [encode_bits, if_neg ha, if_neg (by decide), if_neg (by rw [hup]; exact hc0)] at hshape
      obtain ⟨R, hR⟩ := encode_bits_true_head rest
      have hshape' : (bits morse (n * 8)).drop off
          = code_signal cd ++ (List.replicate 7 0 ++ (1 :: R ++ List.replicate p 0)) := by
        rw [hshape, hR]
        simp only [List.replicate, List.append_assoc, List.cons_append, List.nil_append]
      obtain ⟨c1, c2⟩ := decode_char morse n cd h1 h3 (by omega) text0 off 7
        (1 :: R ++ List.replicate p 0) (Or.inr ⟨_, rfl⟩) (fun h0 => by omega) hshape'
      rw [pass_gap_seven _ _ _ _ _ _ _ ch (by omega) h4 (List.length_pos.mpr h1)] at c1
      rw [← hR] at c2
      have := ihQ _ (text0 ++ [ch] ++ [32]) c2
      rw [normalize_body, if_neg ha, if_neg (by decide)]
      rw [c1.trans this]
      simp only [List.append_assoc, List.singleton_append, List.cons_append, List.nil_append]

/-! ## Round trip -/

theorem get_bit_take (a : List Nat) (m i : Nat) (h : i / 8 < m) :
    get_bit_at_offset (a.take m) i = get_bit_at_offset a i := by
  rw [get_bit_at_offset_eq, get_bit_at_offset_eq, List.getD_eq_getElem?_getD,
    List.getD_eq_getElem?_getD, List.getElem?_take_of_lt h]

theorem get_bit_zeros (cap i : Nat) : get_bit_at_offset (List.replicate cap 0) i = 0 := by
  rw [get_bit_at_offset_eq, List.getD_eq_getElem?_getD, List.getElem?_replicate]
  split <;> simp

/-- The bits of the bytes `text_to_morse` reports as used, when it has written
the stream `E` into a zero-initialised buffer: `E` and the zero padding of the
last byte. -/
theorem bits_encoded (E : List Nat) (cap : Nat) (hE : ∀ x ∈ E, x = 0 ∨ x = 1)
    (hcap : (E.length + 7) / 8 ≤ cap) :
    ((write_bits (List.replicate cap 0) 0 E).take ((E.length + 7) / 8)).length
      = (E.length + 7) / 8 ∧
    bits ((write_bits (List.replicate cap 0) 0 E).take ((E.length + 7) / 8))
        ((E.length + 7) / 8 * 8)
      = E ++ List.replicate ((E.length + 7) / 8 * 8 - E.length) 0 := by
  have hlen : (write_bits (List.replicate cap 0) 0 E).length = cap := by
    rw [write_bits_length, List.length_replicate]
  constructor
  · rw [List.length_take, hlen]
    omega
  · apply List.ext_getElem
    · rw [bits_length, List.length_append, List.length_replicate]
      omega
    · intro i h1 h2
      rw [bits_length] at h1
      have hb : (bits ((write_bits (List.replicate cap 0) 0 E).take ((E.length + 7) / 8))
          ((E.length + 7) / 8 * 8))[i]
          = get_bit_at_offset ((write_bits (List.replicate cap 0) 0 E).take ((E.length + 7) / 8)) i := by
        simp [bits]
      rw [hb, get_bit_take _ _ _ (by omega),
        get_bit_write_bits E _ 0 i (by rw [List.length_replicate]; omega)]
      by_cases hi : i < E.length
      · rw [if_pos (by omega), Nat.sub_zero, List.getD_eq_getElem _ _ hi,
          List.getElem_append_left hi]
        rcases hE _ (List.getElem_mem hi) with h0 | h0 <;> rw [h0] <;> rfl
      · rw [if_neg (by omega), get_bit_zeros, List.getElem_append_right (by omega),
          List.getElem_replicate]

theorem code_bits_length_le (code : List Char) : (code_bits code).length ≤ 4 * code.length := by
  induction code with
  | nil => simp [code_bits]
  | cons s rest ih =>
    rw [code_bits, List.length_append, List.length_cons]
    have : (symbol_bits s).length ≤ 4 := by
      unfold symbol_bits
      split
      · decide
      · split <;> decide
    omega

theorem char_to_morse_scan_mem (c : Nat) (l : List TextMorse) (code : List Char)
    (h : char_to_morse_scan c l = some code) : ∃ e ∈ l, e.code = code := by
  induction l with
  | nil => cases h
  | cons e rest ih =>
    rw [char_to_morse_scan] at h
    split at h
    · injection h with h
      exact ⟨e, List.mem_cons_self _ _, h⟩
    · obtain ⟨e', he', hc⟩ := ih h
      exact ⟨e', List.mem_cons_of_mem _ he', hc⟩

theorem letter_bits_length_le (c : Nat) :
    (letter_bits ((char_to_morse c).getD [])).length ≤ 22 := by
  have hcode : ((char_to_morse c).getD []).length ≤ 5 := by
    cases h : char_to_morse c with
    | none => simp
    | some code =>
      obtain ⟨e, he, hc⟩ := char_to_morse_scan_mem c char_codes code h
      have := char_codes_length e he
      rw [hc] at this
      simpa using this
  have := code_bits_length_le ((char_to_morse c).getD [])
  rw [letter_bits, List.length_append]
  simp only [List.length_cons, List.length_nil]
  omega

theorem encode_bits_length_le (l : List Nat) (b : Bool) :
    (encode_bits b l).length ≤ 22 * l.length + 16 := by
  induction l generalizing b with
  | nil =>
    rw [encode_bits]
    decide
  | cons c rest ih =>
    rw [encode_bits, List.length_cons]
    split_ifs
    · rw [List.length_append]
      have := letter_bits_length_le (toupper c)
      have := ih false
      omega
    · have := ih true
      omega
    · have : (letter_bits eom_code).length = 16 := by decide
      omega
    · rw [List.length_append]
      have := ih true
      simp only [List.length_cons, List.length_nil]
      omega

theorem normalize_eq (text : List Nat) : normalize text = normalize_body true text := by
  unfold normalize
  induction text with
  | nil => rfl
  | cons c rest ih =>
    rw [List.dropWhile_cons]
    by_cases ha : isalnum c = true
    · simp only [ha, Bool.not_true, Bool.false_eq_true, if_false, normalize_body, if_true]
    · have ha' : isalnum c = false := by simpa using ha
      simp only [ha', Bool.not_false, if_true, normalize_body, Bool.false_eq_true, if_false,
        List.nil_append]
      exact ih

theorem toupper_alnum_ne_zero (c : Nat) (h : isalnum c = true) : toupper c ≠ 0 := by
  obtain ⟨cd, -, -, -, -, -, h6⟩ := alnum_entry c h
  exact h6

theorem normalize_body_ne_zero (l : List Nat) (b : Bool) : ∀ x ∈ normalize_body b l, x ≠ 0 := by
  induction l generalizing b with
  | nil => intro x hx; cases hx
  | cons c rest ih =>
    intro x hx
    rw [normalize_body] at hx
    split_ifs at hx with ha hb
    · rcases List.mem_cons.mp hx with h | h
      · rw [h]; exact toupper_alnum_ne_zero c ha
      · exact ih _ x h
    · rw [List.nil_append] at hx
      exact ih _ x hx
    · rcases List.mem_append.mp hx with h | h
      · rw [List.mem_singleton] at h
        rw [h]; decide
      · exact ih _ x h

theorem cstring_append_zero (t rest : List Nat) (h : ∀ x ∈ t, x ≠ 0) :
    cstring (t ++ 0 :: rest) = t := by
  unfold cstring
  induction t with
  | nil => simp
  | cons x t ih =>
    have hx : x ≠ 0 := h x (List.mem_cons_self _ _)
    rw [List.cons_append, List.takeWhile_cons]
    have : decide (x ≠ 0) = true := decide_eq_true hx
    rw [if_pos this, ih (fun y hy => h y (List.mem_cons_of_mem _ hy))]

theorem padded_result_spec (p : Nat) (t : List Nat) (h : ∀ x ∈ t, x ≠ 0) :
    0 ≤ (padded_result p t).ret ∧ cstring (padded_result p t).text = t := by
  unfold padded_result
  split
  · exact ⟨by show (0 : Int) ≤ (t.length : Int) + 1; omega, cstring_append_zero t [0] h⟩
  · exact ⟨by show (0 : Int) ≤ (t.length : Int); omega, cstring_append_zero t [] h⟩

/-- Decoding the bytes `text_to_morse` reports as used for a text without NUL
byte, written into a zero-initialised buffer that is large enough. -/
theorem decode_encode (text : List Nat) (cap : Nat) (hnul : ∀ c ∈ text, c ≠ 0)
    (hcap : 22 * text.length + 16 ≤ 8 * cap) :
    ∃ p, morse_to_text_nat
        ((write_bits (List.replicate cap 0) 0 (encode_bits true text)).take
          (((encode_bits true text).length + 7) / 8))
        (((encode_bits true text).length + 7) / 8)
      = some (padded_result p (normalize_body true text)) := by
  have hlen := encode_bits_length_le text true
  obtain ⟨h1, h2⟩ := bits_encoded (encode_bits true text) cap (encode_bits_bits text true)
    (by omega)
  obtain ⟨R, hR⟩ := encode_bits_true_head text
  generalize hp : ((encode_bits true text).length + 7) / 8 * 8 - (encode_bits true text).length
    = p at h2
  generalize hM : (write_bits (List.replicate cap 0) 0 (encode_bits true text)).take
    (((encode_bits true text).length + 7) / 8) = M at h1 h2 ⊢
  generalize hn : ((encode_bits true text).length + 7) / 8 = n at h1 h2 ⊢
  refine ⟨p, ?_⟩
  have h0 : bits M (n * 8) = List.replicate 0 0 ++ 1 :: (R ++ List.replicate p 0) := by
    rw [h2, hR]
    rfl
  obtain ⟨hinit, -⟩ := init_offset M n 0 _ h0
  have hd : (bits M (n * 8)).drop 0 = encode_bits true text ++ List.replicate p 0 := h2
  have := (decode_encoded_aux M n p text hnul).1 0 [] hd
  rw [morse_to_text_eq, hinit, this, List.nil_append]

/-- Two characters with a zero-run of `k >= 7` bits between them, the second
one followed by a 3-bit gap that ends the buffer. -/
theorem decode_two_words (morse : List Nat) (a b : Nat) (ca cb : List Char) (p k : Nat)
    (ha : char_to_morse a = some ca) (hb : char_to_morse b = some cb) (hb0 : b ≠ 0)
    (hk : 7 ≤ k)
    (h : bits morse (morse.length * 8)
      = List.replicate p 0 ++ code_signal ca ++ List.replicate k 0 ++ code_signal cb
        ++ List.replicate 3 0) :
    morse_to_text_nat morse morse.length = some ⟨3, [a, 32, b, 0]⟩ := by
  obtain ⟨a1, a2, a3, a4⟩ := table_entry a ca ha
  obtain ⟨b1, b2, b3, b4⟩ := table_entry b cb hb
  obtain ⟨Rb, hRb⟩ := code_signal_head cb b1 b3 (List.replicate 3 0 ++ [])
  obtain ⟨Ra, hRa⟩ := code_signal_head ca a1 a3 (List.replicate k 0 ++ 1 :: Rb)
  have h' : bits morse (morse.length * 8) = List.replicate p 0 ++ 1 :: Ra := by
    rw [h, ← hRa, ← hRb]
    simp only [List.append_assoc, List.append_nil]
  obtain ⟨hinit, hdrop⟩ := init_offset morse morse.length p Ra h'
  rw [← hRa] at hdrop
  obtain ⟨c1, c2⟩ := decode_char morse morse.length ca a1 a3 (by omega) [] p k (1 :: Rb)
    (Or.inr ⟨Rb, rfl⟩) (fun h0 => by omega) hdrop
  rw [pass_gap_seven _ _ _ _ _ _ _ a hk a4 (List.length_pos.mpr a1)] at c1
  rw [← hRb] at c2
  obtain ⟨d1, d2⟩ := decode_char morse morse.length cb b1 b3 (by omega) ([] ++ [a] ++ [32])
    (p + (code_signal ca).length + k) 3 [] (Or.inl rfl) (fun h0 => rfl) c2
  rw [pass_gap_three _ _ _ _ _ _ b b4 hb0] at d1
  have e1 := decode_at_end morse morse.length
    ⟨[], [] ++ [a] ++ [32] ++ [b], p + (code_signal ca).length + k + (code_signal cb).length + 3,
      false⟩ d2
  rw [morse_to_text_eq, hinit, c1]
  exact d1.trans e1

/-- One character followed by a zero-run of `k >= 7` bits that ends the
buffer. -/
theorem decode_trailing_silence (morse : List Nat) (a : Nat) (ca : List Char) (p k : Nat)
    (ha : char_to_morse a = some ca) (hk : 7 ≤ k)
    (h : bits morse (morse.length * 8)
      = List.replicate p 0 ++ code_signal ca ++ List.replicate k 0) :
    morse_to_text_nat morse morse.length = some ⟨1, [a, 0]⟩ := by
  obtain ⟨a1, a2, a3, a4⟩ := table_entry a ca ha
  obtain ⟨Ra, hRa⟩ := code_signal_head ca a1 a3 (List.replicate k 0 ++ [])
  have h' : bits morse (morse.length * 8) = List.replicate p 0 ++ 1 :: Ra := by
    rw [h, ← hRa]
    simp only [List.append_assoc, List.append_nil]
  obtain ⟨hinit, hdrop⟩ := init_offset morse morse.length p Ra h'
  rw [← hRa] at hdrop
  obtain ⟨c1, c2⟩ := decode_char morse morse.length ca a1 a3 (by omega) [] p k []
    (Or.inl rfl) (fun h0 => rfl) hdrop
  rw [pass_gap_seven _ _ _ _ _ _ _ a hk a4 (List.length_pos.mpr a1)] at c1
  have e1 := decode_at_end morse morse.length
    ⟨[], [] ++ [a], p + (code_signal ca).length + k, false⟩ c2
  rw [morse_to_text_eq, hinit, c1]
  exact e1

/-- The main loop of `morse_to_text` never runs out of fuel. -/
theorem morse_to_text_total (morse : List Nat) (n : Nat) :
    ∃ r, morse_to_text_nat morse n = some r := by
  rw [morse_to_text_eq]
  exact decode_from_isSome morse n _ _ (le_refl _)

/-! ## Further facts on the helpers, the table and the passes -/

theorem run_length_zero_iff (bytes : List Nat) (n off : Nat) :
    run_length_nat bytes n off = 0 ↔ off ≥ n * 8 := by
  constructor
  · intro h
    by_contra hc
    have := run_length_pos bytes n off (by omega)
    omega
  · intro h
    unfold run_length_nat BITS_PER_BYTE
    rw [if_pos h]

theorem get_bit_at_offset_div (array : List Nat) (o : Nat) :
    get_bit_at_offset array o = array.getD (o / 8) 0 / 2 ^ (7 - o % 8) % 2 := by
  rw [get_bit_at_offset_eq, Nat.testBit_to_div_mod]
  have := Nat.mod_two_eq_zero_or_one (array.getD (o / 8) 0 / 2 ^ (7 - o % 8))
  rcases this with h | h <;> rw [h] <;> simp

theorem pass_gap_cont_code (f : List Char → Int) (code : List Char) (z : Nat) (m : Bool)
    (text : List Nat) (off : Nat) (eom : Bool) (s1 : DecState)
    (h : pass_gap f code z m text off eom = DecStep.cont s1) :
    s1.code = code ∨ s1.code = [] := by
  unfold pass_gap at h
  split_ifs at h <;> first
    | (injection h with h; subst h; exact Or.inl rfl)
    | (injection h with h; subst h; exact Or.inr rfl)

theorem body_cont_code (morse : List Nat) (n : Nat) (s s1 : DecState)
    (h : morse_to_text_body_nat morse n s = DecStep.cont s1) :
    s1.code.length ≤ MAX_MORSE_LEN := by
  rw [body_eq, pass_core] at h
  split_ifs at h with h0 h13 hl
  rcases pass_gap_cont_code _ _ _ _ _ _ _ _ h with hc | hc
  · rw [hc]; omega
  · rw [hc]; exact Nat.zero_le _

theorem dec_trace_code_length (morse : List Nat) (n : Nat) :
    ∀ (i : Nat) (s : DecState), dec_trace_nat morse n i = some s →
      s.code.length ≤ MAX_MORSE_LEN := by
  intro i
  cases i with
  | zero =>
    intro s h
    rw [dec_trace_nat] at h
    injection h with h
    subst h
    exact Nat.zero_le _
  | succ i =>
    intro s h
    rw [dec_trace_nat] at h
    cases ht : dec_trace_nat morse n i with
    | none => rw [ht] at h; cases h
    | some s0 =>
      rw [ht] at h
      simp only [] at h
      by_cases hg : morse_to_text_guard_nat n s0 = true
      · rw [if_pos hg] at h
        cases hb : morse_to_text_body_nat morse n s0 with
        | ret r => rw [hb] at h; cases h
        | brk s1 => rw [hb] at h; cases h
        | cont s1 =>
          rw [hb] at h
          injection h with h
          subst h
          exact body_cont_code morse n s0 s1 hb
      · rw [if_neg hg] at h; cases h

/-- A pass that would accumulate a symbol into a code of more than
`MAX_MORSE_LEN` symbols leaves the function before the code is used again. -/
theorem body_guard_length (morse : List Nat) (n : Nat) (s : DecState)
    (h : (s.code ++ [run_symbol (run_length_nat morse n s.morseBitOffset)]).length > MAX_MORSE_LEN) :
    morse_to_text_body_nat morse n s = DecStep.brk s ∨
    morse_to_text_body_nat morse n s = DecStep.ret ⟨-1, s.text⟩ := by
  rw [body_eq, pass_core]
  split_ifs with h0 h13
  · exact Or.inl rfl
  · exact Or.inr rfl
  · exact Or.inr rfl

set_option maxRecDepth 100000 in
theorem char_to_morse_found_bounded : ∀ c < 123,
    ((char_to_morse c).isSome = true ↔ ((65 ≤ c ∧ c ≤ 90) ∨ (48 ≤ c ∧ c ≤ 57) ∨ c = 0)) := by
  decide

theorem char_to_morse_found (c : Nat) :
    (char_to_morse c).isSome = true ↔ has_code c := by
  unfold has_code
  by_cases h : c < 123
  · exact char_to_morse_found_bounded c h
  · rw [char_to_morse_none_of_ge c (by omega)]
    constructor
    · intro h1; cases h1
    · intro h1; omega

theorem morse_to_char_scan_found (code : List Char) (l : List TextMorse) (h : 0 ≤ morse_to_char_scan code l) :
    ∃ e ∈ l, e.code = code ∧ morse_to_char_scan code l = (e.c.toNat : Int) := by
  induction l with
  | nil =>
    rw [morse_to_char_scan] at h
    exact absurd h (by decide)
  | cons e rest ih =>
    rw [morse_to_char_scan] at h ⊢
    by_cases hc : e.code = code
    · rw [if_pos hc]
      exact ⟨e, List.mem_cons_self _ _, hc, rfl⟩
    · rw [if_neg hc] at h ⊢
      obtain ⟨e1, h1, h2, h3⟩ := ih h
      exact ⟨e1, List.mem_cons_of_mem _ h1, h2, h3⟩

theorem morse_to_char_scan_cases (code : List Char) (l : List TextMorse) :
    morse_to_char_scan code l = -1 ∨ 0 ≤ morse_to_char_scan code l := by
  induction l with
  | nil => exact Or.inl rfl
  | cons e rest ih =>
    rw [morse_to_char_scan]
    split
    · exact Or.inr (Int.natCast_nonneg _)
    · exact ih

set_option maxRecDepth 100000 in
theorem char_codes_entries : ∀ e ∈ char_codes, char_to_morse e.c.toNat = some e.code := by
  decide

set_option maxRecDepth 100000 in
theorem char_codes_distinct :
    char_codes.length = 37 ∧ (char_codes.map (fun e => e.code)).Nodup ∧
    (char_codes.map (fun e => e.c)).Nodup := by
  decide

theorem morse_to_char_scan_neg (code : List Char) (l : List TextMorse)
    (h : morse_to_char_scan code l < 0) : ∀ e ∈ l, e.code ≠ code := by
  induction l with
  | nil => intro e he; cases he
  | cons e rest ih =>
    rw [morse_to_char_scan] at h
    by_cases hc : e.code = code
    · rw [if_pos hc] at h
      have := Int.natCast_nonneg e.c.toNat
      omega
    · rw [if_neg hc] at h
      intro e1 he1
      rcases List.mem_cons.mp he1 with h1 | h1
      · rw [h1]; exact hc
      · exact ih h e1 h1

/-- A pass that accumulates a symbol: the 1-run is valid and the code stays
within `MAX_MORSE_LEN`. -/
theorem body_accumulate (morse : List Nat) (n : Nat) (s : DecState)
    (hones : run_length_nat morse n s.morseBitOffset = 1 ∨ run_length_nat morse n s.morseBitOffset = 3)
    (hlen : s.code.length < 6) :
    morse_to_text_body_nat morse n s
      = pass_gap morse_to_char (s.code ++ [run_symbol (run_length_nat morse n s.morseBitOffset)])
          (run_length_nat morse n (s.morseBitOffset + run_length_nat morse n s.morseBitOffset))
          (has_more_data morse (s.morseBitOffset + run_length_nat morse n s.morseBitOffset
            + run_length_nat morse n (s.morseBitOffset + run_length_nat morse n s.morseBitOffset))
            (n * BITS_PER_BYTE)) s.text
          (s.morseBitOffset + run_length_nat morse n s.morseBitOffset
            + run_length_nat morse n (s.morseBitOffset + run_length_nat morse n s.morseBitOffset))
          s.endOfMessage := by
  rw [body_eq, pass_core]
  have h0 : ¬ run_length_nat morse n s.morseBitOffset = 0 := by omega
  have h13 : ¬ (run_length_nat morse n s.morseBitOffset ≠ 1 ∧ run_length_nat morse n s.morseBitOffset ≠ 3) := by
    omega
  have hl : ¬ (s.code ++ [run_symbol (run_length_nat morse n s.morseBitOffset)]).length
      > MAX_MORSE_LEN := by
    rw [List.length_append]
    unfold MAX_MORSE_LEN
    simp only [List.length_cons, List.length_nil]
    omega
  rw [if_neg h0, if_neg h13, if_neg hl]

theorem pass_gap_zero (f : List Char → Int) (code : List Char) (m : Bool)
    (text : List Nat) (off : Nat) (eom : Bool) (ch : Nat) (hf : f code = (ch : Int))
    (hch : ch ≠ 0) (hc : 0 < code.length) :
    pass_gap f code 0 m text off eom = DecStep.brk ⟨[], text ++ [ch], off, eom⟩ := by
  unfold pass_gap
  have h1 : ¬ ((0 : Nat) = 1) := by decide
  have h3 : ¬ ((0 : Nat) = 3) := by decide
  have h7 : ¬ ((0 : Nat) ≥ 7) := by decide
  have h0 : ¬ ((ch : Int) = 0) := by exact_mod_cast hch
  have hneg : ¬ ((ch : Int) < 0) := by omega
  rw [if_neg h1, if_neg h3, if_neg h7, if_pos rfl, if_pos hc, hf, if_neg h0, if_neg hneg,
    Int.toNat_ofNat]

theorem pass_gap_unlisted (f : List Char → Int) (code : List Char) (k : Nat) (m : Bool)
    (text : List Nat) (off : Nat) (eom : Bool) (hk : k = 2 ∨ k = 4 ∨ k = 5 ∨ k = 6) :
    pass_gap f code k m text off eom = DecStep.cont ⟨code, text, off, eom⟩ := by
  unfold pass_gap
  have h1 : ¬ (k = 1) := by omega
  have h3 : ¬ (k = 3) := by omega
  have h7 : ¬ (k ≥ 7) := by omega
  have h0 : ¬ (k = 0) := by omega
  rw [if_neg h1, if_neg h3, if_neg h7, if_neg h0]

/-- A NUL byte right after an alphanumeric byte ends the stream: what follows
it does not change the bits. -/
theorem encode_bits_nul_after_alnum (pre : List Nat) (c : Nat) (post : List Nat)
    (hc : isalnum c = true) (b : Bool) :
    encode_bits b (pre ++ c :: 0 :: post) = encode_bits b (pre ++ [c]) := by
  induction pre generalizing b with
  | nil =>
    have h0 : isalnum 0 = false := by decide
    have ht : toupper 0 = 0 := by decide
    simp only [List.nil_append, encode_bits, hc, if_true, h0, Bool.false_eq_true, if_false, ht]
  | cons x pre ih =>
    rw [List.cons_append, List.cons_append, encode_bits, encode_bits, ih, ih]

/-! ## The 32-bit bit bound -/

theorem wrap_bound (n : Nat) :
    (n * BITS_PER_BYTE) % 4294967296 = (n % 536870912) * BITS_PER_BYTE := by
  unfold BITS_PER_BYTE
  omega

theorem run_length_wrap (bytes : List Nat) (n : Nat) :
    run_length bytes n = run_length_nat bytes (n % 536870912) := by
  funext off
  unfold run_length run_length_nat
  rw [wrap_bound]

theorem body_wrap (morse : List Nat) (n : Nat) (s : DecState) :
    morse_to_text_body morse n s = morse_to_text_body_nat morse (n % 536870912) s := by
  unfold morse_to_text_body morse_to_text_body_nat
  rw [run_length_wrap, wrap_bound]

theorem guard_wrap (n : Nat) (s : DecState) :
    morse_to_text_guard n s = morse_to_text_guard_nat (n % 536870912) s := by
  unfold morse_to_text_guard morse_to_text_guard_nat
  rw [wrap_bound]

theorem init_wrap (morse : List Nat) (n : Nat) :
    morse_to_text_init morse n = morse_to_text_init_nat morse (n % 536870912) := by
  unfold morse_to_text_init morse_to_text_init_nat
  rw [wrap_bound]

theorem loop_wrap (morse : List Nat) (n fuel : Nat) (s : DecState) :
    morse_to_text_loop morse n fuel s = morse_to_text_loop_nat morse (n % 536870912) fuel s := by
  induction fuel generalizing s with
  | zero => rw [morse_to_text_loop, morse_to_text_loop_nat, guard_wrap]
  | succ k ih =>
    rw [morse_to_text_loop, morse_to_text_loop_nat, guard_wrap, body_wrap]
    cases morse_to_text_guard_nat (n % 536870912) s with
    | false => rfl
    | true =>
      cases morse_to_text_body_nat morse (n % 536870912) s with
      | ret r => rfl
      | brk s1 => rfl
      | cont s1 => exact ih s1

theorem morse_to_text_wrap (morse : List Nat) (n : Nat) :
    morse_to_text morse n = morse_to_text_nat morse (n % 536870912) := by
  unfold morse_to_text morse_to_text_nat
  rw [loop_wrap, init_wrap, wrap_bound]

theorem dec_trace_wrap (morse : List Nat) (n i : Nat) :
    dec_trace morse n i = dec_trace_nat morse (n % 536870912) i := by
  induction i with
  | zero => rw [dec_trace, dec_trace_nat, init_wrap]
  | succ k ih =>
    rw [dec_trace, dec_trace_nat, ih]
    cases dec_trace_nat morse (n % 536870912) k with
    | none => rfl
    | some s =>
      show (if morse_to_text_guard n s = true then _ else none) = _
      rw [guard_wrap, body_wrap]

/-! ## Buffers of `2^32` bits and more -/

theorem morse_to_text_no_bits (morse : List Nat) :
    morse_to_text morse 536870912 = some ⟨0, [0]⟩ := rfl

theorem encode_bits_replicate_length (k : Nat) (b : Bool) :
    (encode_bits b (List.replicate k 69)).length = 4 * k + 16 := by
  induction k generalizing b with
  | zero => rfl
  | succ k ih =>
    rw [List.replicate_succ, encode_bits, if_pos (by decide), List.length_append, ih]
    have h : (letter_bits ((char_to_morse (toupper 69)).getD [])).length = 4 := by decide
    rw [h]
    omega

theorem bits_eq_of_get (a l : List Nat)
    (h : ∀ i, i < l.length → get_bit_at_offset a i = l.getD i 0) : bits a l.length = l := by
  apply List.ext_getElem (bits_length a l.length)
  intro i h1 h2
  have hb := bits_getD a l.length i h2
  rw [List.getD_eq_getElem _ _ h1] at hb
  rw [hb, h i h2, List.getD_eq_getElem _ _ h2]

theorem get_bit_cons_zeros (b m i : Nat) (h : 8 ≤ i) :
    get_bit_at_offset (b :: List.replicate m 0) i = 0 := by
  rw [get_bit_at_offset_div]
  have h1 : i / 8 = (i / 8 - 1) + 1 := by omega
  rw [h1, List.getD_cons_succ]
  have h0 : (List.replicate m 0).getD (i / 8 - 1) 0 = 0 := by
    rw [List.getD_eq_getElem?_getD, List.getElem?_replicate]
    split <;> rfl
  rw [h0, Nat.zero_div]

/-! ## The claims -/

/-- C1, as stated, fails: the text of `2^30 - 5` letters `E` is encoded in
`2^32 - 4` bits, so `text_to_morse` reports `2^29` bytes as used; in
`morse_to_text` the bound `nMorse * BITS_PER_BYTE` is then 0 in 32-bit
arithmetic, no bit is read and the output is the empty string. -/
theorem C1_counterexample :
    (∀ c ∈ List.replicate 1073741819 69, isalnum c = true ∨ c = 32) ∧
    22 * (List.replicate 1073741819 69).length + 16 ≤ 8 * 2952790005 ∧
    ∃ morse : List Nat,
      text_to_morse (List.replicate 1073741819 69) (List.replicate 1073741819 69).length
          (List.replicate 2952790005 0) = some (536870912, morse) ∧
      morse_to_text (morse.take 536870912) 536870912 = some ⟨0, [0]⟩ ∧
      cstring [0] ≠ normalize (List.replicate 1073741819 69) := by
  refine ⟨?_, ?_, write_bits (List.replicate 2952790005 0) 0
    (encode_bits true (List.replicate 1073741819 69)), ?_, morse_to_text_no_bits _, ?_⟩
  · intro c hc
    rw [List.eq_of_mem_replicate hc]
    exact Or.inl (by decide)
  · rw [List.length_replicate]
    norm_num
  · rw [text_to_morse_eq, encode_bits_replicate_length]
    rfl
  · decide

/-- C1 (amended): for every text of ASCII letters, digits and spaces,
`text_to_morse` into a zero-initialised buffer of fewer than `2^32` bits that is
large enough returns a count `n`, and `morse_to_text` on the first `n` bytes of
the buffer returns a non-negative value and leaves the C string
`normalize text`. -/
theorem C1_round_trip (text : List Nat) (cap : Nat)
    (htext : ∀ c ∈ text, isalnum c = true ∨ c = 32)
    (hcap : 22 * text.length + 16 ≤ 8 * cap)
    (hsize : 8 * cap < 2 ^ 32) :
    ∃ (n : Nat) (morse : List Nat) (r : DecResult),
      text_to_morse text text.length (List.replicate cap 0) = some ((n : Int), morse) ∧
      morse_to_text (morse.take n) n = some r ∧ 0 ≤ r.ret ∧
      cstring r.text = normalize text := by
  have hnul : ∀ c ∈ text, c ≠ 0 := by
    intro c hc h0
    rcases htext c hc with h | h
    · rw [h0] at h; exact absurd h (by decide)
    · omega
  obtain ⟨p, hp⟩ := decode_encode text cap hnul hcap
  obtain ⟨h1, h2⟩ := padded_result_spec p (normalize_body true text)
    (normalize_body_ne_zero text true)
  have hle := encode_bits_length_le text true
  have hn : ((encode_bits true text).length + 7) / 8 % 536870912
      = ((encode_bits true text).length + 7) / 8 := by omega
  refine ⟨_, _, _, text_to_morse_eq text _, ?_, h1, ?_⟩
  · rw [morse_to_text_wrap, hn]
    exact hp
  · rw [h2, normalize_eq]

/-- Witness for C1: the text `"a  b "` and a buffer of 16 bytes. -/
theorem C1_round_trip_witness :
    ((∀ c ∈ bytesOf "a  b ", isalnum c = true ∨ c = 32) ∧
      22 * (bytesOf "a  b ").length + 16 ≤ 8 * 16 ∧ 8 * 16 < 2 ^ 32) ∧
    ∃ (n : Nat) (morse : List Nat) (r : DecResult),
      text_to_morse (bytesOf "a  b ") (bytesOf "a  b ").length (List.replicate 16 0)
        = some ((n : Int), morse) ∧
      morse_to_text (morse.take n) n = some r ∧ 0 ≤ r.ret ∧
      cstring r.text = normalize (bytesOf "a  b ") :=
  ⟨⟨by decide, by decide, by decide⟩,
    C1_round_trip (bytesOf "a  b ") 16 (by decide) (by decide) (by decide)⟩

set_option maxRecDepth 1000000 in
/-- C2, as stated, fails: the text `"  hello,  world!  "` ends in a run of
non-alphanumeric bytes, which is encoded as a word gap before the
end-of-message code; the decoded text is `"HELLO WORLD "`, with a space after
the final `D`, and not `"HELLO WORLD"`. -/
theorem C2_counterexample :
    text_to_morse (bytesOf "  hello,  world!  ") 18 (List.replicate 17 0)
      = some (17, [0xAA, 0x22, 0xEA, 0x2E, 0xA3, 0xBB, 0x80, 0xBB, 0x8E, 0xEE, 0x2E, 0x8B, 0xA8,
          0xEA, 0x02, 0xEB, 0xA0]) ∧
    morse_to_text [0xAA, 0x22, 0xEA, 0x2E, 0xA3, 0xBB, 0x80, 0xBB, 0x8E, 0xEE, 0x2E, 0x8B,
        0xA8, 0xEA, 0x02, 0xEB, 0xA0] 17
      = some ⟨12, [72, 69, 76, 76, 79, 32, 87, 79, 82, 76, 68, 32, 0]⟩ ∧
    cstring [72, 69, 76, 76, 79, 32, 87, 79, 82, 76, 68, 32, 0] ≠ bytesOf "HELLO WORLD" ∧
    (cstring [72, 69, 76, 76, 79, 32, 87, 79, 82, 76, 68, 32, 0]).length = 12 := by
  decide

set_option maxRecDepth 1000000 in
/-- C2 (amended): encoding the 18-byte text `"  hello,  world!  "` into a
zero-initialised buffer uses 17 bytes, and decoding those 17 bytes returns 12
with the text `"HELLO WORLD "`: the eleven characters and one space for the
trailing run of non-alphanumeric bytes. -/
theorem C2_hello_world :
    text_to_morse (bytesOf "  hello,  world!  ") 18 (List.replicate 17 0)
      = some (17, [0xAA, 0x22, 0xEA, 0x2E, 0xA3, 0xBB, 0x80, 0xBB, 0x8E, 0xEE, 0x2E, 0x8B, 0xA8,
          0xEA, 0x02, 0xEB, 0xA0]) ∧
    morse_to_text [0xAA, 0x22, 0xEA, 0x2E, 0xA3, 0xBB, 0x80, 0xBB, 0x8E, 0xEE, 0x2E, 0x8B,
        0xA8, 0xEA, 0x02, 0xEB, 0xA0] 17 = some ⟨12, bytesOf "HELLO WORLD " ++ [0]⟩ ∧
    cstring (bytesOf "HELLO WORLD " ++ [0]) = bytesOf "HELLO WORLD " := by
  decide

/-- C3: `text_to_morse` on `"SOS"` with a zero-initialised buffer returns 6 and
leaves the bytes `A8 EE E2 A2 EB A0`, whose first 46 bits are S, O, S and the
end-of-message code in the timing model; `morse_to_text` on these 6 bytes
returns 3 with the text `"SOS"`. -/
theorem C3_sos :
    text_to_morse (bytesOf "SOS") 3 (List.replicate 6 0)
      = some (6, [0xA8, 0xEE, 0xE2, 0xA2, 0xEB, 0xA0]) ∧
    bits [0xA8, 0xEE, 0xE2, 0xA2, 0xEB, 0xA0] 46
      = [1, 0, 1, 0, 1, 0, 0, 0] ++ [1, 1, 1, 0, 1, 1, 1, 0, 1, 1, 1, 0, 0, 0]
        ++ [1, 0, 1, 0, 1, 0, 0, 0] ++ [1, 0, 1, 1, 1, 0, 1, 0, 1, 1, 1, 0, 1, 0, 0, 0] ∧
    morse_to_text [0xA8, 0xEE, 0xE2, 0xA2, 0xEB, 0xA0] 6 = some ⟨3, bytesOf "SOS" ++ [0]⟩ ∧
    cstring (bytesOf "SOS" ++ [0]) = bytesOf "SOS" := by
  decide

/-- C4: for a text that is empty or holds only non-alphanumeric bytes,
`text_to_morse` returns 2 and writes only the end-of-message code `BA E8` into
the first two bytes of the buffer; `morse_to_text` on these two bytes returns 0
with the empty string. -/
theorem C4_only_separators (text rest : List Nat) (h : ∀ c ∈ text, isalnum c = false) :
    text_to_morse text text.length (0 :: 0 :: rest) = some (2, 0xBA :: 0xE8 :: rest) ∧
    bits [0xBA, 0xE8] 16 = [1, 0, 1, 1, 1, 0, 1, 0, 1, 1, 1, 0, 1, 0, 0, 0] ∧
    morse_to_text [0xBA, 0xE8] 2 = some ⟨0, [0]⟩ ∧ cstring [0] = [] := by
  refine ⟨?_, by decide, by decide, by decide⟩
  rw [text_to_morse_eq, encode_bits_no_alnum text h]
  have hw : write_bits ([0, 0] ++ rest) 0 (letter_bits eom_code)
      = write_bits [0, 0] 0 (letter_bits eom_code) ++ rest :=
    write_bits_frame _ _ _ _ (by decide)
  have h2 : write_bits [0, 0] 0 (letter_bits eom_code) = [0xBA, 0xE8] := by decide
  rw [h2] at hw
  have hl : (((letter_bits eom_code).length + 7) / 8 : Nat) = 2 := by decide
  rw [hl]
  exact congrArg (fun m => some (((2 : Nat) : Int), m)) hw

/-- Witness for C4: the text `" ,!"`. -/
theorem C4_only_separators_witness :
    (∀ c ∈ bytesOf " ,!", isalnum c = false) ∧
    (text_to_morse (bytesOf " ,!") (bytesOf " ,!").length (0 :: 0 :: [0, 0])
        = some (2, 0xBA :: 0xE8 :: [0, 0]) ∧
      bits [0xBA, 0xE8] 16 = [1, 0, 1, 1, 1, 0, 1, 0, 1, 1, 1, 0, 1, 0, 0, 0] ∧
      morse_to_text [0xBA, 0xE8] 2 = some ⟨0, [0]⟩ ∧ cstring [0] = []) :=
  ⟨by decide, C4_only_separators (bytesOf " ,!") [0, 0] (by decide)⟩

/-- C5, as stated, fails.  In `BA E8 C0` the end-of-message code and its 3-bit
gap are followed by a maximal run of two 1 bits at offset 16; the decoder has
stopped at the end-of-message code and returns 0.  In a buffer of `2^29` bytes
that starts with `C0` the bound `nMorse * BITS_PER_BYTE` is 0 in 32-bit
arithmetic; no bit is read and the decoder returns 0, with no end-of-message
code seen. -/
theorem C5_counterexample :
    ones_run_at [0xBA, 0xE8, 0xC0] 3 16 2 ∧
    morse_to_text [0xBA, 0xE8, 0xC0] 3 = some ⟨0, [0]⟩ ∧
    (0xC0 :: List.replicate 536870911 0).length = 536870912 ∧
    ones_run_at (0xC0 :: List.replicate 536870911 0) 536870912 0 2 ∧
    morse_to_text (0xC0 :: List.replicate 536870911 0) 536870912 = some ⟨0, [0]⟩ ∧
    dec_trace (0xC0 :: List.replicate 536870911 0) 536870912 0 = some ⟨[], [], 0, false⟩ ∧
    dec_trace (0xC0 :: List.replicate 536870911 0) 536870912 1 = none := by
  refine ⟨?_, by decide, ?_, ?_, by decide, by decide, by decide⟩
  · unfold ones_run_at
    decide
  · rw [List.length_cons, List.length_replicate]
  · unfold ones_run_at
    decide

/-- C5 (amended): for every decode input of fewer than `2^32` bits that holds a
maximal run of 1 bits of length 2 or of length 4 or more, `morse_to_text`
returns, and its value is negative unless a pass of the main loop has
recognised the end-of-message code at or before the start of that run (the
loop then stops and the run is not read). -/
theorem C5_malformed_run (morse : List Nat) (o len : Nat)
    (hsize : morse.length * 8 < 2 ^ 32)
    (hrun : ones_run_at morse morse.length o len) (hbad : len = 2 ∨ 4 ≤ len) :
    ∃ r, morse_to_text morse morse.length = some r ∧
      (r.ret < 0 ∨ ∃ i s, dec_trace morse morse.length i = some s ∧ s.endOfMessage = true ∧
        s.morseBitOffset ≤ o) := by
  have hn : morse.length % 536870912 = morse.length := by omega
  have ht : dec_trace morse morse.length = dec_trace_nat morse morse.length := by
    funext i
    rw [dec_trace_wrap, hn]
  rw [morse_to_text_wrap, hn, ht]
  have hrun' := hrun
  obtain ⟨hlen, hle, hin, -, -⟩ := hrun
  have hbo : get_bit_at_offset morse o = 1 := by
    have := hin 0 hlen
    rwa [Nat.add_zero] at this
  obtain ⟨-, h2, h3, h4⟩ := skip_leading_zeros_spec morse (morse.length * 8)
    (morse.length * 8) 0 rfl (Nat.zero_le _)
  have hinit : (morse_to_text_init_nat morse morse.length).morseBitOffset
      = skip_leading_zeros morse (morse.length * 8) (morse.length * 8) 0 := rfl
  have hle0 : (morse_to_text_init_nat morse morse.length).morseBitOffset ≤ o := by
    rw [hinit]
    by_contra hc
    have := h3 o (Nat.zero_le _) (by omega)
    rw [hbo] at this
    cases this
  exact malformed_run_aux morse morse.length o len hrun' hbad _ 0 _ rfl rfl hle0 (le_refl _)
    (by rw [hinit]; exact bit_ne_zero _ _ (h4 (by rw [hinit] at hle0; omega)))

/-- Witness for C5: the byte `C0` starts with a maximal run of two 1 bits. -/
theorem C5_malformed_run_witness :
    ([0xC0].length * 8 < 2 ^ 32 ∧ ones_run_at [0xC0] [0xC0].length 0 2 ∧ (2 = 2 ∨ 4 ≤ 2)) ∧
    ∃ r, morse_to_text [0xC0] [0xC0].length = some r ∧
      (r.ret < 0 ∨ ∃ i s, dec_trace [0xC0] [0xC0].length i = some s ∧ s.endOfMessage = true ∧
        s.morseBitOffset ≤ 0) :=
  ⟨⟨by decide, by unfold ones_run_at; decide, Or.inl rfl⟩,
    C5_malformed_run [0xC0] 0 2 (by decide) (by unfold ones_run_at; decide) (Or.inl rfl)⟩

/-- C6, failing input: the text `"E"` is encoded as `8B AE 80`, in which the
end-of-message code is followed by a zero-run of seven bits; decoding these
bytes returns 2 although the output holds the one character `E`: the byte at
index 1 is NUL. -/
theorem C6_return_counts_nul :
    text_to_morse (bytesOf "E") 1 (List.replicate 3 0) = some (3, [0x8B, 0xAE, 0x80]) ∧
    morse_to_text [0x8B, 0xAE, 0x80] 3 = some ⟨2, [69, 0, 0]⟩ ∧
    (cstring [69, 0, 0]).length = 1 := by
  decide

/-- C7, as stated, fails: a buffer of `2^29` bytes that starts with `B8` holds
the signal of `A` and then only zero bits, `2^32 - 5` of them; in
`morse_to_text` the bound `nMorse * BITS_PER_BYTE` is 0 in 32-bit arithmetic,
no bit is read and the output is the empty string, not `"A"`. -/
theorem C7_counterexample :
    char_to_morse 65 = some ['.', '-'] ∧ 7 ≤ 4294967291 ∧
    (0xB8 :: List.replicate 536870911 0).length = 536870912 ∧
    bits (0xB8 :: List.replicate 536870911 0) (536870912 * 8)
      = List.replicate 0 0 ++ code_signal ['.', '-'] ++ List.replicate 4294967291 0 ∧
    morse_to_text (0xB8 :: List.replicate 536870911 0) 536870912 = some ⟨0, [0]⟩ := by
  refine ⟨by decide, by decide, ?_, ?_, by decide⟩
  · rw [List.length_cons, List.length_replicate]
  · have hs : List.replicate 0 0 ++ code_signal ['.', '-'] ++ List.replicate 4294967291 0
        = [1, 0, 1, 1, 1] ++ List.replicate 4294967291 0 := rfl
    have hl : ([1, 0, 1, 1, 1] ++ List.replicate 4294967291 0).length = 536870912 * 8 := by
      rw [List.length_append, List.length_replicate]
      rfl
    rw [hs, ← hl]
    apply bits_eq_of_get
    intro i _
    by_cases h8 : 8 ≤ i
    · rw [get_bit_cons_zeros _ _ _ h8, List.getD_append_right _ _ _ _ (by simp; omega),
        List.getD_eq_getElem?_getD, List.getElem?_replicate]
      split <;> rfl
    · have h : i = 0 ∨ i = 1 ∨ i = 2 ∨ i = 3 ∨ i = 4 ∨ i = 5 ∨ i = 6 ∨ i = 7 := by omega
      rcases h with h | h | h | h | h | h | h | h <;> subst h <;> rfl

/-- C7 (amended): for two characters `a` and `b` of the table other than the
end-of-message marker and `k >= 7`, a buffer of fewer than `2^32` bits that
holds (after leading zero bits) the signal of `a`, exactly `k` zero bits, the
signal of `b` and a 3-bit letter gap decodes to `a`, one space, `b`; a buffer
of fewer than `2^32` bits that holds the signal of `a` and then only zero bits,
7 or more, decodes to the single character `a`. -/
theorem C7_word_detection (morse1 morse2 : List Nat) (a b : Nat) (ca cb : List Char)
    (p1 p2 k1 k2 : Nat)
    (hsize1 : morse1.length * 8 < 2 ^ 32) (hsize2 : morse2.length * 8 < 2 ^ 32)
    (ha : char_to_morse a = some ca) (_ha0 : a ≠ 0)
    (hb : char_to_morse b = some cb) (hb0 : b ≠ 0)
    (hk1 : 7 ≤ k1) (hk2 : 7 ≤ k2)
    (h1 : bits morse1 (morse1.length * 8)
      = List.replicate p1 0 ++ code_signal ca ++ List.replicate k1 0 ++ code_signal cb
        ++ List.replicate 3 0)
    (h2 : bits morse2 (morse2.length * 8)
      = List.replicate p2 0 ++ code_signal ca ++ List.replicate k2 0) :
    morse_to_text morse1 morse1.length = some ⟨3, [a, 32, b, 0]⟩ ∧
    morse_to_text morse2 morse2.length = some ⟨1, [a, 0]⟩ := by
  have hn1 : morse1.length % 536870912 = morse1.length := by omega
  have hn2 : morse2.length % 536870912 = morse2.length := by omega
  rw [morse_to_text_wrap, morse_to_text_wrap, hn1, hn2]
  exact ⟨decode_two_words morse1 a b ca cb p1 k1 ha hb hb0 hk1 h1,
    decode_trailing_silence morse2 a ca p2 k2 ha hk2 h2⟩

/-- Witness for C7: `A`, seven zero bits, `B` and a letter gap in `B8 0E A8`;
`A` and seven zero bits after four leading zero bits in `0B 80`. -/
theorem C7_word_detection_witness :
    ([0xB8, 0x0E, 0xA8].length * 8 < 2 ^ 32 ∧ [0x0B, 0x80].length * 8 < 2 ^ 32 ∧
      char_to_morse 65 = some ['.', '-'] ∧ char_to_morse 66 = some ['-', '.', '.', '.'] ∧
      bits [0xB8, 0x0E, 0xA8] ([0xB8, 0x0E, 0xA8].length * 8)
        = List.replicate 0 0 ++ code_signal ['.', '-'] ++ List.replicate 7 0
          ++ code_signal ['-', '.', '.', '.'] ++ List.replicate 3 0 ∧
      bits [0x0B, 0x80] ([0x0B, 0x80].length * 8)
        = List.replicate 4 0 ++ code_signal ['.', '-'] ++ List.replicate 7 0) ∧
    (morse_to_text [0xB8, 0x0E, 0xA8] [0xB8, 0x0E, 0xA8].length = some ⟨3, [65, 32, 66, 0]⟩ ∧
      morse_to_text [0x0B, 0x80] [0x0B, 0x80].length = some ⟨1, [65, 0]⟩) :=
  ⟨⟨by decide, by decide, by decide, by decide, by decide, by decide⟩,
    C7_word_detection [0xB8, 0x0E, 0xA8] [0x0B, 0x80] 65 66 ['.', '-'] ['-', '.', '.', '.']
      0 4 7 7 (by decide) (by decide) (by decide) (by decide) (by decide) (by decide)
      (by decide) (by decide) (by decide) (by decide)⟩

/-- C9: `text_to_morse` returns, and it leaves the same bytes and returns the
same value for a text and for the text with every byte replaced by its
`toupper`, as for `"abc"` and `"ABC"`. -/
theorem C9_case_folding (text morse : List Nat) :
    (∃ r, text_to_morse text text.length morse = some r) ∧
    text_to_morse (text.map toupper) (text.map toupper).length morse
      = text_to_morse text text.length morse ∧
    (bytesOf "abc").map toupper = bytesOf "ABC" := by
  refine ⟨⟨_, text_to_morse_eq text morse⟩, ?_, by decide⟩
  rw [text_to_morse_eq, text_to_morse_eq, encode_bits_map_toupper]

/-- C10, as stated, fails.  In the buffer `AA A0` (six dots, then a zero-run of
five bits that ends the buffer) pass 5 starts with five pending symbols and
accumulates a sixth one, and `morse_to_text` still returns 0.  In a buffer of
`2^29 + 2` bytes that starts with `AA A0` and is zero from there on, the bound
`nMorse * BITS_PER_BYTE` is 16 in 32-bit arithmetic: pass 5 is the same, the
zero-run after the sixth dot is longer than 7 bits in the buffer, and
`morse_to_text` returns 0 as well. -/
theorem C10_counterexample :
    dec_trace [0xAA, 0xA0] 2 5 = some ⟨['.', '.', '.', '.', '.'], [], 10, false⟩ ∧
    run_length [0xAA, 0xA0] 2 10 = 1 ∧
    morse_to_text [0xAA, 0xA0] 2 = some ⟨0, [0]⟩ ∧
    (0xAA :: 0xA0 :: List.replicate 536870912 0).length = 536870914 ∧
    dec_trace (0xAA :: 0xA0 :: List.replicate 536870912 0) 536870914 5
      = some ⟨['.', '.', '.', '.', '.'], [], 10, false⟩ ∧
    run_length (0xAA :: 0xA0 :: List.replicate 536870912 0) 536870914 10 = 1 ∧
    (∀ j, j < 8 → get_bit_at_offset (0xAA :: 0xA0 :: List.replicate 536870912 0) (11 + j) = 0) ∧
    morse_to_text (0xAA :: 0xA0 :: List.replicate 536870912 0) 536870914 = some ⟨0, [0]⟩ := by
  refine ⟨by decide, by decide, by decide, ?_, by decide, by decide, by decide, by decide⟩
  rw [List.length_cons, List.length_cons, List.length_replicate]

/-- C10 (amended): the oversized-code guard is `codeIndex > MAX_MORSE_LEN` with
`MAX_MORSE_LEN = 6`.  Whenever a pass of the main loop starts with six pending
symbols (a seventh one would be accumulated) `morse_to_text` returns a negative
value; when it starts with five pending symbols (a sixth one is accumulated)
and the buffer holds fewer than `2^32` bits, it returns a negative value unless
the zero-run after that symbol has length 1, 2, 4, 5 or 6 and reaches the end
of the buffer. -/
theorem C10_oversized_code (morse : List Nat) (i : Nat) (s : DecState)
    (ht : dec_trace morse morse.length i = some s)
    (hg : morse_to_text_guard morse.length s = true)
    (h : 6 ≤ s.code.length ∨
      (s.code.length = 5 ∧ morse.length * 8 < 2 ^ 32 ∧
        ¬ (run_length morse morse.length
              (s.morseBitOffset + run_length morse morse.length s.morseBitOffset)
              ∈ [1, 2, 4, 5, 6] ∧
            s.morseBitOffset + run_length morse morse.length s.morseBitOffset
              + run_length morse morse.length
                  (s.morseBitOffset + run_length morse morse.length s.morseBitOffset)
              = morse.length * 8))) :
    ∃ r, morse_to_text morse morse.length = some r ∧ r.ret < 0 := by
  rw [dec_trace_wrap] at ht
  rw [guard_wrap] at hg
  rw [run_length_wrap] at h
  rw [morse_to_text_wrap, trace_decode morse _ i s ht]
  rcases h with h6 | ⟨h5, hsize, hz⟩
  · exact oversized_six morse _ s hg h6
  · have hn : morse.length % 536870912 = morse.length := by omega
    rw [hn] at hg hz ⊢
    exact oversized_five morse morse.length s hg h5 hz

/-- Witness for C10: in `AA A8` (seven dots) pass 6 starts with six pending
symbols. -/
theorem C10_oversized_code_witness :
    (dec_trace [0xAA, 0xA8] [0xAA, 0xA8].length 6
        = some ⟨['.', '.', '.', '.', '.', '.'], [], 12, false⟩ ∧
      morse_to_text_guard [0xAA, 0xA8].length ⟨['.', '.', '.', '.', '.', '.'], [], 12, false⟩
        = true) ∧
    ∃ r, morse_to_text [0xAA, 0xA8] [0xAA, 0xA8].length = some r ∧ r.ret < 0 :=
  ⟨⟨by decide, by decide⟩,
    C10_oversized_code [0xAA, 0xA8] 6 ⟨['.', '.', '.', '.', '.', '.'], [], 12, false⟩
      (by decide) (by decide) (Or.inl (by decide))⟩

/-- C11: when a pass of the main loop of `morse_to_text` (so before any
end-of-message code has been recognised) accumulates a symbol, the pending
code with that symbol is not a code of the table, and the zero-run that
follows has length 3, length 7 or more, or length 0 (the buffer ends after the
1-run), `morse_to_text` returns a negative value. -/
theorem C11_unresolvable_code (morse : List Nat) (i : Nat) (s : DecState)
    (ht : dec_trace morse morse.length i = some s)
    (hg : morse_to_text_guard morse.length s = true)
    (hones : run_length morse morse.length s.morseBitOffset = 1 ∨
      run_length morse morse.length s.morseBitOffset = 3)
    (hcode : ∀ e ∈ char_codes,
      e.code ≠ s.code ++ [run_symbol (run_length morse morse.length s.morseBitOffset)])
    (hz : run_length morse morse.length
          (s.morseBitOffset + run_length morse morse.length s.morseBitOffset) = 3 ∨
      7 ≤ run_length morse morse.length
          (s.morseBitOffset + run_length morse morse.length s.morseBitOffset) ∨
      run_length morse morse.length
          (s.morseBitOffset + run_length morse morse.length s.morseBitOffset) = 0) :
    ∃ r, morse_to_text morse morse.length = some r ∧ r.ret < 0 := by
  rw [dec_trace_wrap] at ht
  rw [guard_wrap] at hg
  rw [run_length_wrap] at hones hcode hz
  rw [morse_to_text_wrap, trace_decode morse _ i s ht]
  by_cases h6 : 6 ≤ s.code.length
  · exact oversized_six morse _ s hg h6
  · have hb := body_accumulate morse _ s hones (by omega)
    rw [pass_gap_unresolved _ _ _ _ _ _ _ (morse_to_char_scan_none _ _ hcode)
      (by rw [List.length_append]; simp), if_pos hz] at hb
    exact ⟨_, decode_from_ret morse _ s _ hg hb, neg_one_lt _⟩

/-- Witness for C11: four dashes and then nine zero bits in `EE EE 00`. -/
theorem C11_unresolvable_code_witness :
    (dec_trace [0xEE, 0xEE, 0x00] [0xEE, 0xEE, 0x00].length 3
        = some ⟨['-', '-', '-'], [], 12, false⟩ ∧
      run_length [0xEE, 0xEE, 0x00] [0xEE, 0xEE, 0x00].length 12 = 3 ∧
      run_length [0xEE, 0xEE, 0x00] [0xEE, 0xEE, 0x00].length (12 + 3) = 9) ∧
    ∃ r, morse_to_text [0xEE, 0xEE, 0x00] [0xEE, 0xEE, 0x00].length = some r ∧ r.ret < 0 :=
  ⟨by decide,
    C11_unresolvable_code [0xEE, 0xEE, 0x00] 3 ⟨['-', '-', '-'], [], 12, false⟩
      (by decide) (by decide) (by decide) (by decide) (by decide)⟩

/-- C12: `char_to_morse c` is found exactly for `A`-`Z`, `0`-`9` and NUL; the
37 codes of the table are pairwise distinct; `morse_to_char` of the code of `c`
is `c`; `morse_to_char s` is non-negative exactly when `s` equals a code of the
table (a proper prefix such as `----` is not found), and then `char_to_morse`
of the character gives `s` back; otherwise `morse_to_char s` is `-1`. -/
theorem C12_table_inverse :
    (∀ c, (char_to_morse c).isSome = true ↔ has_code c) ∧
    char_codes.length = 37 ∧ (char_codes.map (fun e => e.code)).Nodup ∧
    (∀ c code, char_to_morse c = some code → morse_to_char code = (c : Int)) ∧
    (∀ s, (∃ e ∈ char_codes, e.code = s) ↔ 0 ≤ morse_to_char s) ∧
    (∀ s, 0 ≤ morse_to_char s → char_to_morse (morse_to_char s).toNat = some s) ∧
    (∀ s, ¬ (∃ e ∈ char_codes, e.code = s) → morse_to_char s = -1) ∧
    morse_to_char ['-', '-', '-', '-'] = -1 := by
  refine ⟨char_to_morse_found, char_codes_distinct.1, char_codes_distinct.2.1, ?_, ?_, ?_, ?_,
    by decide⟩
  · intro c code h
    exact (table_entry c code h).2.2.2
  · intro s
    constructor
    · rintro ⟨e, he, hs⟩
      rcases morse_to_char_scan_cases s char_codes with h | h
      · exact absurd hs (morse_to_char_scan_neg s char_codes (by rw [h]; decide) e he)
      · exact h
    · intro h
      obtain ⟨e, he, hs, -⟩ := morse_to_char_scan_found s char_codes h
      exact ⟨e, he, hs⟩
  · intro s h
    obtain ⟨e, he, hs, hr⟩ := morse_to_char_scan_found s char_codes h
    have hr1 : morse_to_char s = (e.c.toNat : Int) := hr
    rw [hr1, Int.toNat_ofNat, char_codes_entries e he, hs]
  · intro s h
    apply morse_to_char_scan_none
    intro e he hs
    exact h ⟨e, he, hs⟩

/-- C13, as stated, fails: for a buffer of `2^29` bytes the product
`nBytes * BITS_PER_BYTE` is 0 in 32-bit arithmetic, and `run_length` returns 0
at bit offset 0 although that offset is below `8 * nBytes` and starts a run of
1 bits. -/
theorem C13_counterexample :
    (List.replicate 536870912 255).length = 536870912 ∧
    run_length (List.replicate 536870912 255) 536870912 0 = 0 ∧
    0 < 8 * 536870912 ∧
    get_bit_at_offset (List.replicate 536870912 255) 0 = 1 :=
  ⟨List.length_replicate _ _, by decide, by decide, by decide⟩

/-- C13 (amended): for a buffer of `nBytes` bytes with `8 * nBytes < 2^32`,
`run_length` returns 0 exactly when `bitOffset` is at or beyond the
`8 * nBytes` bits of the buffer; otherwise it returns the length `n >= 1` of the
maximal run of equal bits that starts at `bitOffset`: the run stays inside the
buffer, every bit of it equals the bit at `bitOffset`, and the run ends at the
end of the buffer or at a bit that differs.  The function only reads the buffer
(its result is a number). -/
theorem C13_run_length (bytes : List Nat) (nBytes bitOffset : Nat)
    (hsize : 8 * nBytes < 2 ^ 32) :
    (run_length bytes nBytes bitOffset = 0 ↔ bitOffset ≥ 8 * nBytes) ∧
    (bitOffset < 8 * nBytes →
      1 ≤ run_length bytes nBytes bitOffset ∧
      bitOffset + run_length bytes nBytes bitOffset ≤ 8 * nBytes ∧
      (∀ j, j < run_length bytes nBytes bitOffset →
        get_bit_at_offset bytes (bitOffset + j) = get_bit_at_offset bytes bitOffset) ∧
      (bitOffset + run_length bytes nBytes bitOffset = 8 * nBytes ∨
        get_bit_at_offset bytes (bitOffset + run_length bytes nBytes bitOffset)
          ≠ get_bit_at_offset bytes bitOffset)) := by
  have hn : nBytes % 536870912 = nBytes := by omega
  rw [run_length_wrap, hn]
  constructor
  · rw [run_length_zero_iff]; omega
  · intro h
    obtain ⟨h1, h2, h3, h4⟩ := run_length_spec bytes nBytes bitOffset (by omega)
    refine ⟨h1, by omega, h3, ?_⟩
    by_cases he : bitOffset + run_length_nat bytes nBytes bitOffset = 8 * nBytes
    · exact Or.inl he
    · exact Or.inr (h4 (by omega))

/-- Witness for C13: in the two bytes `0F 80` the run of 1 bits that starts at
offset 4 has length 5. -/
theorem C13_run_length_witness :
    8 * 2 < 2 ^ 32 ∧ run_length [0x0F, 0x80] 2 4 = 5 ∧
    ((run_length [0x0F, 0x80] 2 4 = 0 ↔ 4 ≥ 8 * 2) ∧
    (4 < 8 * 2 →
      1 ≤ run_length [0x0F, 0x80] 2 4 ∧
      4 + run_length [0x0F, 0x80] 2 4 ≤ 8 * 2 ∧
      (∀ j, j < run_length [0x0F, 0x80] 2 4 →
        get_bit_at_offset [0x0F, 0x80] (4 + j) = get_bit_at_offset [0x0F, 0x80] 4) ∧
      (4 + run_length [0x0F, 0x80] 2 4 = 8 * 2 ∨
        get_bit_at_offset [0x0F, 0x80] (4 + run_length [0x0F, 0x80] 2 4)
          ≠ get_bit_at_offset [0x0F, 0x80] 4))) :=
  ⟨by decide, by decide, C13_run_length [0x0F, 0x80] 2 4 (by decide)⟩

/-- C15: `get_byte_offset o = o / 8` and `get_bit_index o = o % 8`, so
`o = 8 * get_byte_offset o + get_bit_index o` with `get_bit_index o < 8`, and
the pair determines `o`; `get_log2_power_of_2 8` returns 3; and
`get_bit_at_offset` reads the bit of weight `2^(7 - o % 8)` of byte `o / 8`,
most significant bit first, as in the documented example `{0xB1, 0xC7}`. -/
theorem C15_bit_offset_decomposition (o : Nat) :
    get_byte_offset o = o / 8 ∧ get_bit_index o = o % 8 ∧
    o = 8 * get_byte_offset o + get_bit_index o ∧ get_bit_index o < 8 ∧
    (∀ o1, get_byte_offset o1 = get_byte_offset o → get_bit_index o1 = get_bit_index o →
      o1 = o) ∧
    get_log2_power_of_2 8 = some 3 ∧
    (∀ array : List Nat,
      get_bit_at_offset array o = array.getD (o / 8) 0 / 2 ^ (7 - o % 8) % 2) ∧
    byte_bit_mask (get_bit_index o) = 2 ^ (7 - o % 8) ∧
    bits [0xB1, 0xC7] 16 = [1, 0, 1, 1, 0, 0, 0, 1, 1, 1, 0, 0, 0, 1, 1, 1] := by
  refine ⟨get_byte_offset_eq o, get_bit_index_eq o, ?_, ?_, ?_, by decide,
    fun array => get_bit_at_offset_div array o, ?_, by decide⟩
  · rw [get_byte_offset_eq, get_bit_index_eq]; omega
  · rw [get_bit_index_eq]; omega
  · intro o1 h1 h2
    rw [get_byte_offset_eq, get_byte_offset_eq] at h1
    rw [get_bit_index_eq, get_bit_index_eq] at h2
    omega
  · rw [byte_bit_mask_eq, get_bit_index_eq]

/-- C16: when a pass of the main loop of `morse_to_text` accumulates a symbol
whose 1-run ends exactly at the end of the buffer (the zero-run that follows
has length 0) and the pending code with that symbol is the code of a character
`c` of the table other than the end-of-message marker, the call does not fail:
it appends `c`, terminates the text and returns the number of characters,
although no end-of-message code was seen. -/
theorem C16_permissive_end (morse : List Nat) (i : Nat) (s : DecState) (c : Nat)
    (ht : dec_trace morse morse.length i = some s)
    (hg : morse_to_text_guard morse.length s = true)
    (hones : run_length morse morse.length s.morseBitOffset = 1 ∨
      run_length morse morse.length s.morseBitOffset = 3)
    (hend : s.morseBitOffset + run_length morse morse.length s.morseBitOffset
      = morse.length * 8)
    (hcode : char_to_morse c
      = some (s.code ++ [run_symbol (run_length morse morse.length s.morseBitOffset)]))
    (hc : c ≠ 0) :
    morse_to_text morse morse.length
      = some ⟨(s.text.length : Int) + 1, s.text ++ [c, 0]⟩ := by
  rw [dec_trace_wrap] at ht
  rw [guard_wrap] at hg
  rw [run_length_wrap] at hones hend hcode
  obtain ⟨t1, t2, t3, t4⟩ := table_entry c _ hcode
  have hlen : s.code.length < 6 := by
    rw [List.length_append] at t2
    simp only [List.length_cons, List.length_nil] at t2
    omega
  have hle : morse.length % 536870912 ≤ morse.length := Nat.mod_le _ _
  have hz : run_length_nat morse (morse.length % 536870912)
      (s.morseBitOffset + run_length_nat morse (morse.length % 536870912) s.morseBitOffset)
        = 0 := by
    rw [run_length_zero_iff]; omega
  have hb := body_accumulate morse _ s hones hlen
  rw [hz, pass_gap_zero _ _ _ _ _ _ c t4 hc (List.length_pos.mpr t1)] at hb
  rw [morse_to_text_wrap, trace_decode morse _ i s ht, decode_from_brk morse _ s _ hg hb,
    finish_eq]
  simp only [List.length_append, List.length_cons, List.length_nil, List.append_assoc,
    List.cons_append, List.nil_append, Nat.cast_add, Nat.cast_one, Nat.cast_zero, zero_add]

/-- Witness for C16: the single byte `01` decodes to `"E"` with return value
1. -/
theorem C16_permissive_end_witness :
    (dec_trace [0x01] [0x01].length 0 = some ⟨[], [], 7, false⟩ ∧
      run_length [0x01] [0x01].length 7 = 1 ∧ 7 + 1 = [0x01].length * 8 ∧
      char_to_morse 69 = some ['.']) ∧
    morse_to_text [0x01] [0x01].length = some ⟨1, [69, 0]⟩ :=
  ⟨by decide,
    C16_permissive_end [0x01] 0 ⟨[], [], 7, false⟩ 69 (by decide) (by decide) (by decide)
      (by decide) (by decide) (by decide)⟩

/-- C17, as stated, fails: in the text `'A', ' ', NUL, 'B'` the NUL byte is
inside a run of non-alphanumeric bytes and is skipped with the run, so `B` is
encoded too; the result differs from that for the prefix `'A', ' '`. -/
theorem C17_counterexample :
    text_to_morse [65, 32, 0, 66] 4 (List.replicate 6 0)
      = some (5, [0xB8, 0x0E, 0xA8, 0xBA, 0xE8, 0x00]) ∧
    text_to_morse [65, 32] 2 (List.replicate 6 0)
      = some (4, [0xB8, 0x0B, 0xAE, 0x80, 0x00, 0x00]) ∧
    text_to_morse [0, 65] 2 (List.replicate 6 0)
      = some (3, [0xB8, 0xBA, 0xE8, 0x00, 0x00, 0x00]) ∧
    text_to_morse [] 0 (List.replicate 6 0)
      = some (2, [0xBA, 0xE8, 0x00, 0x00, 0x00, 0x00]) := by
  decide

/-- C17 (amended): for every text in which a NUL byte comes right after an
alphanumeric byte, `text_to_morse` emits the end-of-message code at that NUL
and stops: its buffer and return value equal those for the prefix of the text
that precedes that NUL. -/
theorem C17_sentinel_terminator (pre : List Nat) (c : Nat) (post morse : List Nat)
    (hc : isalnum c = true) :
    (∃ r, text_to_morse (pre ++ [c]) (pre ++ [c]).length morse = some r) ∧
    text_to_morse (pre ++ c :: 0 :: post) (pre ++ c :: 0 :: post).length morse
      = text_to_morse (pre ++ [c]) (pre ++ [c]).length morse := by
  refine ⟨⟨_, text_to_morse_eq _ morse⟩, ?_⟩
  rw [text_to_morse_eq, text_to_morse_eq, encode_bits_nul_after_alnum pre c post hc]

/-- Witness for C17: the text `'A', NUL, 'B'` is encoded like `"A"`. -/
theorem C17_sentinel_terminator_witness :
    isalnum 65 = true ∧
    ((∃ r, text_to_morse ([] ++ [65]) ([] ++ [65]).length (List.replicate 6 0) = some r) ∧
    text_to_morse ([] ++ 65 :: 0 :: [66]) ([] ++ 65 :: 0 :: [66]).length (List.replicate 6 0)
      = text_to_morse ([] ++ [65]) ([] ++ [65]).length (List.replicate 6 0)) :=
  ⟨by decide, C17_sentinel_terminator [] 65 [66] (List.replicate 6 0) (by decide)⟩

/-- C18: at the head of every pass of the main loop of `morse_to_text` the
pending code holds at most `MAX_MORSE_LEN = 6` symbols, so the symbol written at
`code[codeIndex++]` goes to an index of at most 6; and a pass that brings the
code to more than 6 symbols returns before the terminating NUL is written at
`code[codeIndex]`, so that write uses an index of at most 6 too. -/
theorem C18_code_buffer_safety (morse : List Nat) (i : Nat) (s : DecState)
    (ht : dec_trace morse morse.length i = some s) :
    s.code.length ≤ MAX_MORSE_LEN ∧ MAX_MORSE_LEN = 6 ∧
    ((s.code ++ [run_symbol (run_length morse morse.length s.morseBitOffset)]).length
        > MAX_MORSE_LEN →
      morse_to_text_body morse morse.length s = DecStep.brk s ∨
      morse_to_text_body morse morse.length s = DecStep.ret ⟨-1, s.text⟩) := by
  rw [dec_trace_wrap] at ht
  rw [run_length_wrap, body_wrap]
  exact ⟨dec_trace_code_length morse _ i s ht, rfl, body_guard_length morse _ s⟩

/-- Witness for C18: in `AA A8` (seven dots) pass 6 starts with six pending
symbols. -/
theorem C18_code_buffer_safety_witness :
    dec_trace [0xAA, 0xA8] [0xAA, 0xA8].length 6
        = some ⟨['.', '.', '.', '.', '.', '.'], [], 12, false⟩ ∧
    ((['.', '.', '.', '.', '.', '.'] : List Char).length ≤ MAX_MORSE_LEN ∧ MAX_MORSE_LEN = 6 ∧
    (((['.', '.', '.', '.', '.', '.'] : List Char)
          ++ [run_symbol (run_length [0xAA, 0xA8] [0xAA, 0xA8].length 12)]).length
        > MAX_MORSE_LEN →
      morse_to_text_body [0xAA, 0xA8] [0xAA, 0xA8].length
          ⟨['.', '.', '.', '.', '.', '.'], [], 12, false⟩
        = DecStep.brk ⟨['.', '.', '.', '.', '.', '.'], [], 12, false⟩ ∨
      morse_to_text_body [0xAA, 0xA8] [0xAA, 0xA8].length
          ⟨['.', '.', '.', '.', '.', '.'], [], 12, false⟩
        = DecStep.ret ⟨-1, []⟩)) :=
  ⟨by decide,
    C18_code_buffer_safety [0xAA, 0xA8] 6 ⟨['.', '.', '.', '.', '.', '.'], [], 12, false⟩
      (by decide)⟩

/-- C19: when a pass of the main loop of `morse_to_text` accumulates a symbol
and the zero-run that follows has length 2, 4, 5 or 6, the pass neither fails
nor resolves or clears the pending code: it ends like a pass with a 1-bit gap,
with the symbol added to the pending code and the text unchanged, so the next
symbol goes into the same code; and if that zero-run reaches the end of the
buffer the call returns the number of characters produced so far and the
pending code is not emitted. -/
theorem C19_unlisted_gap (morse : List Nat) (i : Nat) (s : DecState)
    (ht : dec_trace morse morse.length i = some s)
    (hg : morse_to_text_guard morse.length s = true)
    (hones : run_length morse morse.length s.morseBitOffset = 1 ∨
      run_length morse morse.length s.morseBitOffset = 3)
    (hlen : s.code.length < MAX_MORSE_LEN)
    (hz : run_length morse morse.length
          (s.morseBitOffset + run_length morse morse.length s.morseBitOffset) = 2 ∨
      run_length morse morse.length
          (s.morseBitOffset + run_length morse morse.length s.morseBitOffset) = 4 ∨
      run_length morse morse.length
          (s.morseBitOffset + run_length morse morse.length s.morseBitOffset) = 5 ∨
      run_length morse morse.length
          (s.morseBitOffset + run_length morse morse.length s.morseBitOffset) = 6) :
    morse_to_text_body morse morse.length s
      = DecStep.cont ⟨s.code ++ [run_symbol (run_length morse morse.length s.morseBitOffset)],
          s.text,
          s.morseBitOffset + run_length morse morse.length s.morseBitOffset
            + run_length morse morse.length
                (s.morseBitOffset + run_length morse morse.length s.morseBitOffset),
          s.endOfMessage⟩ ∧
    (∀ more, pass_core morse_to_char (run_length morse morse.length s.morseBitOffset) 1 more s
      = DecStep.cont ⟨s.code ++ [run_symbol (run_length morse morse.length s.morseBitOffset)],
          s.text, s.morseBitOffset + run_length morse morse.length s.morseBitOffset + 1,
          s.endOfMessage⟩) ∧
    dec_trace morse morse.length (i + 1)
      = some ⟨s.code ++ [run_symbol (run_length morse morse.length s.morseBitOffset)],
          s.text,
          s.morseBitOffset + run_length morse morse.length s.morseBitOffset
            + run_length morse morse.length
                (s.morseBitOffset + run_length morse morse.length s.morseBitOffset),
          s.endOfMessage⟩ ∧
    (s.morseBitOffset + run_length morse morse.length s.morseBitOffset
        + run_length morse morse.length
            (s.morseBitOffset + run_length morse morse.length s.morseBitOffset)
        = morse.length * 8 →
      morse_to_text morse morse.length = some ⟨(s.text.length : Int), s.text ++ [0]⟩) := by
  rw [dec_trace_wrap] at ht
  rw [guard_wrap] at hg
  rw [run_length_wrap] at hones hz
  rw [body_wrap, dec_trace_wrap, morse_to_text_wrap, run_length_wrap]
  have hle : morse.length % 536870912 ≤ morse.length := Nat.mod_le _ _
  generalize morse.length % 536870912 = n at ht hg hones hz hle ⊢
  have hlen' : s.code.length < 6 := hlen
  have hb := body_accumulate morse n s hones hlen'
  rw [pass_gap_unlisted _ _ _ _ _ _ _ hz] at hb
  refine ⟨hb, ?_, dec_trace_succ morse n i s _ ht hg hb, ?_⟩
  · intro more
    rw [pass_core]
    have h0 : ¬ run_length_nat morse n s.morseBitOffset = 0 := by omega
    have h13 : ¬ (run_length_nat morse n s.morseBitOffset ≠ 1 ∧
        run_length_nat morse n s.morseBitOffset ≠ 3) := by omega
    have hl : ¬ (s.code ++ [run_symbol (run_length_nat morse n s.morseBitOffset)]).length
        > MAX_MORSE_LEN := by
      rw [List.length_append]
      simp only [List.length_cons, List.length_nil]
      omega
    rw [if_neg h0, if_neg h13, if_neg hl, pass_gap_one]
  · intro hend
    rw [trace_decode morse n i s ht, decode_from_cont morse n s _ hg hb]
    apply decode_from_stop
    cases hgd : morse_to_text_guard_nat n _ with
    | false => rfl
    | true =>
      rw [guard_iff] at hgd
      have := hgd.1
      simp only [] at this
      omega

/-- Witness for C19: in the byte `90` a dot is followed by a zero-run of two
bits. -/
theorem C19_unlisted_gap_witness :
    (dec_trace [0x90] [0x90].length 0 = some ⟨[], [], 0, false⟩ ∧
      run_length [0x90] [0x90].length 0 = 1 ∧ run_length [0x90] [0x90].length (0 + 1) = 2) ∧
    morse_to_text_body [0x90] [0x90].length ⟨[], [], 0, false⟩
      = DecStep.cont ⟨[] ++ [run_symbol (run_length [0x90] [0x90].length 0)], [],
          0 + run_length [0x90] [0x90].length 0
            + run_length [0x90] [0x90].length (0 + run_length [0x90] [0x90].length 0),
          false⟩ :=
  ⟨by decide,
    (C19_unlisted_gap [0x90] 0 ⟨[], [], 0, false⟩ (by decide) (by decide) (by decide)
      (by decide) (by decide)).1⟩

end Morse
